import Mathlib

/-!
# Verification of the godiff diff core

This file gives a shallow embedding of the diff core of the `godiff`
file-comparison tool and proves/refutes the specification claims about it.

Conventions of the embedding:
* Go byte slices (`[]byte`) become `List Nat` (each byte a `Nat`).
* Go `int` values that can be negative (equivalence ids, diagonal indices of the
  Myers algorithm) become `Int`; line indices that are always non-negative
  become `Nat`, with Go's `i-1 >= 0` guards written as the equivalent `1 ≤ i`.
* Mutation becomes explicit state passing; a mutated `[]bool` becomes a
  `List Bool` updated with `List.set`.
* Unbounded `for` loops become fuel-indexed recursions.  The fuel passed at
  each call site is stated explicitly; where a universal theorem depends on the
  loop terminating, the development proves that the fuel suffices.
* The CRC32C (Castagnoli) table from Go's `hash/crc32` standard library is an
  external collaborator of the repository; it is reproduced from the standard
  polynomial.  The Unicode tables (`unicode.ToLower`, `unicode.IsSpace`,
  `unicode/utf8.DecodeRune`) are likewise external; they are abstracted as a
  parameter structure `UnicodeModel`, and all theorems about the Unicode paths
  hold for every instantiation of that structure.
-/

set_option linter.unusedVariables false
set_option maxRecDepth 100000

namespace Godiff

/-- A line: an immutable view of bytes (terminator stripped). -/
abbrev Line := List Nat

/-! ## utils.go -/

/-- `utils.MaxInt`. -/
def MaxInt (a b : Int) : Int := if a < b then b else a

/-- `utils.MinInt`. -/
def MinInt (a b : Int) : Int := if a < b then a else b

/-- `utils.ToLowerByte`: ASCII lower-casing of one byte. -/
def to_lower_byte (b : Nat) : Nat := if 65 ≤ b ∧ b ≤ 90 then b - 65 + 97 else b

/-- `utils.IsSpace`: ASCII space test (`' '`, `'\t'`, `'\v'`, `'\f'`). -/
def is_space (b : Nat) : Bool := b == 32 || b == 9 || b == 11 || b == 12

/-! ## CRC32C (external: Go `hash/crc32`, Castagnoli table) -/

/-- The reversed Castagnoli polynomial used by `crc32.MakeTable(crc32.Castagnoli)`. -/
def crcPoly : Nat := 0x82F63B78

/-- One bit-step of the CRC table construction. -/
def crcStep (c : Nat) : Nat := if c % 2 == 1 then Nat.xor (c / 2) crcPoly else c / 2

/-- Entry `i` of the Castagnoli CRC table (`crc_table` in the source). -/
def crc_table (i : Nat) : Nat := crcStep (crcStep (crcStep (crcStep (crcStep (crcStep (crcStep (crcStep i)))))))

/-- `hash32`: one byte-step of the rolling hash,
`crc_table[byte(h)^b] ^ (h >> 8)`. -/
def hash32 (h : Nat) (b : Nat) : Nat := Nat.xor (crc_table (Nat.xor (h % 256) b % 256)) (h / 256)

/-- `compute_hash_exact`: `crc32.Update(0, crc_table, data)`; the standard CRC
update inverts the running value before and after folding the bytes. -/
def compute_hash_exact (data : Line) : Nat :=
  Nat.xor (data.foldl hash32 (Nat.xor 0 0xFFFFFFFF)) 0xFFFFFFFF

/-! ## Comparison configuration -/

/-- The comparison flags of the command line (`-i -b -w -B -unicode -c`). -/
structure Flags where
  ignore_case : Bool
  ignore_space_change : Bool
  ignore_all_space : Bool
  ignore_blank_lines : Bool
  unicode : Bool
  context_lines : Nat
deriving DecidableEq, Repr

/-- The exact configuration: every ignore flag off, default context. -/
def exactFlags : Flags :=
  { ignore_case := false, ignore_space_change := false, ignore_all_space := false
    ignore_blank_lines := false, unicode := false, context_lines := 3 }

/-! ## Byte-level comparator (`compare_line_bytes` and helpers) -/

/-- Loop body of `skip_space_byte`: first index `≥ i` holding a non-space, capped at the length. -/
def skip_space_byte_go (line : Line) : Nat → Nat → Nat
  | 0, i => i
  | fuel+1, i =>
    if i < line.length then
      if is_space (line.getD i 0) then skip_space_byte_go line fuel (i+1) else i
    else i

/-- `skip_space_byte`. -/
def skip_space_byte (line : Line) (i : Nat) : Nat := skip_space_byte_go line line.length i

/-- `get_next_byte_nonspace`. -/
def get_next_byte_nonspace (line : Line) (i : Nat) : Nat × Nat :=
  (line.getD i 0, skip_space_byte line (i+1))

/-- `get_next_byte_xspace`: next byte, whether a space run follows it
(trailing runs at end-of-line do not count), and the next index. -/
def get_next_byte_xspace (line : Line) (i : Nat) : Nat × Bool × Nat :=
  let b := line.getD i 0
  let j := skip_space_byte line (i+1)
  let space_after := decide (i+1 < j) && decide (j < line.length)
  (b, space_after, j)

/-- Loop of the `ignore_all_space` case of `compare_line_bytes`. -/
def cmpBytesAS_go (ic : Bool) (line1 line2 : Line) : Nat → Nat → Nat → Bool
  | 0, _, _ => true
  | fuel+1, i, j =>
    if i < line1.length ∧ j < line2.length then
      let p1 := get_next_byte_nonspace line1 i
      let p2 := get_next_byte_nonspace line2 j
      let v1 := p1.1
      let v2 := p2.1
      let v1 := if ic ∧ v1 ≠ v2 then to_lower_byte v1 else v1
      let v2 := if ic ∧ p1.1 ≠ p2.1 then to_lower_byte v2 else v2
      if v1 ≠ v2 then false else cmpBytesAS_go ic line1 line2 fuel p1.2 p2.2
    else !(decide (i < line1.length) || decide (j < line2.length))

/-- Loop of the `ignore_space_change` case of `compare_line_bytes`. -/
def cmpBytesSC_go (ic : Bool) (line1 line2 : Line) : Nat → Nat → Nat → Bool
  | 0, _, _ => true
  | fuel+1, i, j =>
    if i < line1.length ∧ j < line2.length then
      let p1 := get_next_byte_xspace line1 i
      let p2 := get_next_byte_xspace line2 j
      let v1 := if ic ∧ p1.1 ≠ p2.1 then to_lower_byte p1.1 else p1.1
      let v2 := if ic ∧ p1.1 ≠ p2.1 then to_lower_byte p2.1 else p2.1
      if v1 ≠ v2 ∨ p1.2.1 ≠ p2.2.1 then false
      else cmpBytesSC_go ic line1 line2 fuel p1.2.2 p2.2.2
    else !(decide (i < line1.length) || decide (j < line2.length))

/-- Loop of the `ignore_case` case of `compare_line_bytes`. -/
def cmpBytesIC_go (line1 line2 : Line) : Nat → Nat → Nat → Bool
  | 0, _, _ => true
  | fuel+1, i, j =>
    if i < line1.length ∧ j < line2.length then
      if to_lower_byte (line1.getD i 0) ≠ to_lower_byte (line2.getD j 0) then false
      else cmpBytesIC_go line1 line2 fuel (i+1) (j+1)
    else !(decide (i < line1.length) || decide (j < line2.length))

/-- `compare_line_bytes`: the byte-mode line comparator.  The `switch` with no
matching case falls through to `true`. -/
def compare_line_bytes (f : Flags) (line1 line2 : Line) : Bool :=
  if f.ignore_all_space then
    cmpBytesAS_go f.ignore_case line1 line2 (line1.length + 1) (skip_space_byte line1 0) (skip_space_byte line2 0)
  else if f.ignore_space_change then
    cmpBytesSC_go f.ignore_case line1 line2 (line1.length + 1) (skip_space_byte line1 0) (skip_space_byte line2 0)
  else if f.ignore_case then
    if line1.length ≠ line2.length then false
    else cmpBytesIC_go line1 line2 (line1.length + 1) 0 0
  else true

/-! ## Byte-level hasher (`compute_hash_bytes`) -/

/-- Step of the `ignore_space_change` hash: state is `(hash, last_hash, last_space)`. -/
def hashSC_step (ic : Bool) (st : Nat × Nat × Bool) (v1 : Nat) : Nat × Nat × Bool :=
  if is_space v1 then
    if !st.2.2 then (hash32 st.1 32, st.1, true) else (st.1, st.2.1, true)
  else
    (hash32 st.1 (if ic then to_lower_byte v1 else v1), st.2.1, false)

/-- `compute_hash_bytes`: byte-mode hash agreeing with `compare_line_bytes`.
The `switch` with no matching case yields hash `0`. -/
def compute_hash_bytes (f : Flags) (line1 : Line) : Nat :=
  if f.ignore_all_space then
    line1.foldl (fun h v1 => if !is_space v1 then hash32 h (if f.ignore_case then to_lower_byte v1 else v1) else h) 0
  else if f.ignore_space_change then
    let st := line1.foldl (hashSC_step f.ignore_case) (0, 0, true)
    if st.2.2 then st.2.1 else st.1
  else if f.ignore_case then
    line1.foldl (fun h v1 => hash32 h (to_lower_byte v1)) 0
  else 0

/-! ## Unicode comparator and hasher

The Unicode routines depend on Go's `unicode` and `unicode/utf8` standard
libraries (external collaborators).  They are abstracted as a structure; all
statements about the Unicode paths are proved for every model whose decoder
consumes at least one byte from a non-empty input, which `utf8.DecodeRune`
does. -/

/-- Abstraction of the external Unicode tables used by the source. -/
structure UnicodeModel where
  decodeRune : Line → Nat × Nat
  toLowerRune : Nat → Nat
  isSpaceRune : Nat → Bool

/-- The decoder consumes at least one byte of a non-empty input
(a property of `utf8.DecodeRune`). -/
def UnicodeModel.Progress (u : UnicodeModel) : Prop :=
  ∀ l : Line, l ≠ [] → 1 ≤ (u.decodeRune l).2

/-- Loop body of `skip_space_rune`. -/
def skip_space_rune_go (u : UnicodeModel) (line : Line) : Nat → Nat → Nat
  | 0, i => i
  | fuel+1, i =>
    if i < line.length then
      let p := u.decodeRune (line.drop i)
      if !u.isSpaceRune p.1 then i else skip_space_rune_go u line fuel (i + p.2)
    else i

/-- `skip_space_rune`. -/
def skip_space_rune (u : UnicodeModel) (line : Line) (i : Nat) : Nat :=
  skip_space_rune_go u line (line.length + 1) i

/-- `get_next_rune_nonspace`. -/
def get_next_rune_nonspace (u : UnicodeModel) (line : Line) (i : Nat) : Nat × Nat :=
  let p := u.decodeRune (line.drop i)
  (p.1, skip_space_rune u line (i + p.2))

/-- `get_next_rune_xspace`. -/
def get_next_rune_xspace (u : UnicodeModel) (line : Line) (i : Nat) : Nat × Bool × Nat :=
  let p := u.decodeRune (line.drop i)
  let j := skip_space_rune u line (i + p.2)
  let space_after := decide (i + p.2 < j) && decide (j < line.length)
  (p.1, space_after, j)

/-- Loop of the `ignore_all_space` case of `compare_line_unicode`. -/
def cmpUniAS_go (u : UnicodeModel) (ic : Bool) (line1 line2 : Line) : Nat → Nat → Nat → Bool
  | 0, _, _ => true
  | fuel+1, i, j =>
    if i < line1.length ∧ j < line2.length then
      let p1 := get_next_rune_nonspace u line1 i
      let p2 := get_next_rune_nonspace u line2 j
      let v1 := if ic ∧ p1.1 ≠ p2.1 then u.toLowerRune p1.1 else p1.1
      let v2 := if ic ∧ p1.1 ≠ p2.1 then u.toLowerRune p2.1 else p2.1
      if v1 ≠ v2 then false else cmpUniAS_go u ic line1 line2 fuel p1.2 p2.2
    else !(decide (i < line1.length) || decide (j < line2.length))

/-- Loop of the `ignore_space_change` case of `compare_line_unicode`. -/
def cmpUniSC_go (u : UnicodeModel) (ic : Bool) (line1 line2 : Line) : Nat → Nat → Nat → Bool
  | 0, _, _ => true
  | fuel+1, i, j =>
    if i < line1.length ∧ j < line2.length then
      let p1 := get_next_rune_xspace u line1 i
      let p2 := get_next_rune_xspace u line2 j
      let v1 := if ic ∧ p1.1 ≠ p2.1 then u.toLowerRune p1.1 else p1.1
      let v2 := if ic ∧ p1.1 ≠ p2.1 then u.toLowerRune p2.1 else p2.1
      if v1 ≠ v2 ∨ p1.2.1 ≠ p2.2.1 then false
      else cmpUniSC_go u ic line1 line2 fuel p1.2.2 p2.2.2
    else !(decide (i < line1.length) || decide (j < line2.length))

/-- Loop of the `ignore_case` case of `compare_line_unicode`. -/
def cmpUniIC_go (u : UnicodeModel) (line1 line2 : Line) : Nat → Nat → Nat → Bool
  | 0, _, _ => true
  | fuel+1, i, j =>
    if i < line1.length ∧ j < line2.length then
      let p1 := u.decodeRune (line1.drop i)
      let p2 := u.decodeRune (line2.drop j)
      if p1.1 ≠ p2.1 ∧ u.toLowerRune p1.1 ≠ u.toLowerRune p2.1 then false
      else cmpUniIC_go u line1 line2 fuel (i + p1.2) (j + p2.2)
    else !(decide (i < line1.length) || decide (j < line2.length))

/-- `compare_line_unicode`. -/
def compare_line_unicode (u : UnicodeModel) (f : Flags) (line1 line2 : Line) : Bool :=
  if f.ignore_all_space then
    cmpUniAS_go u f.ignore_case line1 line2 (line1.length + 1)
      (skip_space_rune u line1 0) (skip_space_rune u line2 0)
  else if f.ignore_space_change then
    cmpUniSC_go u f.ignore_case line1 line2 (line1.length + 1)
      (skip_space_rune u line1 0) (skip_space_rune u line2 0)
  else if f.ignore_case then
    if line1.length ≠ line2.length then false
    else cmpUniIC_go u line1 line2 (line1.length + 1) 0 0
  else true

/-- `hash32_unicode`: hashes the bytes of a rune, lowest first, until the value
is exhausted. -/
def hash32_unicode_go : Nat → Nat → Nat → Nat
  | 0, _, h => h
  | fuel+1, r, h => if r ≠ 0 then hash32_unicode_go fuel (r / 256) (hash32 h (r % 256)) else h

/-- `hash32_unicode`. -/
def hash32_unicode (h r : Nat) : Nat := hash32_unicode_go (r + 1) r h

/-- Loop of the `ignore_all_space` case of `compute_hash_unicode`. -/
def hashUniAS_go (u : UnicodeModel) (ic : Bool) (line1 : Line) : Nat → Nat → Nat → Nat
  | 0, _, h => h
  | fuel+1, i, h =>
    if i < line1.length then
      let p := u.decodeRune (line1.drop i)
      let h' := if !u.isSpaceRune p.1 then hash32_unicode h (if ic then u.toLowerRune p.1 else p.1) else h
      hashUniAS_go u ic line1 fuel (i + p.2) h'
    else h

/-- Loop of the `ignore_space_change` case of `compute_hash_unicode`;
state `(hash, last_hash, last_space)`. -/
def hashUniSC_go (u : UnicodeModel) (ic : Bool) (line1 : Line) : Nat → Nat → (Nat × Nat × Bool) → (Nat × Nat × Bool)
  | 0, _, st => st
  | fuel+1, i, st =>
    if i < line1.length then
      let p := u.decodeRune (line1.drop i)
      let st' :=
        if u.isSpaceRune p.1 then
          if !st.2.2 then (hash32 st.1 32, st.1, true) else (st.1, st.2.1, true)
        else
          (hash32_unicode st.1 (if ic then u.toLowerRune p.1 else p.1), st.2.1, false)
      hashUniSC_go u ic line1 fuel (i + p.2) st'
    else st

/-- Loop of the `ignore_case` case of `compute_hash_unicode`. -/
def hashUniIC_go (u : UnicodeModel) (line1 : Line) : Nat → Nat → Nat → Nat
  | 0, _, h => h
  | fuel+1, i, h =>
    if i < line1.length then
      let p := u.decodeRune (line1.drop i)
      hashUniIC_go u line1 fuel (i + p.2) (hash32_unicode h (u.toLowerRune p.1))
    else h

/-- `compute_hash_unicode`. -/
def compute_hash_unicode (u : UnicodeModel) (f : Flags) (line1 : Line) : Nat :=
  if f.ignore_all_space then
    hashUniAS_go u f.ignore_case line1 (line1.length + 1) 0 0
  else if f.ignore_space_change then
    let st := hashUniSC_go u f.ignore_case line1 (line1.length + 1) 0 (0, 0, true)
    if st.2.2 then st.2.1 else st.1
  else if f.ignore_case then
    hashUniIC_go u line1 (line1.length + 1) 0 0
  else 0

/-! ## Installed comparator/hash (the selection in `main`) -/

/-- `bytes.Equal`. -/
def bytesEqual (a b : Line) : Bool := a == b

/-- Which comparator/hash pair `main` installs. -/
inductive CompareChoice where
  | exactCompare : CompareChoice
  | bytesCompare : CompareChoice
  | unicodeCompare : CompareChoice
deriving DecidableEq, Repr

/-- The selection logic of `main`: byte or Unicode folding comparators when
some ignore flag is set, otherwise `bytes.Equal` with the exact hash. -/
def selectCompare (f : Flags) : CompareChoice :=
  if f.ignore_case || f.ignore_space_change || f.ignore_all_space then
    if f.unicode then .unicodeCompare else .bytesCompare
  else .exactCompare

/-- The installed `compare_line` function. -/
def installedCompare (u : UnicodeModel) (f : Flags) : Line → Line → Bool :=
  match selectCompare f with
  | .exactCompare => bytesEqual
  | .bytesCompare => compare_line_bytes f
  | .unicodeCompare => compare_line_unicode u f

/-- The installed `compute_hash` function. -/
def installedHash (u : UnicodeModel) (f : Flags) : Line → Nat :=
  match selectCompare f with
  | .exactCompare => compute_hash_exact
  | .bytesCompare => compute_hash_bytes f
  | .unicodeCompare => compute_hash_unicode u f

/-! ## Equivalence classifier (`find_equiv_lines`)

The Go hash table is a bucket array of linked `EquivClass` chains.  A bucket is
modelled as a list whose head is the Go bucket head `eqhash[i]` and whose tail
is its `next` chain; a failed lookup inserts the new entry directly after the
head, exactly as `eq.next = &EquivClass{..., next: eq.next}` does. -/

/-- One hash-table entry (`EquivClass`, without the intrusive `next` pointer). -/
structure EquivClass where
  id : Int
  hash : Nat
  line : Line

/-- `blank_line`. -/
def blank_line : Line := []

/-- The bucket array. -/
abbrev EqTable := List (List EquivClass)

/-- Doubling loop choosing the bucket count: the smallest `512·2^k` that is
`≥ target` (with `target = 2·(|lines1|+|lines2|)`). -/
def bucketsForGo : Nat → Nat → Nat → Nat
  | 0, _, b => b
  | fuel+1, target, b => if b < target then bucketsForGo fuel target (2*b) else b

/-- The bucket count used by `find_equiv_lines`. -/
def bucketsFor (target : Nat) : Nat := bucketsForGo target target 512

/-- Bucket lookup: the first entry whose stored hash matches and whose stored
line compares equal (Go checks the head and then walks the chain with the same
test). -/
def eqFind (cmp : Line → Line → Bool) (hashcode : Nat) (l : Line) (bucket : List EquivClass) : Option Int :=
  (bucket.find? (fun e => e.hash == hashcode && cmp l e.line)).map (·.id)

/-- Bucket insertion: a new head for an empty bucket, otherwise directly after
the head. -/
def eqInsert (e : EquivClass) : List EquivClass → List EquivClass
  | [] => [e]
  | head :: rest => head :: e :: rest

/-- Classify one line: reuse the id of a matching entry or allocate a fresh id. -/
def classifyLine (cmp : Line → Line → Bool) (hashF : Line → Nat) (buckets : Nat)
    (st : EqTable × Int) (l : Line) : (EqTable × Int) × Int :=
  let hashcode := hashF l
  let ihash := Nat.land hashcode (buckets - 1)
  let bucket := st.1.getD ihash []
  match eqFind cmp hashcode l bucket with
  | some i => (st, i)
  | none => ((st.1.set ihash (eqInsert ⟨st.2, hashcode, l⟩ bucket), st.2 + 1), st.2)

/-- Classify a list of lines, returning the id stream. -/
def classifyLines (cmp : Line → Line → Bool) (hashF : Line → Nat) (buckets : Nat) :
    EqTable × Int → List Line → (EqTable × Int) × List Int
  | st, [] => (st, [])
  | st, l :: ls =>
    let p := classifyLine cmp hashF buckets st l
    let q := classifyLines cmp hashF buckets p.1 ls
    (q.1, p.2 :: q.2)

/-- The initial table: empty buckets, with the blank-line class `(id 0)` seeded
when `ignore_blank_lines` is set. -/
def initTable (hashF : Line → Nat) (f : Flags) (buckets : Nat) : EqTable :=
  let empty := List.replicate buckets ([] : List EquivClass)
  if f.ignore_blank_lines then
    let hashcode := hashF blank_line
    empty.set (Nat.land hashcode (buckets - 1)) [⟨0, hashcode, blank_line⟩]
  else empty

/-- Per-side data (`LinesData`); `zids = none` models the Go `nil` slice. -/
structure LinesData where
  ids : List Int
  zids : Option (List Int)
  zcount : Option (List Int)
  change : List Bool
  zids_start : Nat
  zids_end : Nat
deriving DecidableEq, Repr

/-! ## One-sided-unique compressor (`compress_equiv_ids`) -/

/-- Whether an id occurs on a side (the Go `has_ids` boolean array, read only
at indices within bounds). -/
def hasId (ids : List Int) (v : Int) : Bool := ids.contains v

/-- Set `change[a..b)` to `true`. -/
def markRangeGo : Nat → Nat → List Bool → List Bool
  | 0, _, c => c
  | fuel+1, a, c => markRangeGo fuel (a+1) (c.set a true)

/-- Set `change[a..b)` to `true`. -/
def markRange (c : List Bool) (a b : Nat) : List Bool := markRangeGo (b - a) a c

/-- The head-trimming loop of `compress_equiv_ids`: advance over matching or
one-sided-unique lines from the front, marking the unique ones changed.
State: `(i1, i2, change1, change2)`. -/
def compressPrefix (ids1 ids2 : List Int) (has1 has2 : Int → Bool) (max1 max2 : Int) :
    Nat → (Nat × Nat × List Bool × List Bool) → (Nat × Nat × List Bool × List Bool)
  | 0, st => st
  | fuel+1, (i1, i2, c1, c2) =>
    if i1 < ids1.length ∧ i2 < ids2.length then
      let v1 := ids1.getD i1 0
      let v2 := ids2.getD i2 0
      if v1 > max2 || !has2 v1 then
        compressPrefix ids1 ids2 has1 has2 max1 max2 fuel (i1+1, i2, c1.set i1 true, c2)
      else if v2 > max1 || !has1 v2 then
        compressPrefix ids1 ids2 has1 has2 max1 max2 fuel (i1, i2+1, c1, c2.set i2 true)
      else if v1 == v2 then
        compressPrefix ids1 ids2 has1 has2 max1 max2 fuel (i1+1, i2+1, c1, c2)
      else (i1, i2, c1, c2)
    else (i1, i2, c1, c2)

/-- The tail-trimming loop of `compress_equiv_ids`.
State: `(j1, j2, change1, change2)`. -/
def compressSuffix (ids1 ids2 : List Int) (has1 has2 : Int → Bool) (max1 max2 : Int) (i1 i2 : Nat) :
    Nat → (Nat × Nat × List Bool × List Bool) → (Nat × Nat × List Bool × List Bool)
  | 0, st => st
  | fuel+1, (j1, j2, c1, c2) =>
    if i1 < j1 ∧ i2 < j2 then
      let v1 := ids1.getD (j1-1) 0
      let v2 := ids2.getD (j2-1) 0
      if v1 > max2 || !has2 v1 then
        compressSuffix ids1 ids2 has1 has2 max1 max2 i1 i2 fuel (j1-1, j2, c1.set (j1-1) true, c2)
      else if v2 > max1 || !has1 v2 then
        compressSuffix ids1 ids2 has1 has2 max1 max2 i1 i2 fuel (j1, j2-1, c1, c2.set (j2-1) true)
      else if v1 == v2 then
        compressSuffix ids1 ids2 has1 has2 max1 max2 i1 i2 fuel (j1-1, j2-1, c1, c2)
      else (j1, j2, c1, c2)
    else (j1, j2, c1, c2)

/-- Fold step of the `zids`/`zcount` construction.  State:
`(lastexclude, next_id, reversed zids, reversed zcount)`. -/
def buildZidsStep (has : Int → Bool) (max_id : Int) (st : Bool × Int × List Int × List Int) (v : Int) :
    Bool × Int × List Int × List Int :=
  let exclude := v > max_id || !has v
  match st with
  | (lastexclude, next_id, zids, zcount) =>
    if exclude ∧ lastexclude then
      (true, next_id + 1, -next_id :: zids.tail, (zcount.headD 0 + 1) :: zcount.tail)
    else if exclude then
      (true, next_id, -v :: zids, 1 :: zcount)
    else
      (false, next_id, v :: zids, 1 :: zcount)

/-- Build the compressed id sequence for one side: each run of consecutive
excluded lines collapses to one entry.  Returns `(zids, zcount, next_id)`. -/
def buildZids (has : Int → Bool) (max_id : Int) (next_id : Int) (ids : List Int) :
    List Int × List Int × Int :=
  let st := ids.foldl (buildZidsStep has max_id) (false, next_id, [], [])
  (st.2.2.1.reverse, st.2.2.2.reverse, st.2.1)

/-- `compress_equiv_ids`: trim matching/unique head and tail, short-circuit if
one remaining range is empty, otherwise build `zids`/`zcount` for both sides. -/
def compress_equiv_ids (lines1 lines2 : LinesData) (max_id1 max_id2 : Int) :
    LinesData × LinesData :=
  let len1 := lines1.ids.length
  let len2 := lines2.ids.length
  let has1 := hasId lines1.ids
  let has2 := hasId lines2.ids
  let pre := compressPrefix lines1.ids lines2.ids has1 has2 max_id1 max_id2
    (len1 + len2 + 1) (0, 0, lines1.change, lines2.change)
  match pre with
  | (i1, i2, c1, c2) =>
    let suf := compressSuffix lines1.ids lines2.ids has1 has2 max_id1 max_id2 i1 i2
      (len1 + len2 + 1) (len1, len2, c1, c2)
    match suf with
    | (j1, j2, c1, c2) =>
      if i1 == j1 then
        ({ lines1 with change := c1 }, { lines2 with change := markRange c2 i2 j2 })
      else if i2 == j2 then
        ({ lines1 with change := markRange c1 i1 j1 }, { lines2 with change := c2 })
      else
        let w1 := (lines1.ids.drop i1).take (j1 - i1)
        let w2 := (lines2.ids.drop i2).take (j2 - i2)
        let b1 := buildZids has2 max_id2 (MaxInt max_id1 max_id2 + 1) w1
        let b2 := buildZids has1 max_id1 b1.2.2 w2
        ({ lines1 with change := c1, zids_start := i1, zids_end := j1
                       zids := some b1.1, zcount := some b1.2.1 },
         { lines2 with change := c2, zids_start := i2, zids_end := j2
                       zids := some b2.1, zcount := some b2.2.1 })

/-- `find_equiv_lines`: classify both sides against one shared table, record
the id high-water marks, and compress. -/
def find_equiv_lines (cmp : Line → Line → Bool) (hashF : Line → Nat) (f : Flags)
    (lines1 lines2 : List Line) : LinesData × LinesData :=
  let buckets := bucketsFor ((lines1.length + lines2.length) * 2)
  let t0 := initTable hashF f buckets
  let r1 := classifyLines cmp hashF buckets (t0, 1) lines1
  let max_id_f1 := r1.1.2 - 1
  let r2 := classifyLines cmp hashF buckets r1.1 lines2
  let max_id_f2 := r2.1.2 - 1
  let info1 : LinesData :=
    { ids := r1.2, zids := none, zcount := none
      change := List.replicate lines1.length false, zids_start := 0, zids_end := 0 }
  let info2 : LinesData :=
    { ids := r2.2, zids := none, zcount := none
      change := List.replicate lines2.length false, zids_start := 0, zids_end := 0 }
  compress_equiv_ids info1 info2 max_id_f1 max_id_f2

/-! ## Change expander (`expand_change_list`) -/

/-- Expand one side: walk `zcount`, marking `zcount[i]` original lines changed
for every marked compressed entry.  State: `(n, change)`, offset by `zids_start`. -/
def expandSide (off : Nat) : List Int → List Bool → Nat → List Bool → List Bool
  | [], _, _, change => change
  | m :: ms, zchange, n, change =>
    let mn := m.toNat
    if zchange.headD false then
      expandSide off ms zchange.tail (n + mn) (markRange change (off + n) (off + n + mn))
    else
      expandSide off ms zchange.tail (n + mn) change

/-- `expand_change_list` for both sides; `none` compressed-change lists are
skipped as in the source. -/
def expand_change_list (info1 info2 : LinesData) (zchange1 zchange2 : Option (List Bool)) :
    LinesData × LinesData :=
  let c1 := match info1.zcount, zchange1 with
    | some zc, some z => expandSide info1.zids_start zc z 0 info1.change
    | _, _ => info1.change
  let c2 := match info2.zcount, zchange2 with
    | some zc, some z => expandSide info2.zids_start zc z 0 info2.change
    | _, _ => info2.change
  ({ info1 with change := c1 }, { info2 with change := c2 })

/-! ## Boundary shifter (`shift_boundaries` and helpers) -/

/-- Scan forward to the end of the run of `true` starting before `e`. -/
def findRunEnd (change : List Bool) : Nat → Nat → Nat
  | 0, e => e
  | fuel+1, e => if e < change.length ∧ change.getD e false then findRunEnd change fuel (e+1) else e

/-- Scan forward to the next `true` cell (`for start < clen && !change[start]`). -/
def findNextChange (change : List Bool) : Nat → Nat → Nat
  | 0, s => s
  | fuel+1, s => if s < change.length ∧ !change.getD s false then findNextChange change fuel (s+1) else s

/-- `do_shift_boundary` with a negative offset `-n`. -/
def do_shift_neg : Nat → Nat → Nat → List Bool → List Bool
  | 0, _, _, change => change
  | n+1, start, end_, change =>
    do_shift_neg n (start-1) (end_-1) ((change.set (start-1) true).set (end_-1) false)

/-- `do_shift_boundary` with a positive offset `n`. -/
def do_shift_pos : Nat → Nat → Nat → List Bool → List Bool
  | 0, _, _, change => change
  | n+1, start, end_, change =>
    do_shift_pos n (start+1) (end_+1) ((change.set start false).set end_ true)

/-- `do_shift_boundary`: slide the run `[start, end)` by `offset`. -/
def do_shift_boundary (start end_ : Nat) (offset : Int) (change : List Bool) : List Bool :=
  if offset < 0 then do_shift_neg offset.natAbs start end_ change
  else do_shift_pos offset.toNat start end_ change

/-- The upward head-room scan of `find_shift_boundary`
(`start-up-1 >= 0` is written as `up+1 ≤ start`). -/
def upScan (data : List Int) (change : List Bool) (start end_ : Nat) : Nat → Nat → Nat
  | 0, up => up
  | fuel+1, up =>
    if up + 1 ≤ start ∧ !change.getD (start-up-1) false ∧
        data.getD (start-up-1) 0 == data.getD (end_-up-1) 0 then
      upScan data change start end_ fuel (up+1)
    else up

/-- The downward head-room scan of `find_shift_boundary`. -/
def downScan (data : List Int) (change : List Bool) (start end_ : Nat) : Nat → Nat → Nat
  | 0, down => down
  | fuel+1, down =>
    if end_ + down < data.length ∧ !change.getD (end_+down) false ∧
        data.getD (end_+down) 0 == data.getD (start+down) 0 then
      downScan data change start end_ fuel (down+1)
    else down

/-- `find_shift_boundary`: run end, shift slack in both directions, and whether
shifting that far merges with the previous/next run (or a list edge). -/
def find_shift_boundary (start : Nat) (data : List Int) (change : List Bool) :
    Nat × Nat × Nat × Bool × Bool :=
  let dlen := data.length
  let end_ := findRunEnd change change.length (start+1)
  let up := upScan data change start end_ change.length 0
  let down := downScan data change start end_ change.length 0
  let up_merge := start - up == 0 || change.getD (start-up-1) false
  let down_merge := end_ + down == dlen || change.getD (end_+down) false
  (end_, up, down, up_merge, down_merge)

/-- The backward rescan after an upward merge
(`nstart-1 >= 0 && change[nstart-1]`). -/
def scanBack (change : List Bool) : Nat → Nat
  | 0 => 0
  | n+1 => if change.getD n false then scanBack change n else n+1

/-- The best-offset search of the boundary-score case: offsets `-up..down`,
ties kept at the earliest maximum starting from offset `0`. -/
def bestOffset (bs : Int → Int → Int) (data : List Int) (start end_ up down : Nat) : Int :=
  let base := bs (data.getD start 0) (data.getD (end_-1) 0)
  let r := (List.range (up + down + 1)).foldl
    (fun (acc : Int × Int) idx =>
      let i : Int := (idx : Int) - (up : Int)
      if i ≠ 0 then
        let sc := bs (data.getD ((start : Int) + i).toNat 0) (data.getD ((end_ : Int) + i - 1).toNat 0)
        if sc > acc.2 then (i, sc) else acc
      else acc)
    (0, base)
  r.1

/-- One outer iteration step of `shift_boundaries`, driven by fuel. -/
def shift_boundaries_go (data : List Int) (score : Option (Int → Int → Int)) :
    Nat → Nat → List Bool → List Bool
  | 0, _, change => change
  | fuel+1, start0, change =>
    let clen := change.length
    let start := findNextChange change clen start0
    if clen ≤ start then change
    else
      let fsb := find_shift_boundary start data change
      match fsb with
      | (end_, up0, down0, up_merge, down_merge) =>
        let up := if start == 0 then 0 else up0
        let down := if start == 0 then 0 else down0
        if up > 0 ∧ up_merge then
          let change' := do_shift_boundary start end_ (-(up : Int)) change
          let nstart := scanBack change' (start - up)
          shift_boundaries_go data score fuel (if nstart > 0 then nstart else start) change'
        else if down > 0 ∧ down_merge then
          shift_boundaries_go data score fuel (start + down)
            (do_shift_boundary start end_ (down : Int) change)
        else
          match score with
          | some bs =>
            if up > 0 ∨ down > 0 then
              let offset := bestOffset bs data start end_ up down
              let change' := if offset ≠ 0 then do_shift_boundary start end_ offset change else change
              shift_boundaries_go data score fuel (if offset > 0 then end_ + offset.toNat else end_) change'
            else shift_boundaries_go data score fuel end_ change
          | none => shift_boundaries_go data score fuel end_ change

/-- `shift_boundaries`: slide change runs to merge with neighbours or (with a
score function) to a better-scoring position. -/
def shift_boundaries (data : List Int) (change : List Bool) (score : Option (Int → Int → Int)) :
    List Bool :=
  shift_boundaries_go data score ((2*change.length+3) * (change.length+2)) 0 change

/-! ## Hunk grouper (`next_change_segment`, `add_change_segment`, `report_diff`) -/

/-- Diff operation kinds. -/
def DIFF_OP_SAME : Nat := 1

/-- Diff operation kinds. -/
def DIFF_OP_MODIFY : Nat := 2

/-- Diff operation kinds. -/
def DIFF_OP_INSERT : Nat := 3

/-- Diff operation kinds. -/
def DIFF_OP_REMOVE : Nat := 4

/-- One reported operation. -/
structure DiffOp where
  op : Nat
  start1 : Nat
  end1 : Nat
  start2 : Nat
  end2 : Nat
deriving DecidableEq, Repr

/-- Leading blank-id trim of `next_change_segment`. -/
def trimZeroFwd (data : List Int) : Nat → Nat → Nat → Nat
  | 0, i, _ => i
  | fuel+1, i, end_ => if i < end_ ∧ data.getD i 0 == 0 then trimZeroFwd data fuel (i+1) end_ else i

/-- Trailing blank-id trim of `next_change_segment`. -/
def trimZeroBack (data : List Int) : Nat → Nat → Nat → Nat
  | 0, _, j => j
  | fuel+1, i, j => if i < j ∧ data.getD (j-1) 0 == 0 then trimZeroBack data fuel i (j-1) else j

/-- `next_change_segment`: end of the change run starting at `start`, and the
run with leading/trailing id-0 (blank) lines trimmed. -/
def next_change_segment (start : Nat) (change : List Bool) (data : List Int) :
    Nat × Nat × Nat :=
  let end_ := findRunEnd change change.length (start+1)
  let i := trimZeroFwd data (end_ - start) start end_
  let j := trimZeroBack data (end_ - i) i end_
  (end_, i, j)

/-- `add_change_segment`: append an op to the pending hunk, flushing the hunk
first when the gap exceeds `2·context_lines` (or at the final sentinel with
`op = 0`), and inserting SAME context ops.  The `DiffChanger` callback is
modelled by accumulating flushed hunks in a list. -/
def add_change_segment (context : Nat) (st : List (List DiffOp) × List DiffOp) (op : DiffOp) :
    List (List DiffOp) × List DiffOp :=
  let hunks := st.1
  let ops := st.2
  let last1 := match ops.getLast? with | some lo => lo.end1 | none => 0
  let last2 := match ops.getLast? with | some lo => lo.end2 | none => 0
  let gap1 := op.start1 - last1
  let gap2 := op.start2 - last2
  let flushed :=
    if 0 < ops.length ∧ (op.op == 0 ∨ (gap1 > context*2 ∧ gap2 > context*2)) then
      let e1 := min op.start1 (last1 + context)
      let e2 := min op.start2 (last2 + context)
      let ops' := if e1 > last1 ∨ e2 > last2 then ops ++ [⟨DIFF_OP_SAME, last1, e1, last2, e2⟩] else ops
      (hunks ++ [ops'], ([] : List DiffOp))
    else (hunks, ops)
  let c1 := max last1 (op.start1 - context)
  let c2 := max last2 (op.start2 - context)
  let ops2 := if c1 < op.start1 ∨ c2 < op.start2 then
    flushed.2 ++ [⟨DIFF_OP_SAME, c1, op.start1, c2, op.start2⟩] else flushed.2
  let ops3 := if op.op ≠ 0 then ops2 ++ [op] else ops2
  (flushed.1, ops3)

/-- The scanning loop of `report_diff`.  State: `(hunks, ops, changed)`.
The final `default` case mirrors the source's early `return true`. -/
def report_diff_go (data1 data2 : List Int) (change1 change2 : List Bool) (context : Nat) :
    Nat → Nat → Nat → (List (List DiffOp) × List DiffOp × Bool) → List (List DiffOp) × Bool
  | 0, _, _, st => (st.1, st.2.2)
  | fuel+1, i1, i2, (hunks, ops, changed) =>
    let len1 := change1.length
    let len2 := change2.length
    if i1 < len1 ∨ i2 < len2 then
      if i1 < len1 ∧ i2 < len2 ∧ !change1.getD i1 false ∧ !change2.getD i2 false then
        report_diff_go data1 data2 change1 change2 context fuel (i1+1) (i2+1) (hunks, ops, changed)
      else if i1 < len1 ∧ i2 < len2 ∧ change1.getD i1 false ∧ change2.getD i2 false then
        let s1 := next_change_segment i1 change1 data1
        let s2 := next_change_segment i2 change2 data2
        let op_mode :=
          if s1.2.1 < s1.2.2 ∧ s2.2.1 < s2.2.2 then DIFF_OP_MODIFY
          else if s1.2.1 < s1.2.2 then DIFF_OP_REMOVE
          else if s2.2.1 < s2.2.2 then DIFF_OP_INSERT
          else 0
        if op_mode ≠ 0 then
          let st' := add_change_segment context (hunks, ops) ⟨op_mode, s1.2.1, s1.2.2, s2.2.1, s2.2.2⟩
          report_diff_go data1 data2 change1 change2 context fuel s1.1 s2.1 (st'.1, st'.2, true)
        else
          report_diff_go data1 data2 change1 change2 context fuel s1.1 s2.1 (hunks, ops, changed)
      else if i1 < len1 ∧ change1.getD i1 false then
        let s1 := next_change_segment i1 change1 data1
        if s1.2.1 < s1.2.2 then
          let st' := add_change_segment context (hunks, ops) ⟨DIFF_OP_REMOVE, s1.2.1, s1.2.2, i2, i2⟩
          report_diff_go data1 data2 change1 change2 context fuel s1.1 i2 (st'.1, st'.2, true)
        else
          report_diff_go data1 data2 change1 change2 context fuel s1.1 i2 (hunks, ops, changed)
      else if i2 < len2 ∧ change2.getD i2 false then
        let s2 := next_change_segment i2 change2 data2
        if s2.2.1 < s2.2.2 then
          let st' := add_change_segment context (hunks, ops) ⟨DIFF_OP_INSERT, i1, i1, s2.2.1, s2.2.2⟩
          report_diff_go data1 data2 change1 change2 context fuel i1 s2.1 (st'.1, st'.2, true)
        else
          report_diff_go data1 data2 change1 change2 context fuel i1 s2.1 (hunks, ops, changed)
      else
        (hunks, true)
    else
      if 0 < ops.length then
        let st' := add_change_segment context (hunks, ops) ⟨0, len1, len1, len2, len2⟩
        (st'.1, changed)
      else (hunks, changed)

/-- `report_diff`: walk both change bitmaps, emitting grouped `DiffOp` hunks.
Each call of the `DiffChanger.diff_lines` callback becomes one entry of the
returned hunk list. -/
def report_diff (data1 data2 : List Int) (change1 change2 : List Bool) (context : Nat) :
    List (List DiffOp) × Bool :=
  report_diff_go data1 data2 change1 change2 context
    (change1.length + change2.length + 1) 0 0 ([], [], false)

/-! ## Myers middle snake (`algorithm_sms`)

The shared diagonal vector `v` becomes a total function `Int → Int`
(zero-initialised, as Go's `make([]int, ...)` is); which indices the algorithm
touches is the subject of the diagonal-vector safety theorem.  The unbounded
`for d := 1; true; d++` loop becomes a fuel loop whose fuel, `|X|+|Y|+2`, is
proved sufficient; the fuel-exhausted value mirrors the source's unreachable
final `return 0, 0, 0, 0`. -/

/-- The forward snake extension
(`for u = x; x < end1 && x-k < end2 && data1[x] == data2[x-k]; x++`).
Its fuel `(end1 - x) + 1` always suffices since `x` increases each step. -/
def snakeFwd (data1 data2 : List Int) (k : Int) : Nat → Int → Int
  | 0, x => x
  | fuel+1, x =>
    if x < (data1.length : Int) ∧ x - k < (data2.length : Int) ∧
        data1.getD x.toNat 0 == data2.getD (x-k).toNat 0 then
      snakeFwd data1 data2 k fuel (x+1)
    else x

/-- The reverse snake extension
(`for u = x; x > 0 && x > k && data1[x-1] == data2[x-k-1]; x--`).
Its fuel `x.toNat + 1` always suffices since `x` decreases each step. -/
def snakeRev (data1 data2 : List Int) (k : Int) : Nat → Int → Int
  | 0, x => x
  | fuel+1, x =>
    if 0 < x ∧ k < x ∧ data1.getD (x-1).toNat 0 == data2.getD (x-k-1).toNat 0 then
      snakeRev data1 data2 k fuel (x-1)
    else x

/-- The forward sweep of one `d` iteration: `k = -d, -d+2, ..., d`
(`steps` counts the remaining diagonals).  Returns the middle snake on a
forward overlap (odd delta), else the updated vector and carry `z`. -/
def fwdSweep (data1 data2 : List Int) (odd : Bool) (up_k down_off up_off : Int) (d : Nat) :
    Nat → Int → (Int → Int) → Int → (Int × Int × Int × Int) ⊕ ((Int → Int) × Int)
  | 0, _, v, z => Sum.inr (v, z)
  | steps+1, k, v, z =>
    let x0 := v (down_off + k + 1)
    let x1 := if k > -(d : Int) ∧ (k == (d : Int) ∨ z ≥ x0) then z + 1 else x0
    let z' := x0
    let u := x1
    let x := snakeFwd data1 data2 k (((data1.length : Int) - x1).toNat + 1) x1
    if odd ∧ up_k - d < k ∧ k < up_k + d ∧ v (up_off + k) ≤ x then
      Sum.inl (u, u - k, x, x - k)
    else
      fwdSweep data1 data2 odd up_k down_off up_off d steps (k+2)
        (Function.update v (down_off + k) x) z'

/-- The reverse sweep of one `d` iteration: `k = up_k-d, ..., up_k+d`.
Returns the middle snake on a reverse overlap (even delta), else the updated
vector and carry `z`. -/
def revSweep (data1 data2 : List Int) (odd : Bool) (up_k down_off up_off : Int) (d : Nat) :
    Nat → Int → (Int → Int) → Int → (Int × Int × Int × Int) ⊕ ((Int → Int) × Int)
  | 0, _, v, z => Sum.inr (v, z)
  | steps+1, k, v, z =>
    let xz := if k < up_k + d then
        let z' := v (up_off + k + 1)
        (if k == up_k - d ∨ z' ≤ z then z' - 1 else z, z')
      else (z, z)
    let u := xz.1
    let x := snakeRev data1 data2 k (u.toNat + 1) u
    if !odd ∧ -(d : Int) ≤ k ∧ k ≤ (d : Int) ∧ x ≤ v (down_off + k) then
      Sum.inl (x, x - k, u, u - k)
    else
      revSweep data1 data2 odd up_k down_off up_off d steps (k+2)
        (Function.update v (up_off + k) x) xz.2

/-- The outer `d` loop of `algorithm_sms`. -/
def smsLoop (data1 data2 : List Int) (odd : Bool) (up_k down_off up_off : Int) :
    Nat → Nat → (Int → Int) → Int → Option (Int × Int × Int × Int)
  | 0, _, _, _ => none
  | fuel+1, d, v, z =>
    match fwdSweep data1 data2 odd up_k down_off up_off d (d+1) (-(d : Int)) v z with
    | Sum.inl r => some r
    | Sum.inr vz =>
      let z1 := vz.1 (up_off + (up_k - d) - 1)
      match revSweep data1 data2 odd up_k down_off up_off d (d+1) (up_k - (d : Int)) vz.1 z1 with
      | Sum.inl r => some r
      | Sum.inr vz' => smsLoop data1 data2 odd up_k down_off up_off fuel (d+1) vz'.1 vz'.2

/-- `algorithm_sms`: the O(ND) middle-snake search. -/
def algorithm_sms (data1 data2 : List Int) : Int × Int × Int × Int :=
  let end1 : Int := data1.length
  let end2 : Int := data2.length
  let maxv := end1 + end2 + 1
  let up_k := end1 - end2
  let odd : Bool := up_k % 2 != 0
  let down_off := maxv
  let up_off := maxv - up_k + maxv + maxv + 2
  let v0 : Int → Int := fun _ => 0
  let v1 := Function.update (Function.update (Function.update (Function.update v0
    (down_off + 1) 0) down_off 0) (up_off + up_k - 1) end1) (up_off + up_k) end1
  match smsLoop data1 data2 odd up_k down_off up_off (data1.length + data2.length + 2) 1 v1 0 with
  | some r => r
  | none => (0, 0, 0, 0)

/-- `find_one_sms`: the single-item special case. -/
def find_one_sms_go (value : Int) : List Int → Nat → Int × Int
  | [], _ => (1, 0)
  | v :: rest, i => if v == value then (0, (i : Int)) else find_one_sms_go value rest (i+1)

/-- `find_one_sms`. -/
def find_one_sms (value : Int) (list : List Int) : Int × Int := find_one_sms_go value list 0

/-! ## Recursive LCS (`algorithm_lcs`)

The mutation of the two change arrays becomes building the marked segment for
the processed window and stitching it between the untouched prefix and suffix.
The recursion depth is bounded by the fuel `|X|+|Y|+1`; the claims settled in
this file never unfold this definition on the recursive path. -/

/-- Length of the matching prefix of two sequences. -/
def commonPrefixLen : List Int → List Int → Nat
  | a :: as, b :: bs => if a == b then commonPrefixLen as bs + 1 else 0
  | _, _ => 0

/-- `algorithm_lcs`, functionally: returns the change bitmaps for `data1`/`data2`. -/
def algorithm_lcs_go : Nat → List Int → List Int → List Bool × List Bool
  | 0, data1, data2 => (List.replicate data1.length false, List.replicate data2.length false)
  | fuel+1, data1, data2 =>
    let p := commonPrefixLen data1 data2
    let d1 := data1.drop p
    let d2 := data2.drop p
    let s := commonPrefixLen d1.reverse d2.reverse
    let m1 := d1.take (d1.length - s)
    let m2 := d2.take (d2.length - s)
    let core : List Bool × List Bool :=
      if m1.length == 0 then
        (List.replicate m1.length false, List.replicate m2.length true)
      else if m2.length == 0 then
        (List.replicate m1.length true, List.replicate m2.length false)
      else if m1.length == 1 ∧ m2.length == 1 then
        ([true], [true])
      else
        let q : Int × Int × Int × Int :=
          if m1.length == 1 then
            let r := find_one_sms (m1.getD 0 0) m2
            (r.1, r.2, r.1, r.2)
          else if m2.length == 1 then
            let r := find_one_sms (m2.getD 0 0) m1
            (r.2, r.1, r.2, r.1)
          else algorithm_sms m1 m2
        let x0 := q.1.toNat
        let y0 := q.2.1.toNat
        let x1 := q.2.2.1.toNat
        let y1 := q.2.2.2.toNat
        let left := algorithm_lcs_go fuel (m1.take x0) (m2.take y0)
        let right := algorithm_lcs_go fuel (m1.drop x1) (m2.drop y1)
        (left.1 ++ List.replicate (x1 - x0) false ++ right.1,
         left.2 ++ List.replicate (y1 - y0) false ++ right.2)
    (List.replicate p false ++ core.1 ++ List.replicate s false,
     List.replicate p false ++ core.2 ++ List.replicate s false)

/-- `do_diff`: run the recursive LCS and return the two change bitmaps.  The
shared diagonal vector of size `((len1+len2+1)*2+2)*2 = 4·(len1+len2+2)` is
threaded inside `algorithm_sms` in this embedding. -/
def do_diff (data1 data2 : List Int) : List Bool × List Bool :=
  algorithm_lcs_go (data1.length + data2.length + 1) data1 data2

/-! ## The assembled core pipeline (the diff portion of `diff_file`) -/

/-- The pipeline state after classification, compression and (when `zids` are
present) the Myers diff plus expansion: the change bitmaps before boundary
shifting. -/
def pipeline_expanded (cmp : Line → Line → Bool) (hashF : Line → Nat) (f : Flags)
    (lines1 lines2 : List Line) : LinesData × LinesData :=
  let infos := find_equiv_lines cmp hashF f lines1 lines2
  match infos.1.zids, infos.2.zids with
  | some z1, some z2 =>
    let zc := do_diff z1 z2
    expand_change_list infos.1 infos.2 (some zc.1) (some zc.2)
  | _, _ => infos

/-- The final change bitmaps fed to `report_diff` (after `shift_boundaries`
with no boundary-score function, as `diff_file` calls it). -/
def pipeline_shifted (cmp : Line → Line → Bool) (hashF : Line → Nat) (f : Flags)
    (lines1 lines2 : List Line) : LinesData × LinesData :=
  let infos := pipeline_expanded cmp hashF f lines1 lines2
  ({ infos.1 with change := shift_boundaries infos.1.ids infos.1.change none },
   { infos.2 with change := shift_boundaries infos.2.ids infos.2.change none })

/-- The diff core of `diff_file`: the emitted hunks and the `changed` flag. -/
def diff_core (cmp : Line → Line → Bool) (hashF : Line → Nat) (f : Flags)
    (lines1 lines2 : List Line) : List (List DiffOp) × Bool :=
  let infos := pipeline_shifted cmp hashF f lines1 lines2
  report_diff infos.1.ids infos.2.ids infos.1.change infos.2.change f.context_lines

/-- The diff core under the exact configuration (what `main` installs when no
ignore flag is set). -/
def diff_core_exact (context : Nat) (lines1 lines2 : List Line) : List (List DiffOp) × Bool :=
  diff_core bytesEqual compute_hash_exact { exactFlags with context_lines := context } lines1 lines2

/-! ## Definitions supporting the claim statements -/

/-- The side-1 slice of one op. -/
def side1Slice {α : Type} (A : List α) (op : DiffOp) : List α :=
  (A.drop op.start1).take (op.end1 - op.start1)

/-- The side-2 slice of one op. -/
def side2Slice {α : Type} (B : List α) (op : DiffOp) : List α :=
  (B.drop op.start2).take (op.end2 - op.start2)

/-- Concatenation, in op order, of the side-1 slices of every SAME, REMOVE and
MODIFY op of an op stream. -/
def side1Slices {α : Type} (A : List α) (ops : List DiffOp) : List α :=
  ((ops.filter (fun op =>
    op.op == DIFF_OP_SAME || op.op == DIFF_OP_REMOVE || op.op == DIFF_OP_MODIFY)).map
    (side1Slice A)).flatten

/-- Concatenation, in op order, of the side-2 slices of every SAME, INSERT and
MODIFY op of an op stream. -/
def side2Slices {α : Type} (B : List α) (ops : List DiffOp) : List α :=
  ((ops.filter (fun op =>
    op.op == DIFF_OP_SAME || op.op == DIFF_OP_INSERT || op.op == DIFF_OP_MODIFY)).map
    (side2Slice B)).flatten

/-- Number of unchanged (false) cells of a change bitmap. -/
def countFalse (l : List Bool) : Nat := (l.filter (fun b => !b)).length

/-- Number of changed (true) cells of a change bitmap. -/
def countTrue (l : List Bool) : Nat := (l.filter (fun b => b)).length

/-- A well-formed op for the coverage statement: a known kind, whose side-1
range is empty for INSERT and whose side-2 range is empty for REMOVE. -/
def OpWF (op : DiffOp) : Prop :=
  (op.op = DIFF_OP_SAME ∨ op.op = DIFF_OP_MODIFY ∨ op.op = DIFF_OP_INSERT ∨ op.op = DIFF_OP_REMOVE) ∧
  (op.op = DIFF_OP_INSERT → op.end1 = op.start1) ∧
  (op.op = DIFF_OP_REMOVE → op.end2 = op.start2)

/-- The ops of a stream tile both index spaces without gaps: each op starts
where the previous one ended, from `s` up to `e`. -/
def OpsChain : List DiffOp → Nat × Nat → Nat × Nat → Prop
  | [], s, e => s = e
  | op :: rest, s, e =>
    OpWF op ∧ op.start1 = s.1 ∧ op.start2 = s.2 ∧ s.1 ≤ op.end1 ∧ s.2 ≤ op.end2 ∧
    OpsChain rest (op.end1, op.end2) e

/-- Side A of the two-change-regions scenario: two modified lines separated by
exactly ten unchanged lines, with one matching line of margin at each end. -/
def c4A : List Line :=
  [[100], [1], [10], [11], [12], [13], [14], [15], [16], [17], [18], [19], [2], [101]]

/-- Side B of the two-change-regions scenario. -/
def c4B : List Line :=
  [[100], [3], [10], [11], [12], [13], [14], [15], [16], [17], [18], [19], [4], [101]]

/-- Side A of the compression-sentinel scenario: the one-sided-unique line
`"u"` occurs twice, separated by lines present on both sides. -/
def c6A : List Line := [[120], [117], [121], [117], [122]]

/-- Side B of the compression-sentinel scenario (reversed order so that no
prefix or suffix is trimmed). -/
def c6B : List Line := [[122], [121], [120]]

/-! ### Canonical forms of the comparison configurations

Each installed comparator is shown to test equality of a canonical image of
the line, and each installed hash factors through the same image; these
canonical forms support the classifier claims. -/

/-- Byte canonicalisation: case-fold when `ignore_case` is set. -/
def canonByte (ic : Bool) (b : Nat) : Nat := if ic then to_lower_byte b else b

/-- Canonical form of the byte `ignore_all_space` mode: the non-space bytes,
case-folded when requested. -/
def canonAS (ic : Bool) (line : Line) : List Nat :=
  (line.filter (fun b => !is_space b)).map (canonByte ic)

/-- Canonical form of the byte `ignore_space_change` mode: each non-space byte
with a flag telling whether an internal space run follows it. -/
def canonSC_go (ic : Bool) (line : Line) : Nat → Nat → List (Nat × Bool)
  | 0, _ => []
  | fuel+1, i =>
    if i < line.length then
      let j := skip_space_byte line (i+1)
      (canonByte ic (line.getD i 0), decide (i+1 < j) && decide (j < line.length))
        :: canonSC_go ic line fuel j
    else []

/-- Canonical form of the byte `ignore_space_change` mode. -/
def canonSC (ic : Bool) (line : Line) : List (Nat × Bool) :=
  canonSC_go ic line (line.length+1) (skip_space_byte line 0)

/-- Canonical form of the byte `ignore_case` mode. -/
def canonIC (line : Line) : List Nat := line.map to_lower_byte

/-- Rune canonicalisation: case-fold when `ignore_case` is set. -/
def canonRune (u : UnicodeModel) (ic : Bool) (r : Nat) : Nat :=
  if ic then u.toLowerRune r else r

/-- Canonical rune stream of the Unicode `ignore_all_space` mode. -/
def canonUniAS_go (u : UnicodeModel) (ic : Bool) (line : Line) : Nat → Nat → List Nat
  | 0, _ => []
  | fuel+1, i =>
    if i < line.length then
      let p := u.decodeRune (line.drop i)
      canonRune u ic p.1 :: canonUniAS_go u ic line fuel (skip_space_rune u line (i + p.2))
    else []

/-- Canonical form of the Unicode `ignore_all_space` mode. -/
def canonUniAS (u : UnicodeModel) (ic : Bool) (line : Line) : List Nat :=
  canonUniAS_go u ic line (line.length+1) (skip_space_rune u line 0)

/-- Canonical rune stream of the Unicode `ignore_space_change` mode. -/
def canonUniSC_go (u : UnicodeModel) (ic : Bool) (line : Line) : Nat → Nat → List (Nat × Bool)
  | 0, _ => []
  | fuel+1, i =>
    if i < line.length then
      let p := u.decodeRune (line.drop i)
      let j := skip_space_rune u line (i + p.2)
      (canonRune u ic p.1, decide (i + p.2 < j) && decide (j < line.length))
        :: canonUniSC_go u ic line fuel j
    else []

/-- Canonical form of the Unicode `ignore_space_change` mode. -/
def canonUniSC (u : UnicodeModel) (ic : Bool) (line : Line) : List (Nat × Bool) :=
  canonUniSC_go u ic line (line.length+1) (skip_space_rune u line 0)

/-- Lower-cased rune stream of the Unicode `ignore_case` mode. -/
def canonUniIC_go (u : UnicodeModel) (line : Line) : Nat → Nat → List Nat
  | 0, _ => []
  | fuel+1, i =>
    if i < line.length then
      let p := u.decodeRune (line.drop i)
      u.toLowerRune p.1 :: canonUniIC_go u line fuel (i + p.2)
    else []

/-- Canonical form of the Unicode `ignore_case` mode: the byte length together
with the lower-cased rune stream (the comparator pre-checks the length). -/
def canonUniIC (u : UnicodeModel) (line : Line) : Nat × List Nat :=
  (line.length, canonUniIC_go u line (line.length+1) 0)

/-- The final extraction of the `ignore_space_change` hash state
(`if last_space { hash = last_hash }`). -/
def finishSC (st : Nat × Nat × Bool) : Nat := if st.2.2 then st.2.1 else st.1

/-- The hash rendering of a byte `ignore_space_change` canonical form. -/
def renderSC (cs : List (Nat × Bool)) : Nat :=
  cs.foldl (fun h p => if p.2 then hash32 (hash32 h p.1) 32 else hash32 h p.1) 0

/-- The hash rendering of a Unicode `ignore_space_change` canonical form. -/
def renderUniSC (cs : List (Nat × Bool)) : Nat :=
  cs.foldl (fun h p => if p.2 then hash32 (hash32_unicode h p.1) 32 else hash32_unicode h p.1) 0

/-- The canonical image characterising the installed comparator: two lines
compare equal under the installed configuration exactly when their images
agree, and the installed hash factors through it. -/
def installedCanon (u : UnicodeModel) (f : Flags) (l : Line) :
    Line ⊕ (List Nat ⊕ (List (Nat × Bool) ⊕ (Nat × List Nat))) :=
  match selectCompare f with
  | .exactCompare => Sum.inl l
  | .bytesCompare =>
    if f.ignore_all_space then Sum.inr (Sum.inl (canonAS f.ignore_case l))
    else if f.ignore_space_change then Sum.inr (Sum.inr (Sum.inl (canonSC f.ignore_case l)))
    else Sum.inr (Sum.inl (canonIC l))
  | .unicodeCompare =>
    if f.ignore_all_space then Sum.inr (Sum.inl (canonUniAS u f.ignore_case l))
    else if f.ignore_space_change then
      Sum.inr (Sum.inr (Sum.inl (canonUniSC u f.ignore_case l)))
    else Sum.inr (Sum.inr (Sum.inr (canonUniIC u l)))

/-- A concrete Unicode model (one byte per rune) used to instantiate the
Unicode-parametric theorems. -/
def c7model : UnicodeModel :=
  { decodeRune := fun l => (l.headD 0, 1)
    toLowerRune := fun r => r
    isSpaceRune := fun r => decide (r = 32) }

/-- A concrete `ignore_space_change` configuration. -/
def c7flags : Flags :=
  { ignore_case := false, ignore_space_change := true, ignore_all_space := false
    ignore_blank_lines := false, unicode := false, context_lines := 3 }

/-! ### Classifier table invariant -/

/-- An entry occurs somewhere in the bucket table. -/
def InTable (t : EqTable) (e : EquivClass) : Prop :=
  ∃ bi, bi < t.length ∧ e ∈ t.getD bi []

/-- The classifier invariant: correct bucket count, stored hashes and bucket
indices; ids agree exactly on canonically-equal lines; all ids live in
`[lo, n)`. -/
def TableInv {κ : Type} (canon : Line → κ) (hashF : Line → Nat) (buckets : Nat)
    (lo : Int) (t : EqTable) (n : Int) : Prop :=
  t.length = buckets ∧
  (∀ bi, bi < buckets → ∀ e, e ∈ t.getD bi [] →
    e.hash = hashF e.line ∧ Nat.land e.hash (buckets - 1) = bi) ∧
  (∀ e e', InTable t e → InTable t e' → (e.id = e'.id ↔ canon e.line = canon e'.line)) ∧
  (∀ e, InTable t e → lo ≤ e.id ∧ e.id < n) ∧
  lo ≤ n

/-- The score function of the boundary-shifter idempotence counterexample. -/
def c9score : Int → Int → Int := fun r1 r2 => (7*r1 + 3*r2) % 5

/-- The data and initial change bitmap of the idempotence counterexample. -/
def c9data : List Int := [0, 0, 1, 0, 0, 0]

/-- The data and initial change bitmap of the idempotence counterexample. -/
def c9change : List Bool := [false, true, true, true, true, false]

end Godiff

namespace Godiff

/-! # Theorems -/

/-! ## C10: the exact configuration never reaches `compare_line_bytes` -/

/-- C10.  When none of `ignore_case`, `ignore_space_change`, `ignore_all_space`
is set, `compare_line_bytes` returns `true` for every pair of byte slices
(its `switch` has no matching case and falls through), and the top-level setup
in `main` installs `bytes.Equal` instead for that configuration, so
`compare_line_bytes` is never called there. -/
theorem c10_compare_line_bytes_vacuous (f : Flags)
    (hic : f.ignore_case = false) (hsc : f.ignore_space_change = false)
    (has : f.ignore_all_space = false) :
    (∀ a b : Line, compare_line_bytes f a b = true) ∧ selectCompare f = .exactCompare := by
  constructor
  · intro a b
    simp [compare_line_bytes, hic, hsc, has]
  · simp [selectCompare, hic, hsc, has]

/-- Witness for C10 at the exact flags and a pair of unequal lines. -/
theorem c10_witness :
    compare_line_bytes exactFlags [1] [2, 3] = true ∧ selectCompare exactFlags = .exactCompare :=
  ⟨(c10_compare_line_bytes_vacuous exactFlags rfl rfl rfl).1 [1] [2, 3],
   (c10_compare_line_bytes_vacuous exactFlags rfl rfl rfl).2⟩

/-! ## C1: the op stream does not cover equal inputs -/

/-- C1 counterexample.  For `A = B = ["x"]` under the exact configuration the
pipeline emits no ops at all, so concatenating the side-1 slices of the SAME,
REMOVE and MODIFY ops yields the empty sequence, not `A`. -/
theorem c1_counterexample :
    side1Slices ([[120]] : List Line) (diff_core_exact 3 [[120]] [[120]]).1.flatten = [] ∧
    ([[120]] : List Line) ≠ [] := by decide

/-! ## C3: one-sided-empty inputs do emit ops -/

/-- C3 counterexample.  For `A = []`, `B = ["x"]` the core returns the op
stream `[INSERT(0,0,0,1)]` with `changed = true`, not an empty op stream with
`changed = false` (this matches scenario S4 of the specification, which the
claim's error-handling sentence contradicts). -/
theorem c3_counterexample :
    diff_core_exact 3 [] [[120]] = ([[⟨DIFF_OP_INSERT, 0, 0, 0, 1⟩]], true) := by decide

/-! ## C4: hunk merging with ten unchanged lines between two changes -/

/-- C4 counterexample.  In the two-change scenario with `context_lines = 5`
the grouper emits one merged hunk, but the unchanged line at position 2 (one
of the ten unchanged lines between the two changes) appears in no SAME op of
the stream: only the five lines of leading context before the second change
(positions 7..12) are emitted, so "all 10 unchanged lines appear as SAME ops"
is false. -/
theorem c4_counterexample :
    (diff_core_exact 5 c4A c4B).1.length = 1 ∧
    (((diff_core_exact 5 c4A c4B).1.flatten.filter (fun op => op.op == DIFF_OP_SAME)).all
      (fun op => !(decide (op.start1 ≤ 2) && decide (2 < op.end1)))) = true := by decide

/-- C4 amended.  With `context_lines = 3` the grouper emits two hunks; with
`context_lines = 5` it emits one merged hunk in which only the five unchanged
lines immediately preceding the second change appear, as the single SAME op
`(7..12)`; the five unchanged lines after the first change are omitted. -/
theorem c4_amended :
    diff_core_exact 3 c4A c4B =
      ([[⟨DIFF_OP_SAME, 0, 1, 0, 1⟩, ⟨DIFF_OP_MODIFY, 1, 2, 1, 2⟩, ⟨DIFF_OP_SAME, 2, 5, 2, 5⟩],
        [⟨DIFF_OP_SAME, 9, 12, 9, 12⟩, ⟨DIFF_OP_MODIFY, 12, 13, 12, 13⟩, ⟨DIFF_OP_SAME, 13, 14, 13, 14⟩]],
       true) ∧
    diff_core_exact 5 c4A c4B =
      ([[⟨DIFF_OP_SAME, 0, 1, 0, 1⟩, ⟨DIFF_OP_MODIFY, 1, 2, 1, 2⟩, ⟨DIFF_OP_SAME, 7, 12, 7, 12⟩,
         ⟨DIFF_OP_MODIFY, 12, 13, 12, 13⟩, ⟨DIFF_OP_SAME, 13, 14, 13, 14⟩]],
       true) := by decide

/-! ## C5: compression marks can be relocated by the boundary shifter -/

/-- C5 counterexample.  For `A = ["0"]`, `B = ["0","0"]` the compressor's
short-circuit phase marks position 1 of side B changed, but `shift_boundaries`
slides the run up, so the final bitmap consumed by the hunk grouper has
position 1 unmarked. -/
theorem c5_counterexample :
    (find_equiv_lines bytesEqual compute_hash_exact exactFlags [[48]] [[48], [48]]).2.change
      = [false, true] ∧
    (pipeline_shifted bytesEqual compute_hash_exact exactFlags [[48]] [[48], [48]]).2.change
      = [true, false] := by decide

/-! ## C6: singleton excluded runs do not get fresh sentinels -/

/-- C6 counterexample.  For `A = ["x","u","y","u","z"]`, `B = ["z","y","x"]`
the compressed side-A sequence is `[1, -2, 3, -2, 4]`: the two singleton
excluded runs (the two occurrences of `"u"`, id 2) both become the sentinel
`-2`, which is the negated line id rather than a fresh id, and the two
sentinel entries compare equal. -/
theorem c6_counterexample :
    (find_equiv_lines bytesEqual compute_hash_exact exactFlags c6A c6B).1.zids
      = some [1, -2, 3, -2, 4] ∧
    ([1, -2, 3, -2, 4] : List Int).getD 1 0 = ([1, -2, 3, -2, 4] : List Int).getD 3 0 ∧
    ([1, -2, 3, -2, 4] : List Int).getD 1 0 < 0 := by decide

/-! ## Helper lemmas about runs, counts, chains and slices -/

theorem findRunEnd_ge (change : List Bool) : ∀ fuel e, e ≤ findRunEnd change fuel e := by
  intro fuel
  induction fuel with
  | zero => intro e; simp [findRunEnd]
  | succ n ih =>
    intro e
    simp only [findRunEnd]
    split
    · exact le_trans (Nat.le_succ e) (ih (e+1))
    · exact le_refl e

theorem findRunEnd_le (change : List Bool) :
    ∀ fuel e, e ≤ change.length → findRunEnd change fuel e ≤ change.length := by
  intro fuel
  induction fuel with
  | zero => intro e he; simpa [findRunEnd] using he
  | succ n ih =>
    intro e he
    simp only [findRunEnd]
    split
    · next h => exact ih (e+1) h.1
    · exact he

theorem findRunEnd_true (change : List Bool) :
    ∀ fuel e p, e ≤ p → p < findRunEnd change fuel e → change.getD p false = true := by
  intro fuel
  induction fuel with
  | zero =>
    intro e p hep hp
    simp only [findRunEnd] at hp
    omega
  | succ n ih =>
    intro e p hep hp
    simp only [findRunEnd] at hp
    by_cases h : e < change.length ∧ change.getD e false = true
    · rw [if_pos h] at hp
      rcases Nat.eq_or_lt_of_le hep with rfl | hlt
      · exact h.2
      · exact ih (e+1) p hlt hp
    · rw [if_neg h] at hp
      omega

theorem countFalse_nil : countFalse [] = 0 := rfl

theorem countFalse_drop_length (l : List Bool) : countFalse (l.drop l.length) = 0 := by
  simp [countFalse]

theorem drop_eq_cons_of_lt {l : List Bool} {i : Nat} (h : i < l.length) :
    l.drop i = l.getD i false :: l.drop (i+1) := by
  rw [List.getD_eq_getElem l false h]
  exact List.drop_eq_getElem_cons h

theorem countFalse_cons_true {l : List Bool} : countFalse (true :: l) = countFalse l := by
  simp [countFalse]

theorem countFalse_cons_false {l : List Bool} : countFalse (false :: l) = countFalse l + 1 := by
  simp [countFalse]

theorem countFalse_drop_false {l : List Bool} {i : Nat} (h : i < l.length)
    (hf : l.getD i false = false) :
    countFalse (l.drop i) = countFalse (l.drop (i+1)) + 1 := by
  rw [drop_eq_cons_of_lt h, hf, countFalse_cons_false]

theorem countFalse_drop_pos {l : List Bool} {i : Nat} (h : i < l.length)
    (hf : l.getD i false = false) : 0 < countFalse (l.drop i) := by
  rw [countFalse_drop_false h hf]; omega

theorem countFalse_drop_true_range_aux (l : List Bool) :
    ∀ d i j, j - i = d → i ≤ j → j ≤ l.length →
      (∀ p, i ≤ p → p < j → l.getD p false = true) →
      countFalse (l.drop i) = countFalse (l.drop j) := by
  intro d
  induction d with
  | zero =>
    intro i j hd hij _ _
    have : i = j := by omega
    rw [this]
  | succ n ih =>
    intro i j hd hij hlen hall
    have hlt : i < j := by omega
    have hi : i < l.length := by omega
    rw [drop_eq_cons_of_lt hi, hall i le_rfl hlt, countFalse_cons_true]
    exact ih (i+1) j (by omega) (by omega) hlen (fun p hp hpn => hall p (by omega) hpn)

theorem countFalse_drop_true_range (l : List Bool) (i j : Nat) (hij : i ≤ j)
    (hlen : j ≤ l.length) (hall : ∀ p, i ≤ p → p < j → l.getD p false = true) :
    countFalse (l.drop i) = countFalse (l.drop j) :=
  countFalse_drop_true_range_aux l (j - i) i j rfl hij hlen hall

theorem opsChain_le : ∀ (ops : List DiffOp) (s e : Nat × Nat),
    OpsChain ops s e → s.1 ≤ e.1 ∧ s.2 ≤ e.2 := by
  intro ops
  induction ops with
  | nil => intro s e h; simp only [OpsChain] at h; subst h; exact ⟨le_refl _, le_refl _⟩
  | cons op rest ih =>
    intro s e h
    simp only [OpsChain] at h
    have := ih (op.end1, op.end2) e h.2.2.2.2.2
    exact ⟨le_trans h.2.2.2.1 this.1, le_trans h.2.2.2.2.1 this.2⟩

theorem opsChain_append_one : ∀ (ops : List DiffOp) (s : Nat × Nat) (op : DiffOp),
    OpsChain ops s (op.start1, op.start2) → OpWF op →
    op.start1 ≤ op.end1 → op.start2 ≤ op.end2 →
    OpsChain (ops ++ [op]) s (op.end1, op.end2) := by
  intro ops
  induction ops with
  | nil =>
    intro s op h hwf h1 h2
    simp only [OpsChain] at h
    subst h
    exact ⟨hwf, rfl, rfl, h1, h2, rfl⟩
  | cons o rest ih =>
    intro s op h hwf h1 h2
    simp only [OpsChain] at h ⊢
    exact ⟨h.1, h.2.1, h.2.2.1, h.2.2.2.1, h.2.2.2.2.1, ih _ op h.2.2.2.2.2 hwf h1 h2⟩

theorem take_drop_glue {α : Type} (A : List α) (a e c : Nat) (hae : a ≤ e) (hec : e ≤ c) :
    (A.drop a).take (e-a) ++ (A.drop e).take (c-e) = (A.drop a).take (c-a) := by
  have h1 : c - a = (e - a) + (c - e) := by omega
  rw [h1, List.take_add, List.drop_drop]
  have h2 : a + (e - a) = e := by omega
  rw [h2]

theorem side1Slices_nil {α : Type} (A : List α) : side1Slices A [] = [] := rfl

theorem side2Slices_nil {α : Type} (B : List α) : side2Slices B [] = [] := rfl

theorem side1Slices_cons {α : Type} (A : List α) (op : DiffOp) (ops : List DiffOp) :
    side1Slices A (op :: ops) =
      (if op.op == DIFF_OP_SAME || op.op == DIFF_OP_REMOVE || op.op == DIFF_OP_MODIFY then
        side1Slice A op ++ side1Slices A ops
      else side1Slices A ops) := by
  simp only [side1Slices, List.filter_cons]
  split
  · simp
  · rfl

theorem side2Slices_cons {α : Type} (B : List α) (op : DiffOp) (ops : List DiffOp) :
    side2Slices B (op :: ops) =
      (if op.op == DIFF_OP_SAME || op.op == DIFF_OP_INSERT || op.op == DIFF_OP_MODIFY then
        side2Slice B op ++ side2Slices B ops
      else side2Slices B ops) := by
  simp only [side2Slices, List.filter_cons]
  split
  · simp
  · rfl

theorem side1Slices_chain {α : Type} (A : List α) :
    ∀ (ops : List DiffOp) (s e : Nat × Nat), OpsChain ops s e → e.1 ≤ A.length →
      side1Slices A ops = (A.drop s.1).take (e.1 - s.1) := by
  intro ops
  induction ops with
  | nil =>
    intro s e h _
    simp only [OpsChain] at h
    subst h
    simp [side1Slices]
  | cons op rest ih =>
    intro s e h he
    simp only [OpsChain] at h
    obtain ⟨hwf, hs1, hs2, hle1, hle2, hrest⟩ := h
    have hme := opsChain_le rest _ _ hrest
    have hrec := ih (op.end1, op.end2) e hrest he
    rw [side1Slices_cons]
    have hslice : side1Slice A op = (A.drop s.1).take (op.end1 - s.1) := by
      simp [side1Slice, hs1]
    rcases hwf.1 with hk | hk | hk | hk
    · rw [if_pos (by simp [hk, DIFF_OP_SAME]), hslice, hrec]
      exact take_drop_glue A s.1 op.end1 e.1 hle1 hme.1
    · rw [if_pos (by simp [hk, DIFF_OP_MODIFY]), hslice, hrec]
      exact take_drop_glue A s.1 op.end1 e.1 hle1 hme.1
    · rw [if_neg (by simp [hk, DIFF_OP_SAME, DIFF_OP_REMOVE, DIFF_OP_MODIFY, DIFF_OP_INSERT]),
        hrec, hwf.2.1 hk, hs1]
    · rw [if_pos (by simp [hk, DIFF_OP_REMOVE]), hslice, hrec]
      exact take_drop_glue A s.1 op.end1 e.1 hle1 hme.1

theorem side2Slices_chain {α : Type} (B : List α) :
    ∀ (ops : List DiffOp) (s e : Nat × Nat), OpsChain ops s e → e.2 ≤ B.length →
      side2Slices B ops = (B.drop s.2).take (e.2 - s.2) := by
  intro ops
  induction ops with
  | nil =>
    intro s e h _
    simp only [OpsChain] at h
    subst h
    simp [side2Slices]
  | cons op rest ih =>
    intro s e h he
    simp only [OpsChain] at h
    obtain ⟨hwf, hs1, hs2, hle1, hle2, hrest⟩ := h
    have hme := opsChain_le rest _ _ hrest
    have hrec := ih (op.end1, op.end2) e hrest he
    rw [side2Slices_cons]
    have hslice : side2Slice B op = (B.drop s.2).take (op.end2 - s.2) := by
      simp [side2Slice, hs2]
    rcases hwf.1 with hk | hk | hk | hk
    · rw [if_pos (by simp [hk, DIFF_OP_SAME]), hslice, hrec]
      exact take_drop_glue B s.2 op.end2 e.2 hle2 hme.2
    · rw [if_pos (by simp [hk, DIFF_OP_MODIFY]), hslice, hrec]
      exact take_drop_glue B s.2 op.end2 e.2 hle2 hme.2
    · rw [if_pos (by simp [hk, DIFF_OP_INSERT]), hslice, hrec]
      exact take_drop_glue B s.2 op.end2 e.2 hle2 hme.2
    · rw [if_neg (by simp [hk, DIFF_OP_SAME, DIFF_OP_INSERT, DIFF_OP_MODIFY, DIFF_OP_REMOVE]),
        hrec, hwf.2.2 hk, hs2]

theorem ne_nil_of_getLast? {ops : List DiffOp} {lo : DiffOp} (h : ops.getLast? = some lo) :
    ops ≠ [] := by
  intro hnil
  rw [hnil] at h
  simp at h

theorem sameWF (a b c d : Nat) : OpWF ⟨DIFF_OP_SAME, a, b, c, d⟩ := by
  refine ⟨Or.inl rfl, ?_, ?_⟩ <;> intro h <;> simp [DIFF_OP_SAME, DIFF_OP_INSERT, DIFF_OP_REMOVE] at h

/-- Emitting a non-sentinel op whose start fits inside the context radius never
flushes, and extends the pending chain to the op's end. -/
theorem add_change_segment_emit (context : Nat) (hunks : List (List DiffOp))
    (ops : List DiffOp) (op : DiffOp)
    (hop : op.op ≠ 0)
    (hwf : OpWF op)
    (hse1 : op.start1 ≤ op.end1) (hse2 : op.start2 ≤ op.end2)
    (hs1 : op.start1 ≤ context) (hs2 : op.start2 ≤ context)
    (hstate : (ops = []) ∨ (∃ lo, ops.getLast? = some lo ∧
      OpsChain ops (0,0) (lo.end1, lo.end2) ∧ lo.end1 ≤ op.start1 ∧ lo.end2 ≤ op.start2)) :
    ∃ ops', add_change_segment context (hunks, ops) op = (hunks, ops') ∧
      ops'.getLast? = some op ∧ OpsChain ops' (0,0) (op.end1, op.end2) := by
  rcases hstate with hnil | ⟨lo, hlast, hchain, hlo1, hlo2⟩
  · subst hnil
    simp only [add_change_segment, List.getLast?_nil, List.length_nil]
    rw [if_neg (by simp)]
    have hsub1 : op.start1 - context = 0 := by omega
    have hsub2 : op.start2 - context = 0 := by omega
    rw [hsub1, hsub2]
    simp only [Nat.max_zero, Nat.zero_max]
    by_cases hf : 0 < op.start1 ∨ 0 < op.start2
    · rw [if_pos hf, if_pos hop]
      refine ⟨_, rfl, ?_, ?_⟩
      · simp
      · have h0 : OpsChain [(⟨DIFF_OP_SAME, 0, op.start1, 0, op.start2⟩ : DiffOp)] (0,0)
            (op.start1, op.start2) := ⟨sameWF _ _ _ _, rfl, rfl, Nat.zero_le _, Nat.zero_le _, rfl⟩
        have := opsChain_append_one [(⟨DIFF_OP_SAME, 0, op.start1, 0, op.start2⟩ : DiffOp)]
          (0,0) op h0 hwf hse1 hse2
        simpa using this
    · rw [if_neg hf, if_pos hop]
      push_neg at hf
      have h1 : op.start1 = 0 := by omega
      have h2 : op.start2 = 0 := by omega
      refine ⟨_, rfl, ?_, ?_⟩
      · simp
      · simp only [List.nil_append]
        exact ⟨hwf, h1, h2, by omega, by omega, rfl⟩
  · simp only [add_change_segment, hlast]
    have hlen : 0 < ops.length := by
      cases ops
      · exact absurd rfl (ne_nil_of_getLast? hlast)
      · simp
    rw [if_neg (by
      rintro ⟨-, hcase⟩
      rcases hcase with hz | ⟨hg1, -⟩
      · exact hop (by simpa using hz)
      · omega)]
    have hsub1 : op.start1 - context = 0 := by omega
    have hsub2 : op.start2 - context = 0 := by omega
    rw [hsub1, hsub2]
    simp only [Nat.max_zero]
    by_cases hf : lo.end1 < op.start1 ∨ lo.end2 < op.start2
    · rw [if_pos hf, if_pos hop]
      refine ⟨_, rfl, ?_, ?_⟩
      · rw [List.append_assoc]
        simp
      · have hmid := opsChain_append_one ops (0,0)
          ⟨DIFF_OP_SAME, lo.end1, op.start1, lo.end2, op.start2⟩ hchain
          (sameWF _ _ _ _) hlo1 hlo2
        have := opsChain_append_one
          (ops ++ [(⟨DIFF_OP_SAME, lo.end1, op.start1, lo.end2, op.start2⟩ : DiffOp)])
          (0,0) op hmid hwf hse1 hse2
        simpa [List.append_assoc] using this
    · rw [if_neg hf, if_pos hop]
      push_neg at hf
      have h1 : lo.end1 = op.start1 := by omega
      have h2 : lo.end2 = op.start2 := by omega
      refine ⟨_, rfl, by simp, ?_⟩
      have hchain' : OpsChain ops (0,0) (op.start1, op.start2) := by
        rw [← h1, ← h2]; exact hchain
      exact opsChain_append_one ops (0,0) op hchain' hwf hse1 hse2

/-- The final sentinel flush: with a context radius at least each side's
length, the flushed hunk tiles both sides completely. -/
theorem add_change_segment_flush (context L1 L2 : Nat) (hunks : List (List DiffOp))
    (ops : List DiffOp) (lo : DiffOp)
    (hlast : ops.getLast? = some lo)
    (hchain : OpsChain ops (0,0) (lo.end1, lo.end2))
    (hle1 : lo.end1 ≤ L1) (hle2 : lo.end2 ≤ L2)
    (hc1 : L1 ≤ context) (hc2 : L2 ≤ context) :
    ∃ opsF rest, add_change_segment context (hunks, ops) ⟨0, L1, L1, L2, L2⟩
        = (hunks ++ [opsF], rest) ∧ OpsChain opsF (0,0) (L1, L2) := by
  simp only [add_change_segment, hlast]
  have hlen : 0 < ops.length := by
    cases ops
    · exact absurd rfl (ne_nil_of_getLast? hlast)
    · simp
  rw [if_pos ⟨hlen, Or.inl (by simp)⟩]
  have he1 : min L1 (lo.end1 + context) = L1 := by omega
  have he2 : min L2 (lo.end2 + context) = L2 := by omega
  rw [he1, he2]
  by_cases ht : L1 > lo.end1 ∨ L2 > lo.end2
  · rw [if_pos ht]
    refine ⟨_, _, rfl, ?_⟩
    have := opsChain_append_one ops (0,0) ⟨DIFF_OP_SAME, lo.end1, L1, lo.end2, L2⟩ hchain
      (sameWF _ _ _ _) hle1 hle2
    exact this
  · rw [if_neg ht]
    push_neg at ht
    have h1 : lo.end1 = L1 := by omega
    have h2 : lo.end2 = L2 := by omega
    refine ⟨_, _, rfl, ?_⟩
    rw [← h1, ← h2]
    exact hchain

theorem modifyWF (a b c d : Nat) : OpWF ⟨DIFF_OP_MODIFY, a, b, c, d⟩ :=
  ⟨Or.inr (Or.inl rfl),
   fun h => absurd h (show DIFF_OP_MODIFY ≠ DIFF_OP_INSERT by decide),
   fun h => absurd h (show DIFF_OP_MODIFY ≠ DIFF_OP_REMOVE by decide)⟩

theorem removeWF (a b c : Nat) : OpWF ⟨DIFF_OP_REMOVE, a, b, c, c⟩ :=
  ⟨Or.inr (Or.inr (Or.inr rfl)),
   fun h => absurd h (show DIFF_OP_REMOVE ≠ DIFF_OP_INSERT by decide), fun _ => rfl⟩

theorem insertWF (a c d : Nat) : OpWF ⟨DIFF_OP_INSERT, a, a, c, d⟩ :=
  ⟨Or.inr (Or.inr (Or.inl rfl)), fun _ => rfl,
   fun h => absurd h (show DIFF_OP_INSERT ≠ DIFF_OP_REMOVE by decide)⟩

theorem trimZeroFwd_noop (data : List Int) (i e : Nat)
    (h : i < e → ¬ data.getD i 0 = 0) :
    ∀ fuel, trimZeroFwd data fuel i e = i := by
  intro fuel
  cases fuel with
  | zero => rfl
  | succ n =>
    simp only [trimZeroFwd]
    rw [if_neg]
    rintro ⟨hie, hz⟩
    exact h hie (by simpa using hz)

theorem trimZeroBack_noop (data : List Int) (i j : Nat)
    (h : i < j → ¬ data.getD (j-1) 0 = 0) :
    ∀ fuel, trimZeroBack data fuel i j = j := by
  intro fuel
  cases fuel with
  | zero => rfl
  | succ n =>
    simp only [trimZeroBack]
    rw [if_neg]
    rintro ⟨hij, hz⟩
    exact h hij (by simpa using hz)

/-- With no blank-id (0) lines present, `next_change_segment` trims nothing:
the reported segment is the full marked run. -/
theorem next_change_segment_nonzero (start : Nat) (change : List Bool) (data : List Int)
    (hstart : start < change.length) (hd : data.length = change.length)
    (hnz : ∀ p, p < data.length → ¬ data.getD p 0 = 0) :
    next_change_segment start change data =
      (findRunEnd change change.length (start+1), start,
       findRunEnd change change.length (start+1)) := by
  have hge : start + 1 ≤ findRunEnd change change.length (start+1) :=
    findRunEnd_ge change change.length (start+1)
  have hle : findRunEnd change change.length (start+1) ≤ change.length :=
    findRunEnd_le change change.length (start+1) hstart
  simp only [next_change_segment]
  rw [trimZeroFwd_noop data start (findRunEnd change change.length (start+1))
    (fun _ => hnz start (by omega))]
  rw [trimZeroBack_noop data start (findRunEnd change change.length (start+1))
    (fun _ => hnz (findRunEnd change change.length (start+1) - 1) (by omega))]

/-- The main induction behind the amended C1: the scanning loop of
`report_diff`, run with empty flushed hunks and a pending chain covering
everything up to `(i1, i2)`, either finishes with no marks and no output, or
flushes exactly one hunk whose ops chain `(0,0)` to the full lengths.
Hypotheses: no blank (0) ids, context at least each side's length, and both
remaining bitmaps carry equally many unmarked cells. -/
theorem report_go_main (data1 data2 : List Int) (change1 change2 : List Bool) (context : Nat)
    (hd1 : data1.length = change1.length) (hd2 : data2.length = change2.length)
    (hnz1 : ∀ p, p < data1.length → ¬ data1.getD p 0 = 0)
    (hnz2 : ∀ p, p < data2.length → ¬ data2.getD p 0 = 0)
    (hctx1 : change1.length ≤ context) (hctx2 : change2.length ≤ context) :
    ∀ fuel i1 i2 ops changed,
      change1.length - i1 + (change2.length - i2) < fuel →
      i1 ≤ change1.length → i2 ≤ change2.length →
      countFalse (change1.drop i1) = countFalse (change2.drop i2) →
      (ops = [] ∧ changed = false ∨
        ∃ lo, ops.getLast? = some lo ∧ changed = true ∧
          OpsChain ops (0, 0) (lo.end1, lo.end2) ∧ lo.end1 ≤ i1 ∧ lo.end2 ≤ i2) →
      (report_diff_go data1 data2 change1 change2 context fuel i1 i2 ([], ops, changed)
          = ([], false) ∧ ops = [] ∧ changed = false ∧
        (∀ p, i1 ≤ p → p < change1.length → change1.getD p false = false) ∧
        (∀ p, i2 ≤ p → p < change2.length → change2.getD p false = false)) ∨
      (∃ opsF, report_diff_go data1 data2 change1 change2 context fuel i1 i2 ([], ops, changed)
          = ([opsF], true) ∧ OpsChain opsF (0, 0) (change1.length, change2.length)) := by
  intro fuel
  induction fuel with
  | zero => intro i1 i2 ops changed hfuel; omega
  | succ n ih =>
    intro i1 i2 ops changed hfuel hb1 hb2 hcnt hinv
    by_cases hloop : i1 < change1.length ∨ i2 < change2.length
    case neg =>
      have hi1 : i1 = change1.length := by omega
      have hi2 : i2 = change2.length := by omega
      rcases hinv with ⟨hnilops, hch⟩ | ⟨lo, hlast, hch, hchain, hl1, hl2⟩
      · subst hnilops; subst hch
        left
        refine ⟨?_, rfl, rfl, ?_, ?_⟩
        · simp only [report_diff_go]
          rw [if_neg hloop, if_neg (by simp)]
        · intro p hp hplen; omega
        · intro p hp hplen; omega
      · subst hch
        obtain ⟨opsF, rest, hadd, hchainF⟩ :=
          add_change_segment_flush context change1.length change2.length [] ops lo hlast hchain
            (by omega) (by omega) hctx1 hctx2
        right
        refine ⟨opsF, ?_, hchainF⟩
        simp only [report_diff_go]
        rw [if_neg hloop, if_pos (by
          rcases ops with _ | ⟨o, os⟩
          · exact absurd rfl (ne_nil_of_getLast? hlast)
          · simp)]
        rw [hadd]
        simp
    case pos =>
      by_cases hc1 : i1 < change1.length ∧ i2 < change2.length ∧
          change1.getD i1 false = false ∧ change2.getD i2 false = false
      · -- both cells unmarked: skip in lockstep
        have hrec := ih (i1+1) (i2+1) ops changed (by omega) (by omega) (by omega)
          (by
            have e1 := countFalse_drop_false hc1.1 hc1.2.2.1
            have e2 := countFalse_drop_false hc1.2.1 hc1.2.2.2
            omega)
          (by
            rcases hinv with h | ⟨lo, ha, hb, hc, hd, he⟩
            · exact Or.inl h
            · exact Or.inr ⟨lo, ha, hb, hc, by omega, by omega⟩)
        have hstep : report_diff_go data1 data2 change1 change2 context (n+1) i1 i2
            ([], ops, changed)
            = report_diff_go data1 data2 change1 change2 context n (i1+1) (i2+1)
              ([], ops, changed) := by
          simp only [report_diff_go]
          rw [if_pos hloop,
            if_pos ⟨hc1.1, hc1.2.1, by rw [hc1.2.2.1]; rfl, by rw [hc1.2.2.2]; rfl⟩]
        rw [hstep]
        rcases hrec with ⟨ha, hops, hch, hu1, hu2⟩ | hgood
        · left
          refine ⟨ha, hops, hch, ?_, ?_⟩
          · intro p hp hplen
            rcases Nat.eq_or_lt_of_le hp with rfl | h
            · exact hc1.2.2.1
            · exact hu1 p h hplen
          · intro p hp hplen
            rcases Nat.eq_or_lt_of_le hp with rfl | h
            · exact hc1.2.2.2
            · exact hu2 p h hplen
        · exact Or.inr hgood
      by_cases hc2 : i1 < change1.length ∧ i2 < change2.length ∧
          change1.getD i1 false = true ∧ change2.getD i2 false = true
      · -- both cells marked: emit a MODIFY over both runs
        obtain ⟨e1, he1⟩ : ∃ e, findRunEnd change1 change1.length (i1+1) = e := ⟨_, rfl⟩
        obtain ⟨e2, he2⟩ : ∃ e, findRunEnd change2 change2.length (i2+1) = e := ⟨_, rfl⟩
        have hg1 : i1 + 1 ≤ e1 := he1 ▸ findRunEnd_ge change1 change1.length (i1+1)
        have hg2 : i2 + 1 ≤ e2 := he2 ▸ findRunEnd_ge change2 change2.length (i2+1)
        have hl1 : e1 ≤ change1.length := he1 ▸ findRunEnd_le change1 change1.length (i1+1) hc2.1
        have hl2 : e2 ≤ change2.length := he2 ▸ findRunEnd_le change2 change2.length (i2+1) hc2.2.1
        have ht1 : ∀ p, i1 + 1 ≤ p → p < e1 → change1.getD p false = true := fun p hp hpe =>
          findRunEnd_true change1 change1.length (i1+1) p hp (by rw [he1]; exact hpe)
        have ht2 : ∀ p, i2 + 1 ≤ p → p < e2 → change2.getD p false = true := fun p hp hpe =>
          findRunEnd_true change2 change2.length (i2+1) p hp (by rw [he2]; exact hpe)
        have hn1 : next_change_segment i1 change1 data1 = (e1, i1, e1) := by
          rw [next_change_segment_nonzero i1 change1 data1 hc2.1 hd1 hnz1, he1]
        have hn2 : next_change_segment i2 change2 data2 = (e2, i2, e2) := by
          rw [next_change_segment_nonzero i2 change2 data2 hc2.2.1 hd2 hnz2, he2]
        have hn1a : (next_change_segment i1 change1 data1).1 = e1 := by rw [hn1]
        have hn1b : (next_change_segment i1 change1 data1).2.1 = i1 := by rw [hn1]
        have hn1c : (next_change_segment i1 change1 data1).2.2 = e1 := by rw [hn1]
        have hn2a : (next_change_segment i2 change2 data2).1 = e2 := by rw [hn2]
        have hn2b : (next_change_segment i2 change2 data2).2.1 = i2 := by rw [hn2]
        have hn2c : (next_change_segment i2 change2 data2).2.2 = e2 := by rw [hn2]
        obtain ⟨ops', hadd, hlast', hchain'⟩ :=
          add_change_segment_emit context [] ops ⟨DIFF_OP_MODIFY, i1, e1, i2, e2⟩
            (show DIFF_OP_MODIFY ≠ 0 by decide) (modifyWF i1 e1 i2 e2)
            (show i1 ≤ e1 by omega) (show i2 ≤ e2 by omega)
            (show i1 ≤ context by omega) (show i2 ≤ context by omega)
            (by
              rcases hinv with ⟨h, -⟩ | ⟨lo, ha, hb, hc, hd, he⟩
              · exact Or.inl h
              · exact Or.inr ⟨lo, ha, hc, hd, he⟩)
        have hadd1 : (add_change_segment context ([], ops) ⟨DIFF_OP_MODIFY, i1, e1, i2, e2⟩).1
            = [] := by rw [hadd]
        have hadd2 : (add_change_segment context ([], ops) ⟨DIFF_OP_MODIFY, i1, e1, i2, e2⟩).2
            = ops' := by rw [hadd]
        have hrec := ih e1 e2 ops' true (by omega) hl1 hl2
          (by
            have hq1 : countFalse (change1.drop i1) = countFalse (change1.drop e1) :=
              countFalse_drop_true_range change1 i1 e1 (by omega) hl1 (fun p hp hpe => by
                rcases Nat.eq_or_lt_of_le hp with rfl | h
                · exact hc2.2.2.1
                · exact ht1 p h hpe)
            have hq2 : countFalse (change2.drop i2) = countFalse (change2.drop e2) :=
              countFalse_drop_true_range change2 i2 e2 (by omega) hl2 (fun p hp hpe => by
                rcases Nat.eq_or_lt_of_le hp with rfl | h
                · exact hc2.2.2.2
                · exact ht2 p h hpe)
            omega)
          (Or.inr ⟨⟨DIFF_OP_MODIFY, i1, e1, i2, e2⟩, hlast', rfl, hchain', le_refl e1, le_refl e2⟩)
        have hstep : report_diff_go data1 data2 change1 change2 context (n+1) i1 i2
            ([], ops, changed)
            = report_diff_go data1 data2 change1 change2 context n e1 e2 ([], ops', true) := by
          simp only [report_diff_go]
          rw [if_pos hloop, if_neg (fun h => by rw [hc2.2.2.1] at h; simp at h),
            if_pos ⟨hc2.1, hc2.2.1, hc2.2.2.1, hc2.2.2.2⟩,
            hn1a, hn1b, hn1c, hn2a, hn2b, hn2c,
            if_pos (show i1 < e1 ∧ i2 < e2 from ⟨by omega, by omega⟩),
            if_pos (show DIFF_OP_MODIFY ≠ 0 by decide), hadd1, hadd2]
        rw [hstep]
        rcases hrec with ⟨-, -, hch, -, -⟩ | hgood
        · simp at hch
        · exact Or.inr hgood
      by_cases hc3 : i1 < change1.length ∧ change1.getD i1 false = true
      · -- only the side-1 cell is marked: emit a REMOVE over its run
        obtain ⟨e1, he1⟩ : ∃ e, findRunEnd change1 change1.length (i1+1) = e := ⟨_, rfl⟩
        have hg1 : i1 + 1 ≤ e1 := he1 ▸ findRunEnd_ge change1 change1.length (i1+1)
        have hl1 : e1 ≤ change1.length := he1 ▸ findRunEnd_le change1 change1.length (i1+1) hc3.1
        have ht1 : ∀ p, i1 + 1 ≤ p → p < e1 → change1.getD p false = true := fun p hp hpe =>
          findRunEnd_true change1 change1.length (i1+1) p hp (by rw [he1]; exact hpe)
        have hn1 : next_change_segment i1 change1 data1 = (e1, i1, e1) := by
          rw [next_change_segment_nonzero i1 change1 data1 hc3.1 hd1 hnz1, he1]
        have hn1a : (next_change_segment i1 change1 data1).1 = e1 := by rw [hn1]
        have hn1b : (next_change_segment i1 change1 data1).2.1 = i1 := by rw [hn1]
        have hn1c : (next_change_segment i1 change1 data1).2.2 = e1 := by rw [hn1]
        obtain ⟨ops', hadd, hlast', hchain'⟩ :=
          add_change_segment_emit context [] ops ⟨DIFF_OP_REMOVE, i1, e1, i2, i2⟩
            (show DIFF_OP_REMOVE ≠ 0 by decide) (removeWF i1 e1 i2)
            (show i1 ≤ e1 by omega) (show i2 ≤ i2 by omega)
            (show i1 ≤ context by omega) (show i2 ≤ context by omega)
            (by
              rcases hinv with ⟨h, -⟩ | ⟨lo, ha, hb, hc, hd, he⟩
              · exact Or.inl h
              · exact Or.inr ⟨lo, ha, hc, hd, he⟩)
        have hadd1 : (add_change_segment context ([], ops) ⟨DIFF_OP_REMOVE, i1, e1, i2, i2⟩).1
            = [] := by rw [hadd]
        have hadd2 : (add_change_segment context ([], ops) ⟨DIFF_OP_REMOVE, i1, e1, i2, i2⟩).2
            = ops' := by rw [hadd]
        have hrec := ih e1 i2 ops' true (by omega) hl1 hb2
          (by
            have hq1 : countFalse (change1.drop i1) = countFalse (change1.drop e1) :=
              countFalse_drop_true_range change1 i1 e1 (by omega) hl1 (fun p hp hpe => by
                rcases Nat.eq_or_lt_of_le hp with rfl | h
                · exact hc3.2
                · exact ht1 p h hpe)
            omega)
          (Or.inr ⟨⟨DIFF_OP_REMOVE, i1, e1, i2, i2⟩, hlast', rfl, hchain', le_refl e1, le_refl i2⟩)
        have hstep : report_diff_go data1 data2 change1 change2 context (n+1) i1 i2
            ([], ops, changed)
            = report_diff_go data1 data2 change1 change2 context n e1 i2 ([], ops', true) := by
          simp only [report_diff_go]
          rw [if_pos hloop, if_neg (fun h => by rw [hc3.2] at h; simp at h), if_neg hc2,
            if_pos ⟨hc3.1, hc3.2⟩, hn1a, hn1b, hn1c,
            if_pos (show i1 < e1 by omega), hadd1, hadd2]
        rw [hstep]
        rcases hrec with ⟨-, -, hch, -, -⟩ | hgood
        · simp at hch
        · exact Or.inr hgood
      by_cases hc4 : i2 < change2.length ∧ change2.getD i2 false = true
      · -- only the side-2 cell is marked: emit an INSERT over its run
        obtain ⟨e2, he2⟩ : ∃ e, findRunEnd change2 change2.length (i2+1) = e := ⟨_, rfl⟩
        have hg2 : i2 + 1 ≤ e2 := he2 ▸ findRunEnd_ge change2 change2.length (i2+1)
        have hl2 : e2 ≤ change2.length := he2 ▸ findRunEnd_le change2 change2.length (i2+1) hc4.1
        have ht2 : ∀ p, i2 + 1 ≤ p → p < e2 → change2.getD p false = true := fun p hp hpe =>
          findRunEnd_true change2 change2.length (i2+1) p hp (by rw [he2]; exact hpe)
        have hn2 : next_change_segment i2 change2 data2 = (e2, i2, e2) := by
          rw [next_change_segment_nonzero i2 change2 data2 hc4.1 hd2 hnz2, he2]
        have hn2a : (next_change_segment i2 change2 data2).1 = e2 := by rw [hn2]
        have hn2b : (next_change_segment i2 change2 data2).2.1 = i2 := by rw [hn2]
        have hn2c : (next_change_segment i2 change2 data2).2.2 = e2 := by rw [hn2]
        obtain ⟨ops', hadd, hlast', hchain'⟩ :=
          add_change_segment_emit context [] ops ⟨DIFF_OP_INSERT, i1, i1, i2, e2⟩
            (show DIFF_OP_INSERT ≠ 0 by decide) (insertWF i1 i2 e2)
            (show i1 ≤ i1 by omega) (show i2 ≤ e2 by omega)
            (show i1 ≤ context by omega) (show i2 ≤ context by omega)
            (by
              rcases hinv with ⟨h, -⟩ | ⟨lo, ha, hb, hc, hd, he⟩
              · exact Or.inl h
              · exact Or.inr ⟨lo, ha, hc, hd, he⟩)
        have hadd1 : (add_change_segment context ([], ops) ⟨DIFF_OP_INSERT, i1, i1, i2, e2⟩).1
            = [] := by rw [hadd]
        have hadd2 : (add_change_segment context ([], ops) ⟨DIFF_OP_INSERT, i1, i1, i2, e2⟩).2
            = ops' := by rw [hadd]
        have hrec := ih i1 e2 ops' true (by omega) hb1 hl2
          (by
            have hq2 : countFalse (change2.drop i2) = countFalse (change2.drop e2) :=
              countFalse_drop_true_range change2 i2 e2 (by omega) hl2 (fun p hp hpe => by
                rcases Nat.eq_or_lt_of_le hp with rfl | h
                · exact hc4.2
                · exact ht2 p h hpe)
            omega)
          (Or.inr ⟨⟨DIFF_OP_INSERT, i1, i1, i2, e2⟩, hlast', rfl, hchain', le_refl i1, le_refl e2⟩)
        have hstep : report_diff_go data1 data2 change1 change2 context (n+1) i1 i2
            ([], ops, changed)
            = report_diff_go data1 data2 change1 change2 context n i1 e2 ([], ops', true) := by
          simp only [report_diff_go]
          rw [if_pos hloop, if_neg (fun h => by rw [hc4.2] at h; simp at h), if_neg hc2, if_neg hc3,
            if_pos ⟨hc4.1, hc4.2⟩, hn2a, hn2b, hn2c,
            if_pos (show i2 < e2 by omega), hadd1, hadd2]
        rw [hstep]
        rcases hrec with ⟨-, -, hch, -, -⟩ | hgood
        · simp at hch
        · exact Or.inr hgood
      · -- impossible: the equal unmarked counts force one of the four cases
        exfalso
        rcases hloop with hlt1 | hlt2
        · rcases Bool.eq_false_or_eq_true (change1.getD i1 false) with hv1 | hv1
          · exact hc3 ⟨hlt1, hv1⟩
          · have hpos : 0 < countFalse (change1.drop i1) := countFalse_drop_pos hlt1 hv1
            have hlt2 : i2 < change2.length := by
              by_contra hno
              have hi2 : i2 = change2.length := by omega
              rw [hi2] at hcnt
              have := countFalse_drop_length change2
              omega
            rcases Bool.eq_false_or_eq_true (change2.getD i2 false) with hv2 | hv2
            · exact hc4 ⟨hlt2, hv2⟩
            · exact hc1 ⟨hlt1, hlt2, hv1, hv2⟩
        · rcases Bool.eq_false_or_eq_true (change2.getD i2 false) with hv2 | hv2
          · exact hc4 ⟨hlt2, hv2⟩
          · have hpos : 0 < countFalse (change2.drop i2) := countFalse_drop_pos hlt2 hv2
            have hlt1 : i1 < change1.length := by
              by_contra hno
              have hi1 : i1 = change1.length := by omega
              rw [hi1] at hcnt
              have := countFalse_drop_length change1
              omega
            rcases Bool.eq_false_or_eq_true (change1.getD i1 false) with hv1 | hv1
            · exact hc3 ⟨hlt1, hv1⟩
            · exact hc1 ⟨hlt1, hlt2, hv1, hv2⟩

/-- C1, amended.  The reproduction property holds for the op stream that
`report_diff` hands to the output stage, under the conditions the pipeline
establishes for it: the data and change arrays have matching lengths, no line
carries the blank id 0, `context_lines` is at least each side's length, both
change bitmaps carry equally many unchanged cells, and at least one cell is
marked.  Then exactly one hunk is emitted with `changed = true`, its ops tile
`(0,0)` to `(|A|,|B|)` without gaps, and concatenating the side-1 slices of its
SAME, REMOVE and MODIFY ops yields `A` while concatenating the side-2 slices of
its SAME, INSERT and MODIFY ops yields `B`. -/
theorem c1_amended {α : Type} (A B : List α) (data1 data2 : List Int)
    (change1 change2 : List Bool) (context : Nat)
    (hA : A.length = change1.length) (hB : B.length = change2.length)
    (hd1 : data1.length = change1.length) (hd2 : data2.length = change2.length)
    (hnz1 : ∀ p, p < data1.length → ¬ data1.getD p 0 = 0)
    (hnz2 : ∀ p, p < data2.length → ¬ data2.getD p 0 = 0)
    (hctx1 : change1.length ≤ context) (hctx2 : change2.length ≤ context)
    (hcnt : countFalse change1 = countFalse change2)
    (hmark : ∃ p, change1.getD p false = true ∨ change2.getD p false = true) :
    ∃ opsF, report_diff data1 data2 change1 change2 context = ([opsF], true) ∧
      OpsChain opsF (0, 0) (change1.length, change2.length) ∧
      side1Slices A opsF = A ∧ side2Slices B opsF = B := by
  have hmain := report_go_main data1 data2 change1 change2 context hd1 hd2 hnz1 hnz2 hctx1 hctx2
    (change1.length + change2.length + 1) 0 0 [] false (by omega) (Nat.zero_le _) (Nat.zero_le _)
    (by simpa using hcnt) (Or.inl ⟨rfl, rfl⟩)
  rcases hmain with ⟨hres, -, -, hu1, hu2⟩ | ⟨opsF, hres, hchain⟩
  · exfalso
    obtain ⟨p, hp⟩ := hmark
    rcases hp with hp | hp
    · by_cases hpl : p < change1.length
      · rw [hu1 p (Nat.zero_le p) hpl] at hp
        simp at hp
      · rw [List.getD_eq_default _ _ (by omega)] at hp
        simp at hp
    · by_cases hpl : p < change2.length
      · rw [hu2 p (Nat.zero_le p) hpl] at hp
        simp at hp
      · rw [List.getD_eq_default _ _ (by omega)] at hp
        simp at hp
  · refine ⟨opsF, ?_, hchain, ?_, ?_⟩
    · simp only [report_diff]
      exact hres
    · have h := side1Slices_chain A opsF (0, 0) (change1.length, change2.length) hchain
        (by simp; omega)
      rw [h]
      simp only [List.drop_zero, Nat.sub_zero]
      rw [← hA, List.take_length]
    · have h := side2Slices_chain B opsF (0, 0) (change1.length, change2.length) hchain
        (by simp; omega)
      rw [h]
      simp only [List.drop_zero, Nat.sub_zero]
      rw [← hB, List.take_length]

/-- Witness for C1's amended theorem: a one-line modification with matching
lengths, nonzero ids, ample context, equal unmarked counts and a mark. -/
theorem c1_amended_witness :
    ∃ opsF, report_diff [1] [1] [true] [true] 2 = ([opsF], true) ∧
      OpsChain opsF (0, 0) (1, 1) ∧
      side1Slices ([[49]] : List Line) opsF = [[49]] ∧
      side2Slices ([[49]] : List Line) opsF = [[49]] :=
  c1_amended [[49]] [[49]] [1] [1] [true] [true] 2 rfl rfl rfl rfl
    (fun p hp => by
      have h0 : p = 0 := by simpa using hp
      subst h0
      decide)
    (fun p hp => by
      have h0 : p = 0 := by simpa using hp
      subst h0
      decide)
    (by decide) (by decide) rfl ⟨0, Or.inl rfl⟩

/-! ## Count-preservation of the boundary shifter -/

theorem getD_set_eq {l : List Bool} {i : Nat} (v : Bool) (h : i < l.length) :
    (l.set i v).getD i false = v := by
  rw [List.getD_eq_getElem _ _ (by simpa using h)]
  simp [List.getElem_set]

theorem getD_set_ne {l : List Bool} {i j : Nat} (v : Bool) (h : i ≠ j) :
    (l.set i v).getD j false = l.getD j false := by
  simp [List.getD_eq_getElem?_getD, List.getElem?_set_ne h]

theorem countTrue_cons_true {l : List Bool} : countTrue (true :: l) = countTrue l + 1 := by
  simp [countTrue]

theorem countTrue_cons_false {l : List Bool} : countTrue (false :: l) = countTrue l := by
  simp [countTrue]

theorem countTrue_set (c : List Bool) : ∀ (i : Nat) (b : Bool), i < c.length →
    countTrue (c.set i b) + (if c.getD i false then 1 else 0)
      = countTrue c + (if b then 1 else 0) := by
  induction c with
  | nil => intro i b h; simp at h
  | cons hd tl ih =>
    intro i b h
    cases i with
    | zero =>
      cases hd <;> cases b <;>
        simp [countTrue_cons_true, countTrue_cons_false, List.getD_cons_zero]
    | succ n =>
      have hn : n < tl.length := by simpa using h
      have hrec := ih n b hn
      cases hd <;>
        simp only [List.set_cons_succ, countTrue_cons_true, countTrue_cons_false,
          List.getD_cons_succ] <;> omega

theorem countTrue_set_true {c : List Bool} {i : Nat} (h : i < c.length)
    (hf : c.getD i false = false) : countTrue (c.set i true) = countTrue c + 1 := by
  have := countTrue_set c i true h
  rw [hf] at this
  simpa using this

theorem countTrue_set_false {c : List Bool} {i : Nat} (h : i < c.length)
    (hf : c.getD i false = true) : countTrue c = countTrue (c.set i false) + 1 := by
  have := countTrue_set c i false h
  rw [hf] at this
  simpa using this.symm

/-- An upward run slide preserves the number of marked cells: each step marks a
previously unmarked cell below the run and unmarks the run's current tail. -/
theorem do_shift_neg_count : ∀ (n start end_ : Nat) (change : List Bool),
    n ≤ start → start < end_ → end_ ≤ change.length →
    (∀ p, start - n ≤ p → p < start → change.getD p false = false) →
    (∀ p, end_ - n ≤ p → start ≤ p → p < end_ → change.getD p false = true) →
    countTrue (do_shift_neg n start end_ change) = countTrue change ∧
    (do_shift_neg n start end_ change).length = change.length := by
  intro n
  induction n with
  | zero => intro start end_ change _ _ _ _ _; exact ⟨rfl, rfl⟩
  | succ m ih =>
    intro start end_ change hns hse hel hA hB
    have h1 : start - 1 < change.length := by omega
    have h2 : end_ - 1 < change.length := by omega
    have hne : start - 1 ≠ end_ - 1 := by omega
    have hfa : change.getD (start-1) false = false := hA (start-1) (by omega) (by omega)
    have hfb : change.getD (end_-1) false = true := hB (end_-1) (by omega) (by omega) (by omega)
    have hca : countTrue (change.set (start-1) true) = countTrue change + 1 :=
      countTrue_set_true h1 hfa
    have hb1 : (change.set (start-1) true).getD (end_-1) false = true := by
      rw [getD_set_ne true hne]; exact hfb
    have hcb : countTrue (change.set (start-1) true)
        = countTrue ((change.set (start-1) true).set (end_-1) false) + 1 :=
      countTrue_set_false (by simpa using h2) hb1
    have hlen2 : ((change.set (start-1) true).set (end_-1) false).length = change.length := by
      simp
    have hrec := ih (start-1) (end_-1) ((change.set (start-1) true).set (end_-1) false)
      (by omega) (by omega) (by omega)
      (fun p hp hps => by
        rw [getD_set_ne false (by omega), getD_set_ne true (by omega)]
        exact hA p (by omega) (by omega))
      (fun p hp hps hpe => by
        rw [getD_set_ne false (by omega)]
        by_cases hps1 : p = start - 1
        · subst hps1; exact getD_set_eq true h1
        · rw [getD_set_ne true (by omega)]
          exact hB p (by omega) (by omega) (by omega))
    simp only [do_shift_neg]
    exact ⟨by omega, by rw [hrec.2, hlen2]⟩

/-- A downward run slide preserves the number of marked cells. -/
theorem do_shift_pos_count : ∀ (n start end_ : Nat) (change : List Bool),
    start < end_ → end_ + n ≤ change.length →
    (∀ p, end_ ≤ p → p < end_ + n → change.getD p false = false) →
    (∀ p, start ≤ p → p < end_ → change.getD p false = true) →
    countTrue (do_shift_pos n start end_ change) = countTrue change ∧
    (do_shift_pos n start end_ change).length = change.length := by
  intro n
  induction n with
  | zero => intro start end_ change _ _ _ _; exact ⟨rfl, rfl⟩
  | succ m ih =>
    intro start end_ change hse hel hA hB
    have h1 : start < change.length := by omega
    have h2 : end_ < change.length := by omega
    have hne : start ≠ end_ := by omega
    have hfb : change.getD start false = true := hB start (by omega) (by omega)
    have hfa : change.getD end_ false = false := hA end_ (by omega) (by omega)
    have hca : countTrue change = countTrue (change.set start false) + 1 :=
      countTrue_set_false h1 hfb
    have hb1 : (change.set start false).getD end_ false = false := by
      rw [getD_set_ne false hne]; exact hfa
    have hcb : countTrue ((change.set start false).set end_ true)
        = countTrue (change.set start false) + 1 :=
      countTrue_set_true (by simpa using h2) hb1
    have hlen2 : ((change.set start false).set end_ true).length = change.length := by
      simp
    have hrec := ih (start+1) (end_+1) ((change.set start false).set end_ true)
      (by omega) (by omega)
      (fun p hp hps => by
        rw [getD_set_ne true (by omega), getD_set_ne false (by omega)]
        exact hA p (by omega) (by omega))
      (fun p hp hps => by
        by_cases hpe : p = end_
        · subst hpe; exact getD_set_eq true (by simpa using h2)
        · rw [getD_set_ne true (by omega), getD_set_ne false (by omega)]
          exact hB p (by omega) (by omega))
    simp only [do_shift_pos]
    exact ⟨by omega, by rw [hrec.2, hlen2]⟩

theorem findNextChange_ge (change : List Bool) : ∀ fuel s, s ≤ findNextChange change fuel s := by
  intro fuel
  induction fuel with
  | zero => intro s; simp [findNextChange]
  | succ n ih =>
    intro s
    simp only [findNextChange]
    split
    · exact le_trans (Nat.le_succ s) (ih (s+1))
    · exact le_refl s

theorem findNextChange_marked (change : List Bool) :
    ∀ fuel s, change.length ≤ s + fuel →
      findNextChange change fuel s < change.length →
      change.getD (findNextChange change fuel s) false = true := by
  intro fuel
  induction fuel with
  | zero =>
    intro s hf hlt
    simp only [findNextChange] at hlt
    omega
  | succ n ih =>
    intro s hf hlt
    simp only [findNextChange] at hlt ⊢
    by_cases h : s < change.length ∧ (!change.getD s false) = true
    · rw [if_pos h] at hlt ⊢
      exact ih (s+1) (by omega) hlt
    · rw [if_neg h] at hlt ⊢
      rcases Bool.eq_false_or_eq_true (change.getD s false) with hv | hv
      · exact hv
      · exact absurd ⟨hlt, by rw [hv]; rfl⟩ h

theorem upScan_le (data : List Int) (change : List Bool) (start end_ : Nat) :
    ∀ fuel up, up ≤ start → upScan data change start end_ fuel up ≤ start := by
  intro fuel
  induction fuel with
  | zero => intro up h; exact h
  | succ n ih =>
    intro up h
    simp only [upScan]
    split
    · next hc => exact ih (up+1) hc.1
    · exact h

theorem upScan_false (data : List Int) (change : List Bool) (start end_ : Nat) :
    ∀ fuel up, (∀ p, start - up ≤ p → p < start → change.getD p false = false) →
      ∀ p, start - upScan data change start end_ fuel up ≤ p → p < start →
        change.getD p false = false := by
  intro fuel
  induction fuel with
  | zero => intro up h; exact h
  | succ n ih =>
    intro up h
    simp only [upScan]
    split
    · next hc =>
      refine ih (up+1) ?_
      intro p hp hps
      by_cases hpc : p = start - up - 1
      · subst hpc
        rcases Bool.eq_false_or_eq_true (change.getD (start-up-1) false) with hv | hv
        · exact absurd hc.2.1 (by rw [hv]; simp)
        · exact hv
      · exact h p (by omega) hps
    · exact h

theorem downScan_le (data : List Int) (change : List Bool) (start end_ : Nat) :
    ∀ fuel down, end_ + down ≤ data.length →
      end_ + downScan data change start end_ fuel down ≤ data.length := by
  intro fuel
  induction fuel with
  | zero => intro down h; exact h
  | succ n ih =>
    intro down h
    simp only [downScan]
    split
    · next hc => exact ih (down+1) (by omega)
    · exact h

theorem downScan_false (data : List Int) (change : List Bool) (start end_ : Nat) :
    ∀ fuel down, (∀ p, end_ ≤ p → p < end_ + down → change.getD p false = false) →
      ∀ p, end_ ≤ p → p < end_ + downScan data change start end_ fuel down →
        change.getD p false = false := by
  intro fuel
  induction fuel with
  | zero => intro down h; exact h
  | succ n ih =>
    intro down h
    simp only [downScan]
    split
    · next hc =>
      refine ih (down+1) ?_
      intro p hp hps
      by_cases hpc : p = end_ + down
      · subst hpc
        rcases Bool.eq_false_or_eq_true (change.getD (end_+down) false) with hv | hv
        · exact absurd hc.2.1 (by rw [hv]; simp)
        · exact hv
      · exact h p hp (by omega)
    · exact h

theorem foldl_inv {σ α : Type} (f : σ → α → σ) (P : σ → Prop) :
    ∀ (l : List α) (s : σ), P s → (∀ s a, a ∈ l → P s → P (f s a)) → P (l.foldl f s) := by
  intro l
  induction l with
  | nil => intro s h _; exact h
  | cons a t ih =>
    intro s h hstep
    exact ih (f s a) (hstep s a (by simp) h)
      (fun s' b hb h' => hstep s' b (by simp [hb]) h')

theorem bestOffset_bounds (bs : Int → Int → Int) (data : List Int) (start end_ up down : Nat) :
    -(up : Int) ≤ bestOffset bs data start end_ up down ∧
      bestOffset bs data start end_ up down ≤ (down : Int) := by
  simp only [bestOffset]
  refine foldl_inv _ (fun (acc : Int × Int) => -(up : Int) ≤ acc.1 ∧ acc.1 ≤ (down : Int))
    _ _ ⟨by omega, by omega⟩ (fun s a ha hP => ?_)
  have hb : ∃ b : Nat, b < up + down + 1 ∧ a = ((b : Int)) := by
    simpa using ha
  obtain ⟨b, hblt, hba⟩ := hb
  subst hba
  simp only
  split
  · split
    · exact ⟨by omega, by omega⟩
    · exact hP
  · exact hP

/-- The flushed offset of the score branch always acts inside the scanned
slack, so `do_shift_boundary` for it preserves the count. -/
theorem do_shift_boundary_neg_eq (s e : Nat) (c : List Bool) (u : Nat) (hu : 0 < u) :
    do_shift_boundary s e (-(u : Int)) c = do_shift_neg u s e c := by
  rw [do_shift_boundary, if_pos (by omega)]
  congr 1
  simp

theorem do_shift_boundary_pos_eq (s e : Nat) (c : List Bool) (d : Nat) :
    do_shift_boundary s e (d : Int) c = do_shift_pos d s e c := by
  rw [do_shift_boundary, if_neg (by omega)]
  simp

/-- The scanning loop of `shift_boundaries` preserves the number of marked
cells and the bitmap length: every `do_shift_boundary` it performs moves a run
into scanned head-room, marking exactly as many cells as it unmarks. -/
theorem shift_go_count (data : List Int) (score : Option (Int → Int → Int)) :
    ∀ (fuel start0 : Nat) (change : List Bool),
      change.length = data.length →
      countTrue (shift_boundaries_go data score fuel start0 change) = countTrue change ∧
      (shift_boundaries_go data score fuel start0 change).length = change.length := by
  intro fuel
  induction fuel with
  | zero => intro start0 change _; exact ⟨rfl, rfl⟩
  | succ n ih =>
    intro start0 change hlen
    simp only [shift_boundaries_go]
    obtain ⟨S, hS⟩ : ∃ s, findNextChange change change.length start0 = s := ⟨_, rfl⟩
    rw [hS]
    by_cases hend : change.length ≤ S
    · rw [if_pos hend]; exact ⟨rfl, rfl⟩
    · rw [if_neg hend]
      push_neg at hend
      have hSmark : change.getD S false = true := by
        have := findNextChange_marked change change.length start0 (by omega)
          (by rw [hS]; exact hend)
        rwa [hS] at this
      split
      next h0 =>
        -- start = 0: the head-room overrides force `up = down = 0`, no shift
        simp only [lt_self_iff_false, false_and, if_false, false_or]
        split
        next bs heqs => exact ih _ change hlen
        next heqs => exact ih _ change hlen
      next h0 =>
        obtain ⟨end_, he⟩ : ∃ e, (find_shift_boundary S data change).1 = e := ⟨_, rfl⟩
        obtain ⟨up0, hu⟩ : ∃ u, (find_shift_boundary S data change).2.1 = u := ⟨_, rfl⟩
        obtain ⟨down0, hd⟩ : ∃ d, (find_shift_boundary S data change).2.2.1 = d := ⟨_, rfl⟩
        obtain ⟨um, hum⟩ : ∃ b, (find_shift_boundary S data change).2.2.2.1 = b := ⟨_, rfl⟩
        obtain ⟨dm, hdm⟩ : ∃ b, (find_shift_boundary S data change).2.2.2.2 = b := ⟨_, rfl⟩
        rw [he, hu, hd, hum, hdm]
        simp only [find_shift_boundary] at he hu hd hum hdm
        rw [he] at hu hd
        have hge : S + 1 ≤ end_ := by
          rw [← he]; exact findRunEnd_ge change change.length (S+1)
        have hle : end_ ≤ change.length := by
          rw [← he]; exact findRunEnd_le change change.length (S+1) hend
        have hrun : ∀ p, S ≤ p → p < end_ → change.getD p false = true := by
          intro p hp hpe
          rcases Nat.eq_or_lt_of_le hp with rfl | h
          · exact hSmark
          · exact findRunEnd_true change change.length (S+1) p h (by rw [he]; exact hpe)
        have hup_le : up0 ≤ S := by
          rw [← hu]; exact upScan_le data change S end_ change.length 0 (Nat.zero_le S)
        have hup_false : ∀ p, S - up0 ≤ p → p < S → change.getD p false = false := by
          have := upScan_false data change S end_ change.length 0
            (fun p hp hps => absurd hps (by omega))
          rwa [hu] at this
        have hdown_le : end_ + down0 ≤ data.length := by
          rw [← hd]; exact downScan_le data change S end_ change.length 0 (by omega)
        have hdown_false : ∀ p, end_ ≤ p → p < end_ + down0 → change.getD p false = false := by
          have := downScan_false data change S end_ change.length 0
            (fun p hp hps => absurd hps (by omega))
          rwa [hd] at this
        by_cases hupc : up0 > 0 ∧ um = true
        · rw [if_pos hupc,
            do_shift_boundary_neg_eq S end_ change up0 hupc.1]
          have hcnt := do_shift_neg_count up0 S end_ change hup_le (by omega) hle hup_false
            (fun p hp hps hpe => hrun p hps hpe)
          have hrec := ih (if scanBack (do_shift_neg up0 S end_ change) (S - up0) > 0
              then scanBack (do_shift_neg up0 S end_ change) (S - up0) else S)
            (do_shift_neg up0 S end_ change) (by rw [hcnt.2]; exact hlen)
          exact ⟨by rw [hrec.1, hcnt.1], by rw [hrec.2, hcnt.2]⟩
        · rw [if_neg hupc]
          by_cases hdownc : down0 > 0 ∧ dm = true
          · rw [if_pos hdownc, do_shift_boundary_pos_eq S end_ change down0]
            have hcnt := do_shift_pos_count down0 S end_ change (by omega) (by omega)
              hdown_false (fun p hp hpe => hrun p hp hpe)
            have hrec := ih (S + down0) (do_shift_pos down0 S end_ change)
              (by rw [hcnt.2]; exact hlen)
            exact ⟨by rw [hrec.1, hcnt.1], by rw [hrec.2, hcnt.2]⟩
          · rw [if_neg hdownc]
            split
            next _ bs =>
              -- a boundary-score function is installed
              by_cases hud : up0 > 0 ∨ down0 > 0
              · rw [if_pos hud]
                obtain ⟨off, hoff⟩ : ∃ o, bestOffset bs data S end_ up0 down0 = o := ⟨_, rfl⟩
                have hbnd := bestOffset_bounds bs data S end_ up0 down0
                rw [hoff] at hbnd
                rw [hoff]
                by_cases hz : off ≠ 0
                · rw [if_pos hz]
                  by_cases hneg : off < 0
                  · have h1 : ((-off).natAbs : Int) = -off := Int.natAbs_of_nonneg (by omega)
                    rw [Int.natAbs_neg] at h1
                    have h2 : off = -((off.natAbs : Int)) := by omega
                    rw [h2, do_shift_boundary_neg_eq S end_ change off.natAbs (by omega)]
                    have hcnt := do_shift_neg_count off.natAbs S end_ change (by omega)
                      (by omega) hle
                      (fun p hp hps => hup_false p (by omega) hps)
                      (fun p hp hps hpe => hrun p hps hpe)
                    exact ⟨(ih _ (do_shift_neg off.natAbs S end_ change)
                        (by rw [hcnt.2]; exact hlen)).1.trans hcnt.1,
                      (ih _ (do_shift_neg off.natAbs S end_ change)
                        (by rw [hcnt.2]; exact hlen)).2.trans hcnt.2⟩
                  · have h1 : ((off.toNat : Int)) = off := Int.toNat_of_nonneg (by omega)
                    have h2 : off = ((off.toNat : Int)) := h1.symm
                    rw [h2, do_shift_boundary_pos_eq S end_ change off.toNat]
                    have hcnt := do_shift_pos_count off.toNat S end_ change (by omega)
                      (by omega)
                      (fun p hp hps => hdown_false p hp (by omega))
                      (fun p hp hpe => hrun p hp hpe)
                    exact ⟨(ih _ (do_shift_pos off.toNat S end_ change)
                        (by rw [hcnt.2]; exact hlen)).1.trans hcnt.1,
                      (ih _ (do_shift_pos off.toNat S end_ change)
                        (by rw [hcnt.2]; exact hlen)).2.trans hcnt.2⟩
                · rw [if_neg hz]
                  exact ih _ change hlen
              · rw [if_neg hud]
                exact ih end_ change hlen
            next _ =>
              -- no score function
              exact ih end_ change hlen

/-- `shift_boundaries` preserves the number of marked cells on a bitmap whose
length matches the data's. -/
theorem shift_boundaries_count (data : List Int) (change : List Bool)
    (score : Option (Int → Int → Int)) (hlen : change.length = data.length) :
    countTrue (shift_boundaries data change score) = countTrue change :=
  (shift_go_count data score ((2*change.length+3) * (change.length+2)) 0 change hlen).1

theorem getD_set_true_mono {c : List Bool} {a p : Nat} (h : c.getD p false = true) :
    (c.set a true).getD p false = true := by
  by_cases hpa : p = a
  · subst hpa
    by_cases hl : p < c.length
    · exact getD_set_eq true hl
    · rw [List.getD_eq_default _ _ (by omega)] at h
      exact absurd h (by simp)
  · rw [getD_set_ne true (fun hq => hpa hq.symm)]
    exact h

theorem markRangeGo_mono : ∀ (fuel a : Nat) (c : List Bool) (p : Nat),
    c.getD p false = true → (markRangeGo fuel a c).getD p false = true := by
  intro fuel
  induction fuel with
  | zero => intro a c p h; exact h
  | succ n ih =>
    intro a c p h
    exact ih (a+1) (c.set a true) p (getD_set_true_mono h)

theorem markRange_mono {c : List Bool} {a b p : Nat} (h : c.getD p false = true) :
    (markRange c a b).getD p false = true :=
  markRangeGo_mono (b - a) a c p h

theorem expandSide_mono : ∀ (ms : List Int) (zchange : List Bool) (n : Nat)
    (change : List Bool) (off p : Nat), change.getD p false = true →
    (expandSide off ms zchange n change).getD p false = true := by
  intro ms
  induction ms with
  | nil => intro zchange n change off p h; exact h
  | cons m rest ih =>
    intro zchange n change off p h
    simp only [expandSide]
    split
    · exact ih _ _ _ _ _ (markRange_mono h)
    · exact ih _ _ _ _ _ h

/-- C5, amended.  The change expander only adds marks: every position marked
before `expand_change_list` (in particular every mark made by the compressor)
is still marked after it, on both sides.  The boundary shifter may relocate
marks, but it preserves the number of marked positions on each side. -/
theorem c5_amended :
    (∀ (info1 info2 : LinesData) (zchange1 zchange2 : Option (List Bool)) (p : Nat),
        info1.change.getD p false = true →
        (expand_change_list info1 info2 zchange1 zchange2).1.change.getD p false = true) ∧
    (∀ (info1 info2 : LinesData) (zchange1 zchange2 : Option (List Bool)) (p : Nat),
        info2.change.getD p false = true →
        (expand_change_list info1 info2 zchange1 zchange2).2.change.getD p false = true) ∧
    (∀ (data : List Int) (change : List Bool) (score : Option (Int → Int → Int)),
        change.length = data.length →
        countTrue (shift_boundaries data change score) = countTrue change) := by
  refine ⟨?_, ?_, fun data change score h => shift_boundaries_count data change score h⟩
  · intro info1 info2 zchange1 zchange2 p h
    simp only [expand_change_list]
    rcases hz : info1.zcount with _ | zc <;> rcases hz2 : zchange1 with _ | z <;>
      simp only [hz, hz2] <;>
      first
        | exact h
        | exact expandSide_mono _ _ _ _ _ _ h
  · intro info1 info2 zchange1 zchange2 p h
    simp only [expand_change_list]
    rcases hz : info2.zcount with _ | zc <;> rcases hz2 : zchange2 with _ | z <;>
      simp only [hz, hz2] <;>
      first
        | exact h
        | exact expandSide_mono _ _ _ _ _ _ h

/-- Witness for C5's amended theorem: a marked cell surviving expansion, and a
shift run (the very scenario of the counterexample) keeping the mark count. -/
theorem c5_amended_witness :
    (expand_change_list ⟨[1], none, some [1], [false, true], 0, 0⟩
        ⟨[1], none, none, [true], 0, 0⟩ (some [true]) none).1.change.getD 1 false = true ∧
    countTrue (shift_boundaries [0, 0] [false, true] none) = countTrue [false, true] :=
  ⟨c5_amended.1 ⟨[1], none, some [1], [false, true], 0, 0⟩
      ⟨[1], none, none, [true], 0, 0⟩ (some [true]) none 1 rfl,
   c5_amended.2.2 [0, 0] [false, true] none rfl⟩

/-! ## Sentinel ranges of the `zids` construction -/

/-- Every entry of a compressed `zids` sequence is a kept nonnegative id, the
negation of an excluded id of the window, or the negation of a fresh id drawn
from `[next_id, final counter)`; the counter never decreases. -/
theorem buildZids_mem (has : Int → Bool) (max_id n0 : Int) (w : List Int)
    (hw : ∀ v, v ∈ w → 0 ≤ v) :
    n0 ≤ (buildZids has max_id n0 w).2.2 ∧
    ∀ z ∈ (buildZids has max_id n0 w).1,
      0 ≤ z ∨ (∃ v, v ∈ w ∧ z = -v ∧ (max_id < v ∨ has v = false)) ∨
        (n0 ≤ -z ∧ -z < (buildZids has max_id n0 w).2.2) := by
  simp only [buildZids]
  have hinv := foldl_inv (buildZidsStep has max_id)
    (fun (st : Bool × Int × List Int × List Int) => n0 ≤ st.2.1 ∧ ∀ z ∈ st.2.2.1,
      0 ≤ z ∨ (∃ v, v ∈ w ∧ z = -v ∧ (max_id < v ∨ has v = false)) ∨ (n0 ≤ -z ∧ -z < st.2.1))
    w (false, n0, [], []) ⟨le_refl n0, by simp⟩ ?_
  · refine ⟨hinv.1, ?_⟩
    intro z hz
    rw [List.mem_reverse] at hz
    exact hinv.2 z hz
  · intro st v hv hP
    obtain ⟨lastex, next_id, zs, zc⟩ := st
    have hPc : n0 ≤ next_id := hP.1
    have hPm : ∀ z ∈ zs, 0 ≤ z ∨ (∃ v, v ∈ w ∧ z = -v ∧ (max_id < v ∨ has v = false)) ∨
        (n0 ≤ -z ∧ -z < next_id) := hP.2
    simp only [buildZidsStep]
    split
    · -- run extension: replace the head with a fresh sentinel
      refine ⟨show n0 ≤ next_id + 1 by omega, ?_⟩
      intro z hz
      rcases List.mem_cons.mp hz with rfl | hz'
      · exact Or.inr (Or.inr ⟨show n0 ≤ -(-next_id) by omega,
          show -(-next_id) < next_id + 1 by omega⟩)
      · rcases hPm z (List.mem_of_mem_tail hz') with h | h | h
        · exact Or.inl h
        · exact Or.inr (Or.inl h)
        · exact Or.inr (Or.inr ⟨h.1, show -z < next_id + 1 by omega⟩)
    · split
      · -- new excluded run: the negated own id
        next hnc hc =>
        refine ⟨hPc, ?_⟩
        intro z hz
        rcases List.mem_cons.mp hz with rfl | hz'
        · refine Or.inr (Or.inl ⟨v, hv, rfl, ?_⟩)
          simpa [Bool.or_eq_true, decide_eq_true_eq] using hc
        · exact hPm z hz'
      · -- kept id
        refine ⟨hPc, ?_⟩
        intro z hz
        rcases List.mem_cons.mp hz with rfl | hz'
        · exact Or.inl (hw z hv)
        · exact hPm z hz'

/-- C6, amended.  Sentinel (negative) entries on opposite sides never compare
equal: a side-1 sentinel is the negation of an id excluded there or of a fresh
id below the handed-over counter, while a side-2 sentinel negates an id that
side 2 owns or a fresh id at or above that counter. -/
theorem c6_amended (w1 w2 : List Int) (has1 has2 : Int → Bool) (max1 max2 n0 : Int)
    (hn0 : MaxInt max1 max2 < n0)
    (hw1 : ∀ v, v ∈ w1 → 0 ≤ v ∧ v ≤ max1)
    (hw2 : ∀ v, v ∈ w2 → 0 ≤ v ∧ v ≤ max2)
    (hhas2 : ∀ v, v ∈ w2 → has2 v = true) :
    ∀ x ∈ (buildZids has2 max2 n0 w1).1,
      ∀ y ∈ (buildZids has1 max1 (buildZids has2 max2 n0 w1).2.2 w2).1,
        x < 0 → y < 0 → x ≠ y := by
  have hm : max1 < n0 ∧ max2 < n0 := by
    rw [MaxInt] at hn0
    split at hn0 <;> omega
  obtain ⟨hc1, hmem1⟩ := buildZids_mem has2 max2 n0 w1 (fun v hv => (hw1 v hv).1)
  obtain ⟨hc2, hmem2⟩ := buildZids_mem has1 max1 ((buildZids has2 max2 n0 w1).2.2) w2
    (fun v hv => (hw2 v hv).1)
  intro x hx y hy hxneg hyneg hxy
  rcases hmem1 x hx with h | ⟨v1, hv1w, hxv, hex1⟩ | ⟨hf1a, hf1b⟩
  · omega
  · rcases hmem2 y hy with h | ⟨v2, hv2w, hyv, hex2⟩ | ⟨hf2a, hf2b⟩
    · omega
    · have hveq : v1 = v2 := by omega
      subst hveq
      have h2t := hhas2 v1 hv2w
      have h2le := (hw2 v1 hv2w).2
      rcases hex1 with h | h
      · omega
      · rw [h2t] at h
        exact absurd h (by simp)
    · have hv1le := (hw1 v1 hv1w).2
      omega
  · rcases hmem2 y hy with h | ⟨v2, hv2w, hyv, hex2⟩ | ⟨hf2a, hf2b⟩
    · omega
    · have hv2le := (hw2 v2 hv2w).2
      omega
    · omega

/-- Witness for C6's amended theorem: a scenario with a singleton sentinel on
side 1 (`-7`) and a fresh run sentinel on side 2 (`-10`). -/
theorem c6_amended_witness :
    (-7 : Int) ∈ (buildZids (hasId [2, 9, 1]) 9 10 [1, 7, 2]).1 ∧
    (-10 : Int) ∈ (buildZids (hasId [1, 7, 2]) 7
        (buildZids (hasId [2, 9, 1]) 9 10 [1, 7, 2]).2.2 [2, 9, 9, 1]).1 ∧
    (-7 : Int) ≠ (-10 : Int) :=
  ⟨by decide, by decide,
   c6_amended [1, 7, 2] [2, 9, 9, 1] (hasId [1, 7, 2]) (hasId [2, 9, 1]) 7 9 10
     (by decide) (by decide) (by decide) (by decide)
     (-7) (by decide) (-10) (by decide) (by decide) (by decide)⟩

/-! ## C9: the boundary shifter is not idempotent with a score function -/

/-- C9 counterexample.  With the boundary-score function
`(r1,r2) ↦ (7·r1+3·r2) mod 5`, running `shift_boundaries` a second time on the
output of the first run changes the bitmap again. -/
theorem c9_counterexample :
    shift_boundaries c9data (shift_boundaries c9data c9change (some c9score)) (some c9score)
      ≠ shift_boundaries c9data c9change (some c9score) := by decide

/-- C9, amended.  The shifter need not be idempotent (with a boundary-score
function a second run can change the bitmap again), but every run — first or
repeated, with or without a score function — preserves the number of marked
cells, so re-running it never changes how many positions count as changed. -/
theorem c9_amended (data : List Int) (change : List Bool)
    (score : Option (Int → Int → Int)) (hlen : change.length = data.length) :
    countTrue (shift_boundaries data (shift_boundaries data change score) score)
        = countTrue (shift_boundaries data change score) ∧
    countTrue (shift_boundaries data change score) = countTrue change := by
  have h1 := (shift_go_count data score ((2*change.length+3) * (change.length+2)) 0 change hlen).1
  have hl := (shift_go_count data score ((2*change.length+3) * (change.length+2)) 0 change hlen).2
  refine ⟨?_, h1⟩
  exact (shift_go_count data score
    ((2*(shift_boundaries data change score).length+3)
      * ((shift_boundaries data change score).length+2)) 0
    (shift_boundaries data change score) (by rw [shift_boundaries, hl]; exact hlen)).1

/-! ## Classifier table theory -/

theorem getD_set_ne' {α : Type} {l : List α} {i j : Nat} (v d : α) (h : i ≠ j) :
    (l.set i v).getD j d = l.getD j d := by
  simp [List.getD_eq_getElem?_getD, List.getElem?_set_ne h]

theorem getD_set_eq' {α : Type} {l : List α} {i : Nat} (v d : α) (h : i < l.length) :
    (l.set i v).getD i d = v := by
  rw [List.getD_eq_getElem _ _ (by simpa using h)]
  simp [List.getElem_set]

theorem getD_replicate' {α : Type} (n i : Nat) (d x : α) :
    (List.replicate n x).getD i d = if i < n then x else d := by
  by_cases h : i < n
  · rw [List.getD_eq_getElem _ _ (by simpa using h)]
    simp [h]
  · rw [List.getD_eq_default _ _ (by simpa using h)]
    simp [h]

theorem mem_eqInsert {e x : EquivClass} {b : List EquivClass} :
    x ∈ eqInsert e b ↔ x = e ∨ x ∈ b := by
  cases b with
  | nil => simp [eqInsert]
  | cons h r =>
    simp only [eqInsert, List.mem_cons]
    tauto

/-- One classification step: the table invariant is preserved, the table only
grows, and the returned id is carried by a canonically matching entry. -/
theorem classifyLine_step {κ : Type} (canon : Line → κ) (cmp : Line → Line → Bool)
    (hashF : Line → Nat) (buckets : Nat) (lo : Int) (hb : 0 < buckets)
    (hc : ∀ a b, cmp a b = true ↔ canon a = canon b)
    (hh : ∀ a b, canon a = canon b → hashF a = hashF b)
    (t : EqTable) (n : Int) (l : Line) (t' : EqTable) (n' : Int) (v : Int)
    (hinv : TableInv canon hashF buckets lo t n)
    (heq : classifyLine cmp hashF buckets (t, n) l = ((t', n'), v)) :
    TableInv canon hashF buckets lo t' n' ∧ n ≤ n' ∧
    (∀ e, InTable t e → InTable t' e) ∧
    (∃ e, InTable t' e ∧ e.id = v ∧ canon e.line = canon l) := by
  obtain ⟨hlen, hI1, hIff, hBnd, hLo⟩ := hinv
  obtain ⟨B, hB⟩ : ∃ b, Nat.land (hashF l) (buckets - 1) = b := ⟨_, rfl⟩
  have hBlt : B < buckets := by
    have : Nat.land (hashF l) (buckets - 1) ≤ buckets - 1 := Nat.and_le_right
    omega
  simp only [classifyLine, hB] at heq
  rcases hfind : eqFind cmp (hashF l) l (t.getD B []) with _ | i
  · -- not found: a fresh class is inserted after the bucket head
    rw [hfind] at heq
    have heq' : ((t.set B (eqInsert ⟨n, hashF l, l⟩ (t.getD B [])), n + 1), n)
        = ((t', n'), v) := heq
    obtain ⟨ht', hn', hv⟩ : t.set B (eqInsert ⟨n, hashF l, l⟩ (t.getD B [])) = t'
        ∧ n + 1 = n' ∧ n = v := by
      injection heq' with h1 h2
      injection h1 with h3 h4
      exact ⟨h3, h4, h2⟩
    subst ht'
    subst hn'
    subst hv
    have hfind' : (t.getD B []).find? (fun e => e.hash == hashF l && cmp l e.line) = none := by
      rcases h : (t.getD B []).find? (fun e => e.hash == hashF l && cmp l e.line) with _ | e
      · exact h
      · exfalso
        simp only [eqFind, h] at hfind
        simp at hfind
    have hnone := List.find?_eq_none.mp hfind'
    have hInT' : ∀ e, InTable (t.set B (eqInsert ⟨n, hashF l, l⟩ (t.getD B []))) e
        ↔ e = ⟨n, hashF l, l⟩ ∨ InTable t e := by
      intro e
      constructor
      · rintro ⟨bi, hbi, hmem⟩
        rw [List.length_set] at hbi
        by_cases hbB : bi = B
        · subst hbB
          rw [getD_set_eq' _ _ (by omega)] at hmem
          rcases mem_eqInsert.mp hmem with rfl | hold
          · exact Or.inl rfl
          · exact Or.inr ⟨bi, hbi, hold⟩
        · rw [getD_set_ne' _ _ (fun hq => hbB hq.symm)] at hmem
          exact Or.inr ⟨bi, hbi, hmem⟩
      · rintro (rfl | ⟨bi, hbi, hmem⟩)
        · refine ⟨B, by rw [List.length_set]; omega, ?_⟩
          rw [getD_set_eq' _ _ (by omega)]
          exact mem_eqInsert.mpr (Or.inl rfl)
        · by_cases hbB : bi = B
          · subst hbB
            refine ⟨bi, by rw [List.length_set]; omega, ?_⟩
            rw [getD_set_eq' _ _ (by omega)]
            exact mem_eqInsert.mpr (Or.inr hmem)
          · refine ⟨bi, by rw [List.length_set]; omega, ?_⟩
            rw [getD_set_ne' _ _ (fun hq => hbB hq.symm)]
            exact hmem
    have hnocanon : ∀ e', InTable t e' → canon l ≠ canon e'.line := by
      intro e' hIn hcl
      obtain ⟨bi, hbi, hmem⟩ := hIn
      have hI1e := hI1 bi (by omega) e' hmem
      have hhash : hashF e'.line = hashF l := hh _ _ hcl.symm
      have hbB : bi = B := by
        rw [← hI1e.2, hI1e.1, hhash]
        exact hB
      subst hbB
      refine hnone e' hmem ?_
      rw [Bool.and_eq_true]
      refine ⟨?_, (hc l e'.line).mpr hcl⟩
      rw [hI1e.1, hhash]
      simp
    refine ⟨⟨?_, ?_, ?_, ?_, by omega⟩, by omega, ?_, ?_⟩
    · rw [List.length_set]; exact hlen
    · intro bi hbi e hmem
      by_cases hbB : bi = B
      · subst hbB
        rw [getD_set_eq' _ _ (by omega)] at hmem
        rcases mem_eqInsert.mp hmem with rfl | hold
        · exact ⟨rfl, hB⟩
        · exact hI1 bi hbi e hold
      · rw [getD_set_ne' _ _ (fun hq => hbB hq.symm)] at hmem
        exact hI1 bi hbi e hmem
    · intro e e' hIn hIn'
      rw [hInT'] at hIn hIn'
      rcases hIn with rfl | hIn <;> rcases hIn' with rfl | hIn'
      · simp
      · constructor
        · intro hid
          exfalso
          have := (hBnd e' hIn').2
          simp only at hid
          omega
        · intro hcanon
          exact absurd hcanon (hnocanon e' hIn')
      · constructor
        · intro hid
          exfalso
          have := (hBnd e hIn).2
          simp only at hid
          omega
        · intro hcanon
          exact absurd hcanon.symm (hnocanon e hIn)
      · exact hIff e e' hIn hIn'
    · intro e hIn
      rcases (hInT' e).mp hIn with rfl | hold
      · exact ⟨hLo, show n < n + 1 by omega⟩
      · have := hBnd e hold
        exact ⟨this.1, by omega⟩
    · intro e he
      exact (hInT' e).mpr (Or.inr he)
    · exact ⟨⟨n, hashF l, l⟩, (hInT' _).mpr (Or.inl rfl), rfl, rfl⟩
  · -- found: the id of the first matching entry is reused
    rw [hfind] at heq
    have heq' : (((t, n) : EqTable × Int), i) = ((t', n'), v) := heq
    obtain ⟨ht', hn', hv⟩ : t = t' ∧ n = n' ∧ i = v := by
      injection heq' with h1 h2
      injection h1 with h3 h4
      exact ⟨h3, h4, h2⟩
    subst ht'
    subst hn'
    subst hv
    obtain ⟨e, hfe, hei⟩ : ∃ e, (t.getD B []).find? (fun e => e.hash == hashF l && cmp l e.line)
        = some e ∧ e.id = i := by
      rcases h : (t.getD B []).find? (fun e => e.hash == hashF l && cmp l e.line) with _ | e
      · exfalso
        simp only [eqFind, h] at hfind
        simp at hfind
      · refine ⟨e, h, ?_⟩
        simp only [eqFind, h] at hfind
        simpa using hfind
    have hpe := List.find?_some hfe
    have hmem := List.mem_of_find?_eq_some hfe
    rw [Bool.and_eq_true] at hpe
    refine ⟨⟨hlen, hI1, hIff, hBnd, hLo⟩, le_refl n, fun e h => h, ?_⟩
    exact ⟨e, ⟨B, by omega, hmem⟩, hei, ((hc l e.line).mp hpe.2).symm⟩

/-- Classifying a line list preserves the table invariant, only grows the
table, and pairs every position with a canonically matching table entry. -/
theorem classifyLines_spec {κ : Type} (canon : Line → κ) (cmp : Line → Line → Bool)
    (hashF : Line → Nat) (buckets : Nat) (lo : Int) (hb : 0 < buckets)
    (hc : ∀ a b, cmp a b = true ↔ canon a = canon b)
    (hh : ∀ a b, canon a = canon b → hashF a = hashF b) :
    ∀ (L : List Line) (t : EqTable) (n : Int),
      TableInv canon hashF buckets lo t n →
      TableInv canon hashF buckets lo (classifyLines cmp hashF buckets (t, n) L).1.1
          (classifyLines cmp hashF buckets (t, n) L).1.2 ∧
      n ≤ (classifyLines cmp hashF buckets (t, n) L).1.2 ∧
      (∀ e, InTable t e → InTable (classifyLines cmp hashF buckets (t, n) L).1.1 e) ∧
      (classifyLines cmp hashF buckets (t, n) L).2.length = L.length ∧
      (∀ k, k < L.length →
        ∃ e, InTable (classifyLines cmp hashF buckets (t, n) L).1.1 e ∧
          e.id = (classifyLines cmp hashF buckets (t, n) L).2.getD k 0 ∧
          canon e.line = canon (L.getD k [])) := by
  intro L
  induction L with
  | nil =>
    intro t n hinv
    exact ⟨hinv, le_refl n, fun e h => h, rfl, fun k hk => absurd hk (by simp)⟩
  | cons l ls ih =>
    intro t n hinv
    obtain ⟨tp, np, vp, hp⟩ : ∃ tp np vp,
        classifyLine cmp hashF buckets (t, n) l = ((tp, np), vp) := ⟨_, _, _, rfl⟩
    have hstep := classifyLine_step canon cmp hashF buckets lo hb hc hh t n l tp np vp hinv hp
    have hih := ih tp np hstep.1
    have hunf : classifyLines cmp hashF buckets (t, n) (l :: ls)
        = ((classifyLines cmp hashF buckets (tp, np) ls).1,
           vp :: (classifyLines cmp hashF buckets (tp, np) ls).2) := by
      simp only [classifyLines, hp]
    rw [hunf]
    refine ⟨hih.1, le_trans hstep.2.1 hih.2.1, ?_, ?_, ?_⟩
    · intro e he
      exact hih.2.2.1 e (hstep.2.2.1 e he)
    · simpa using hih.2.2.2.1
    · intro k hk
      cases k with
      | zero =>
        obtain ⟨e, heIn, heid, hecanon⟩ := hstep.2.2.2
        exact ⟨e, hih.2.2.1 e heIn, by simpa using heid, by simpa using hecanon⟩
      | succ k' =>
        obtain ⟨e, h1, h2, h3⟩ := hih.2.2.2.2 k' (by simpa using hk)
        exact ⟨e, h1, by simpa using h2, by simpa using h3⟩

/-- The initial table satisfies the invariant: with `ignore_blank_lines` the
blank class `0` is seeded and ids start at `0`, otherwise ids start at `1`. -/
theorem initTable_inv {κ : Type} (canon : Line → κ) (hashF : Line → Nat) (buckets : Nat)
    (hb : 0 < buckets) (f : Flags) :
    TableInv canon hashF buckets (if f.ignore_blank_lines then 0 else 1)
      (initTable hashF f buckets) 1 := by
  obtain ⟨B, hB⟩ : ∃ b, Nat.land (hashF blank_line) (buckets - 1) = b := ⟨_, rfl⟩
  have hBlt : B < buckets := by
    have : Nat.land (hashF blank_line) (buckets - 1) ≤ buckets - 1 := Nat.and_le_right
    omega
  by_cases hbl : f.ignore_blank_lines
  · simp only [initTable, if_pos hbl, hB]
    have hmem : ∀ e, InTable ((List.replicate buckets ([] : List EquivClass)).set B
        [⟨0, hashF blank_line, blank_line⟩]) e → e = ⟨0, hashF blank_line, blank_line⟩ := by
      rintro e ⟨bi, hbi, hmem⟩
      rw [List.length_set, List.length_replicate] at hbi
      by_cases hbB : bi = B
      · subst hbB
        rw [getD_set_eq' _ _ (by simpa using hBlt)] at hmem
        simpa using hmem
      · rw [getD_set_ne' _ _ (fun hq => hbB hq.symm), getD_replicate'] at hmem
        split at hmem <;> simp at hmem
    refine ⟨by simp, ?_, ?_, ?_, by simp [hbl]⟩
    · intro bi hbi e he
      by_cases hbB : bi = B
      · subst hbB
        rw [getD_set_eq' _ _ (by simpa using hBlt)] at he
        have : e = ⟨0, hashF blank_line, blank_line⟩ := by simpa using he
        subst this
        exact ⟨rfl, hB⟩
      · rw [getD_set_ne' _ _ (fun hq => hbB hq.symm), getD_replicate'] at he
        split at he <;> simp at he
    · intro e e' hIn hIn'
      rw [hmem e hIn, hmem e' hIn']
      simp
    · intro e hIn
      rw [hmem e hIn]
      simp [hbl]
  · simp only [initTable, if_neg hbl]
    refine ⟨by simp, ?_, ?_, ?_, by simp [hbl]⟩
    · intro bi hbi e he
      rw [getD_replicate'] at he
      split at he <;> simp at he
    · rintro e e' ⟨bi, hbi, he⟩ hIn'
      rw [getD_replicate'] at he
      split at he <;> simp at he
    · rintro e ⟨bi, hbi, he⟩
      rw [getD_replicate'] at he
      split at he <;> simp at he

/-- Two positions of a classified line list carry the same id exactly when the
comparator accepts the two lines. -/
theorem classifier_iff {κ : Type} (canon : Line → κ) (cmp : Line → Line → Bool)
    (hashF : Line → Nat) (buckets : Nat) (hb : 0 < buckets)
    (hc : ∀ a b, cmp a b = true ↔ canon a = canon b)
    (hh : ∀ a b, canon a = canon b → hashF a = hashF b)
    (f : Flags) (L : List Line) :
    ∀ i j, i < L.length → j < L.length →
      ((classifyLines cmp hashF buckets (initTable hashF f buckets, 1) L).2.getD i 0
        = (classifyLines cmp hashF buckets (initTable hashF f buckets, 1) L).2.getD j 0
      ↔ cmp (L.getD i []) (L.getD j []) = true) := by
  intro i j hi hj
  have hinit := initTable_inv canon hashF buckets hb f
  have hspec := classifyLines_spec canon cmp hashF buckets _ hb hc hh L _ 1 hinit
  obtain ⟨ei, hiIn, hiid, hicanon⟩ := hspec.2.2.2.2 i hi
  obtain ⟨ej, hjIn, hjid, hjcanon⟩ := hspec.2.2.2.2 j hj
  have hiff := hspec.1.2.2.1 ei ej hiIn hjIn
  rw [hc]
  constructor
  · intro hid
    rw [← hicanon, ← hjcanon]
    exact hiff.mp (by rw [hiid, hjid, hid])
  · intro hcanon
    rw [← hiid, ← hjid]
    exact hiff.mpr (by rw [hicanon, hjcanon]; exact hcanon)

/-! ## Canonical-form characterisations of the installed comparators -/

theorem foldl_filter' {α γ : Type} (l : List α) (p : α → Bool) (g : γ → α → γ) (i : γ) :
    (l.filter p).foldl g i = l.foldl (fun x y => if p y then g x y else x) i := by
  induction l generalizing i with
  | nil => rfl
  | cons a t ih =>
    simp only [List.filter_cons, List.foldl_cons]
    split
    · next h => simp only [List.foldl_cons, ih, h, if_pos]
    · next h => rw [ih]

theorem drop_eq_getD_cons {α : Type} {l : List α} {i : Nat} (d : α) (h : i < l.length) :
    l.drop i = l.getD i d :: l.drop (i+1) := by
  rw [List.getD_eq_getElem l d h]
  exact List.drop_eq_getElem_cons h

theorem bytesEqual_iff (a b : Line) : bytesEqual a b = true ↔ a = b := by
  simp [bytesEqual]

theorem canonByte_cond (ic : Bool) (b1 b2 : Nat) :
    ((if ic ∧ b1 ≠ b2 then to_lower_byte b1 else b1)
      = (if ic ∧ b1 ≠ b2 then to_lower_byte b2 else b2))
    ↔ canonByte ic b1 = canonByte ic b2 := by
  cases ic with
  | false => simp [canonByte]
  | true =>
    by_cases h : b1 = b2
    · subst h
      simp [canonByte]
    · simp [canonByte, h]

theorem skip_space_byte_go_ge (line : Line) : ∀ fuel i, i ≤ skip_space_byte_go line fuel i := by
  intro fuel
  induction fuel with
  | zero => intro i; exact le_refl i
  | succ n ih =>
    intro i
    simp only [skip_space_byte_go]
    split
    · split
      · exact le_trans (Nat.le_succ i) (ih (i+1))
      · exact le_refl i
    · exact le_refl i

theorem skip_space_byte_go_le (line : Line) :
    ∀ fuel i, i ≤ line.length → skip_space_byte_go line fuel i ≤ line.length := by
  intro fuel
  induction fuel with
  | zero => intro i h; exact h
  | succ n ih =>
    intro i h
    simp only [skip_space_byte_go]
    split
    · next hi =>
      split
      · exact ih (i+1) (by omega)
      · exact h
    · exact h

theorem skip_space_byte_go_nonspace (line : Line) :
    ∀ fuel i, line.length ≤ i + fuel →
      skip_space_byte_go line fuel i < line.length →
      is_space (line.getD (skip_space_byte_go line fuel i) 0) = false := by
  intro fuel
  induction fuel with
  | zero =>
    intro i hf hlt
    simp only [skip_space_byte_go] at hlt
    omega
  | succ n ih =>
    intro i hf hlt
    simp only [skip_space_byte_go] at hlt ⊢
    by_cases hi : i < line.length
    · rw [if_pos hi] at hlt ⊢
      by_cases hs : is_space (line.getD i 0) = true
      · rw [if_pos hs] at hlt ⊢
        exact ih (i+1) (by omega) hlt
      · rw [if_neg hs] at hlt ⊢
        rcases Bool.eq_false_or_eq_true (is_space (line.getD i 0)) with hv | hv
        · exact absurd hv hs
        · exact hv
    · rw [if_neg hi] at hlt
      omega

theorem skip_space_byte_go_filter (line : Line) :
    ∀ fuel i, ((line.drop (skip_space_byte_go line fuel i)).filter (fun b => !is_space b))
      = (line.drop i).filter (fun b => !is_space b) := by
  intro fuel
  induction fuel with
  | zero => intro i; rfl
  | succ n ih =>
    intro i
    simp only [skip_space_byte_go]
    by_cases hi : i < line.length
    · rw [if_pos hi]
      by_cases hs : is_space (line.getD i 0) = true
      · rw [if_pos hs, ih (i+1), drop_eq_getD_cons 0 hi, List.filter_cons,
          if_neg (by rw [hs]; simp)]
      · rw [if_neg hs]
    · rw [if_neg hi]

theorem skip_space_byte_ge (line : Line) (i : Nat) : i ≤ skip_space_byte line i :=
  skip_space_byte_go_ge line line.length i

theorem skip_space_byte_le (line : Line) (i : Nat) (h : i ≤ line.length) :
    skip_space_byte line i ≤ line.length :=
  skip_space_byte_go_le line line.length i h

theorem skip_space_byte_nonspace (line : Line) (i : Nat)
    (h : skip_space_byte line i < line.length) :
    is_space (line.getD (skip_space_byte line i) 0) = false :=
  skip_space_byte_go_nonspace line line.length i (by omega) h

theorem skip_space_byte_filter (line : Line) (i : Nat) :
    (line.drop (skip_space_byte line i)).filter (fun b => !is_space b)
      = (line.drop i).filter (fun b => !is_space b) :=
  skip_space_byte_go_filter line line.length i

/-- The `ignore_all_space` loop tests equality of the canonical images of the
suffixes at non-space positions. -/
theorem cmpBytesAS_go_iff (ic : Bool) (line1 line2 : Line) :
    ∀ fuel i j,
      line1.length + 1 ≤ i + fuel → i ≤ line1.length →
      (i < line1.length → is_space (line1.getD i 0) = false) →
      (j < line2.length → is_space (line2.getD j 0) = false) →
      (cmpBytesAS_go ic line1 line2 fuel i j = true ↔
        ((line1.drop i).filter (fun b => !is_space b)).map (canonByte ic)
          = ((line2.drop j).filter (fun b => !is_space b)).map (canonByte ic)) := by
  intro fuel
  induction fuel with
  | zero => intro i j hf hle _ _; omega
  | succ n ih =>
    intro i j hf hle h1 h2
    simp only [cmpBytesAS_go, get_next_byte_nonspace]
    by_cases hc : i < line1.length ∧ j < line2.length
    · rw [if_pos hc]
      have hns1 : (!is_space (line1.getD i 0)) = true := by rw [h1 hc.1]; rfl
      have hns2 : (!is_space (line2.getD j 0)) = true := by rw [h2 hc.2]; rfl
      rw [drop_eq_getD_cons 0 hc.1, drop_eq_getD_cons 0 hc.2, List.filter_cons, List.filter_cons,
        if_pos hns1, if_pos hns2]
      simp only [List.map_cons]
      rw [← skip_space_byte_filter line1 (i+1), ← skip_space_byte_filter line2 (j+1)]
      by_cases hhead : canonByte ic (line1.getD i 0) = canonByte ic (line2.getD j 0)
      · rw [if_neg (not_not_intro ((canonByte_cond ic _ _).mpr hhead))]
        rw [ih (skip_space_byte line1 (i+1)) (skip_space_byte line2 (j+1))
          (by have := skip_space_byte_ge line1 (i+1); omega)
          (skip_space_byte_le line1 (i+1) (by omega))
          (fun hlt => skip_space_byte_nonspace line1 (i+1) hlt)
          (fun hlt => skip_space_byte_nonspace line2 (j+1) hlt)]
        rw [List.cons.injEq]
        exact ⟨fun h => ⟨hhead, h⟩, fun h => h.2⟩
      · rw [if_pos (fun he => hhead ((canonByte_cond ic _ _).mp he))]
        rw [List.cons.injEq]
        exact ⟨fun h => absurd h (by simp), fun h => absurd h.1 hhead⟩
    · rw [if_neg hc]
      rcases not_and_or.mp hc with hi | hj
      · push_neg at hi
        rw [List.drop_eq_nil_of_le hi]
        simp only [List.filter_nil, List.map_nil]
        by_cases hj2 : j < line2.length
        · rw [drop_eq_getD_cons 0 hj2, List.filter_cons, if_pos (by rw [h2 hj2]; rfl)]
          simp [show ¬(i < line1.length) by omega, hj2]
        · rw [List.drop_eq_nil_of_le (by omega)]
          simp [show ¬(i < line1.length) by omega, show ¬(j < line2.length) by omega]
      · push_neg at hj
        rw [List.drop_eq_nil_of_le hj]
        simp only [List.filter_nil, List.map_nil]
        by_cases hi2 : i < line1.length
        · rw [drop_eq_getD_cons 0 hi2, List.filter_cons, if_pos (by rw [h1 hi2]; rfl)]
          simp [show ¬(j < line2.length) by omega, hi2]
        · rw [List.drop_eq_nil_of_le (show line1.length ≤ i by omega)]
          simp [show ¬(i < line1.length) by omega, show ¬(j < line2.length) by omega]

/-- Byte `ignore_all_space` mode: the comparator tests canonical equality. -/
theorem compare_line_bytes_AS (f : Flags) (has : f.ignore_all_space = true)
    (line1 line2 : Line) :
    compare_line_bytes f line1 line2 = true ↔
      canonAS f.ignore_case line1 = canonAS f.ignore_case line2 := by
  simp only [compare_line_bytes]
  rw [if_pos has]
  rw [cmpBytesAS_go_iff f.ignore_case line1 line2 (line1.length+1) _ _
      (by have := skip_space_byte_ge line1 0; omega)
      (skip_space_byte_le line1 0 (by omega))
      (fun h => skip_space_byte_nonspace line1 0 h)
      (fun h => skip_space_byte_nonspace line2 0 h)]
  unfold canonAS
  rw [skip_space_byte_filter line1 0, skip_space_byte_filter line2 0, List.drop_zero,
    List.drop_zero]

/-- Byte `ignore_all_space` mode: the hash factors through the canonical form. -/
theorem compute_hash_bytes_AS (f : Flags) (has : f.ignore_all_space = true) (line : Line) :
    compute_hash_bytes f line = (canonAS f.ignore_case line).foldl hash32 0 := by
  simp only [compute_hash_bytes]
  rw [if_pos has]
  unfold canonAS
  rw [List.foldl_map, foldl_filter']
  simp only [canonByte]

/-- The `ignore_case` loop tests pointwise equality of lower-cased bytes. -/
theorem cmpBytesIC_go_iff (line1 line2 : Line) (hlen : line1.length = line2.length) :
    ∀ fuel i, line1.length ≤ i + fuel →
      (cmpBytesIC_go line1 line2 fuel i i = true ↔
        (line1.drop i).map to_lower_byte = (line2.drop i).map to_lower_byte) := by
  intro fuel
  induction fuel with
  | zero =>
    intro i hf
    simp only [cmpBytesIC_go]
    rw [List.drop_eq_nil_of_le (by omega), List.drop_eq_nil_of_le (by omega)]
    simp
  | succ n ih =>
    intro i hf
    simp only [cmpBytesIC_go]
    by_cases hc : i < line1.length ∧ i < line2.length
    · rw [if_pos hc, drop_eq_getD_cons 0 hc.1, drop_eq_getD_cons 0 hc.2]
      simp only [List.map_cons]
      by_cases hh : to_lower_byte (line1.getD i 0) = to_lower_byte (line2.getD i 0)
      · rw [if_neg (not_not_intro hh), ih (i+1) (by omega), List.cons.injEq]
        exact ⟨fun h => ⟨hh, h⟩, fun h => h.2⟩
      · rw [if_pos hh, List.cons.injEq]
        exact ⟨fun h => absurd h (by simp), fun h => absurd h.1 hh⟩
    · rw [if_neg hc]
      rw [List.drop_eq_nil_of_le (by omega), List.drop_eq_nil_of_le (by omega)]
      simp [show ¬(i < line1.length) by omega, show ¬(i < line2.length) by omega]

/-- Byte `ignore_case` mode: the comparator tests canonical equality. -/
theorem compare_line_bytes_IC (f : Flags) (hasx : f.ignore_all_space = false)
    (hsc : f.ignore_space_change = false) (hic : f.ignore_case = true) (line1 line2 : Line) :
    compare_line_bytes f line1 line2 = true ↔ canonIC line1 = canonIC line2 := by
  simp only [compare_line_bytes]
  rw [if_neg (by rw [hasx]; simp), if_neg (by rw [hsc]; simp), if_pos hic]
  by_cases hlen : line1.length = line2.length
  · rw [if_neg (not_not_intro hlen)]
    rw [cmpBytesIC_go_iff line1 line2 hlen (line1.length+1) 0 (by omega)]
    rw [List.drop_zero, List.drop_zero]
    exact Iff.rfl
  · rw [if_pos hlen]
    constructor
    · intro h
      exact absurd h (by simp)
    · intro h
      exfalso
      have := congrArg List.length h
      simp [canonIC] at this
      exact hlen this

/-- Byte `ignore_case` mode: the hash factors through the canonical form. -/
theorem compute_hash_bytes_IC (f : Flags) (hasx : f.ignore_all_space = false)
    (hsc : f.ignore_space_change = false) (hic : f.ignore_case = true) (line : Line) :
    compute_hash_bytes f line = (canonIC line).foldl hash32 0 := by
  simp only [compute_hash_bytes]
  rw [if_neg (by rw [hasx]; simp), if_neg (by rw [hsc]; simp), if_pos hic]
  unfold canonIC
  rw [List.foldl_map]

/-- Every position strictly before the space-skip target is a space. -/
theorem skip_space_byte_go_all (line : Line) :
    ∀ fuel i p, i ≤ p → p < skip_space_byte_go line fuel i →
      is_space (line.getD p 0) = true := by
  intro fuel
  induction fuel with
  | zero =>
    intro i p hip hp
    simp only [skip_space_byte_go] at hp
    omega
  | succ n ih =>
    intro i p hip hp
    simp only [skip_space_byte_go] at hp
    by_cases hi : i < line.length
    · rw [if_pos hi] at hp
      by_cases hs : is_space (line.getD i 0) = true
      · rw [if_pos hs] at hp
        rcases Nat.eq_or_lt_of_le hip with he | hlt
        · subst he
          exact hs
        · exact ih (i+1) p (by omega) hp
      · rw [if_neg hs] at hp
        omega
    · rw [if_neg hi] at hp
      omega

/-- Past the end of the line the canonical token stream is empty. -/
theorem canonSC_go_nil (ic : Bool) (line : Line) (i : Nat) (h : line.length ≤ i) :
    ∀ fuel, canonSC_go ic line fuel i = [] := by
  intro fuel
  cases fuel with
  | zero => rfl
  | succ n =>
    simp only [canonSC_go]
    rw [if_neg (by omega)]

/-- Each canonical token consumes at least one position of the line. -/
theorem canonSC_go_len (ic : Bool) (line : Line) :
    ∀ fuel i, (canonSC_go ic line fuel i).length ≤ line.length - i := by
  intro fuel
  induction fuel with
  | zero => intro i; simp [canonSC_go]
  | succ n ih =>
    intro i
    simp only [canonSC_go]
    by_cases hi : i < line.length
    · rw [if_pos hi]
      simp only [List.length_cons]
      have h1 := skip_space_byte_ge line (i+1)
      have h2 := skip_space_byte_le line (i+1) (by omega)
      have h3 := ih (skip_space_byte line (i+1))
      omega
    · rw [if_neg hi]
      simp

/-- The canonical token stream does not depend on the fuel once the fuel
exceeds the number of tokens produced. -/
theorem canonSC_go_of_complete (ic : Bool) (line : Line) :
    ∀ F F' i, (canonSC_go ic line F' i).length < F' →
      (canonSC_go ic line F' i).length < F →
      canonSC_go ic line F i = canonSC_go ic line F' i := by
  intro F
  induction F with
  | zero => intro F' i _ h2; omega
  | succ n ih =>
    intro F' i h1 h2
    cases F' with
    | zero => omega
    | succ m =>
      by_cases hi : i < line.length
      · simp only [canonSC_go] at h1 h2 ⊢
        rw [if_pos hi] at h1 h2
        rw [if_pos hi, if_pos hi]
        simp only [List.length_cons] at h1 h2
        rw [ih m (skip_space_byte line (i+1)) (by omega) (by omega)]
      · rw [canonSC_go_nil ic line i (by omega) (n+1),
            canonSC_go_nil ic line i (by omega) (m+1)]

/-- The `ignore_space_change` loop tests equality of the canonical token
streams at the given positions (streams taken at the loop's fuel). -/
theorem cmpBytesSC_go_iff (ic : Bool) (line1 line2 : Line) :
    ∀ fuel i j,
      (cmpBytesSC_go ic line1 line2 fuel i j = true ↔
        canonSC_go ic line1 fuel i = canonSC_go ic line2 fuel j) := by
  intro fuel
  induction fuel with
  | zero => intro i j; simp [cmpBytesSC_go, canonSC_go]
  | succ n ih =>
    intro i j
    simp only [cmpBytesSC_go, canonSC_go, get_next_byte_xspace]
    by_cases hc : i < line1.length ∧ j < line2.length
    · rw [if_pos hc, if_pos hc.1, if_pos hc.2]
      by_cases hbyte : canonByte ic (line1.getD i 0) = canonByte ic (line2.getD j 0)
      · by_cases hflag :
            (decide (i+1 < skip_space_byte line1 (i+1))
              && decide (skip_space_byte line1 (i+1) < line1.length))
            = (decide (j+1 < skip_space_byte line2 (j+1))
              && decide (skip_space_byte line2 (j+1) < line2.length))
        · rw [if_neg (not_or.mpr
            ⟨not_not_intro ((canonByte_cond ic (line1.getD i 0) (line2.getD j 0)).mpr hbyte),
             not_not_intro hflag⟩)]
          rw [ih (skip_space_byte line1 (i+1)) (skip_space_byte line2 (j+1))]
          rw [List.cons.injEq, Prod.mk.injEq]
          exact ⟨fun h => ⟨⟨hbyte, hflag⟩, h⟩, fun h => h.2⟩
        · rw [if_pos (Or.inr hflag)]
          rw [List.cons.injEq, Prod.mk.injEq]
          exact ⟨fun h => absurd h (by simp), fun h => absurd h.1.2 hflag⟩
      · rw [if_pos (Or.inl
          (fun he => hbyte ((canonByte_cond ic (line1.getD i 0) (line2.getD j 0)).mp he)))]
        rw [List.cons.injEq, Prod.mk.injEq]
        exact ⟨fun h => absurd h (by simp), fun h => absurd h.1.1 hbyte⟩
    · rw [if_neg hc]
      rcases not_and_or.mp hc with hi | hj
      · rw [if_neg hi]
        by_cases hj2 : j < line2.length
        · rw [if_pos hj2]
          simp [hi, hj2]
        · rw [if_neg hj2]
          simp [hi, hj2]
      · rw [if_neg hj]
        by_cases hi2 : i < line1.length
        · rw [if_pos hi2]
          simp [hj, hi2]
        · rw [if_neg hi2]
          simp [hj, hi2]

/-- Byte `ignore_space_change` mode: the comparator tests canonical equality. -/
theorem compare_line_bytes_SC (f : Flags) (hasx : f.ignore_all_space = false)
    (hsc : f.ignore_space_change = true) (line1 line2 : Line) :
    compare_line_bytes f line1 line2 = true ↔
      canonSC f.ignore_case line1 = canonSC f.ignore_case line2 := by
  simp only [compare_line_bytes]
  rw [if_neg (by rw [hasx]; simp), if_pos hsc]
  rw [cmpBytesSC_go_iff f.ignore_case line1 line2 (line1.length+1)
    (skip_space_byte line1 0) (skip_space_byte line2 0)]
  unfold canonSC
  have hlen1 : (canonSC_go f.ignore_case line1 (line1.length+1) (skip_space_byte line1 0)).length
      < line1.length + 1 := by
    have h1 := canonSC_go_len f.ignore_case line1 (line1.length+1) (skip_space_byte line1 0)
    omega
  have hlen2 : (canonSC_go f.ignore_case line2 (line2.length+1) (skip_space_byte line2 0)).length
      < line2.length + 1 := by
    have h2 := canonSC_go_len f.ignore_case line2 (line2.length+1) (skip_space_byte line2 0)
    omega
  have hlen2' : (canonSC_go f.ignore_case line2 (line1.length+1) (skip_space_byte line2 0)).length
      < line2.length + 1 := by
    have h2 := canonSC_go_len f.ignore_case line2 (line1.length+1) (skip_space_byte line2 0)
    omega
  constructor
  · intro h
    have htr : (canonSC_go f.ignore_case line2 (line1.length+1) (skip_space_byte line2 0)).length
        < line1.length + 1 := by rw [← h]; exact hlen1
    rw [h]
    exact (canonSC_go_of_complete f.ignore_case line2 (line2.length+1) (line1.length+1)
      (skip_space_byte line2 0) htr hlen2').symm
  · intro h
    have hfull : (canonSC_go f.ignore_case line2 (line2.length+1) (skip_space_byte line2 0)).length
        < line1.length + 1 := by rw [← h]; exact hlen1
    rw [h]
    exact (canonSC_go_of_complete f.ignore_case line2 (line1.length+1) (line2.length+1)
      (skip_space_byte line2 0) hlen2 hfull).symm

/-- Folding from position `i` consumes `line[i]` first. -/
theorem foldl_drop_step {α β : Type} (f : β → α → β) (l : List α) (i : Nat) (st : β) (d : α)
    (h : i < l.length) :
    (l.drop i).foldl f st = (l.drop (i+1)).foldl f (f st (l.getD i d)) := by
  rw [drop_eq_getD_cons d h, List.foldl_cons]

/-- Folding from a position past the end is the identity. -/
theorem foldl_drop_ge {α β : Type} (f : β → α → β) (l : List α) (i : Nat) (st : β)
    (h : l.length ≤ i) :
    (l.drop i).foldl f st = st := by
  rw [List.drop_eq_nil_of_le h, List.foldl_nil]

/-- The `ignore_space_change` hash state with `last_space` set is unchanged by
a run of spaces. -/
theorem phiSC_spaces (ic : Bool) (line : Line) :
    ∀ d i (st : Nat × Nat × Bool), st.2.2 = true →
      (∀ p, i ≤ p → p < i + d → is_space (line.getD p 0) = true) →
      i + d ≤ line.length →
      (line.drop i).foldl (hashSC_step ic) st
        = (line.drop (i+d)).foldl (hashSC_step ic) st := by
  intro d
  induction d with
  | zero => intro i st _ _ _; rfl
  | succ m ih =>
    intro i st hst hall hlen
    rw [foldl_drop_step (hashSC_step ic) line i st 0 (by omega)]
    have hs : is_space (line.getD i 0) = true := hall i (le_refl i) (by omega)
    obtain ⟨a, b, c⟩ := st
    have hc : c = true := hst
    subst hc
    have hstep : hashSC_step ic (a, b, true) (line.getD i 0) = (a, b, true) := by
      simp only [hashSC_step]
      rw [if_pos hs]
      simp
    rw [hstep]
    have hrec := ih (i+1) (a, b, true) rfl
      (fun p hp hpe => hall p (by omega) (by omega)) (by omega)
    rw [hrec]
    rw [show i + 1 + m = i + (m + 1) by omega]

/-- The `ignore_space_change` hash, resumed at a token position (or the end)
with a consistent state, renders the canonical token stream. -/
theorem hashSC_main (ic : Bool) (line : Line) :
    ∀ fuel i (h lh : Nat) (ls : Bool),
      line.length + 1 ≤ i + fuel → i ≤ line.length →
      (i < line.length → is_space (line.getD i 0) = false) →
      (line.length ≤ i → ls = true → lh = h) →
      finishSC ((line.drop i).foldl (hashSC_step ic) (h, lh, ls))
        = (canonSC_go ic line fuel i).foldl
            (fun x p => if p.2 then hash32 (hash32 x p.1) 32 else hash32 x p.1) h := by
  intro fuel
  induction fuel with
  | zero => intro i h lh ls hf hle _ _; exfalso; omega
  | succ n ih =>
    intro i h lh ls hf hle hns hlsh
    by_cases hi : i < line.length
    · simp only [canonSC_go]
      rw [if_pos hi]
      rw [foldl_drop_step (hashSC_step ic) line i (h, lh, ls) 0 hi]
      have hb := hns hi
      have hstep : hashSC_step ic (h, lh, ls) (line.getD i 0)
          = (hash32 h (canonByte ic (line.getD i 0)), lh, false) := by
        simp only [hashSC_step]
        rw [if_neg (by rw [hb]; simp)]
        rfl
      rw [hstep]
      obtain ⟨j, hj⟩ : ∃ j, skip_space_byte line (i+1) = j := ⟨_, rfl⟩
      rw [hj]
      have hjge : i + 1 ≤ j := by rw [← hj]; exact skip_space_byte_ge line (i+1)
      have hjle : j ≤ line.length := by rw [← hj]; exact skip_space_byte_le line (i+1) (by omega)
      have hjns : j < line.length → is_space (line.getD j 0) = false := by
        intro hlt
        rw [← hj] at hlt ⊢
        exact skip_space_byte_nonspace line (i+1) hlt
      have hall : ∀ p, i + 1 ≤ p → p < j → is_space (line.getD p 0) = true := by
        intro p hp hpj
        rw [← hj] at hpj
        exact skip_space_byte_go_all line line.length (i+1) p hp hpj
      by_cases hrun : i + 1 < j
      · rw [foldl_drop_step (hashSC_step ic) line (i+1) _ 0 (by omega)]
        have hs1 : is_space (line.getD (i+1) 0) = true := hall (i+1) (le_refl (i+1)) hrun
        have hstep2 : hashSC_step ic (hash32 h (canonByte ic (line.getD i 0)), lh, false)
            (line.getD (i+1) 0)
            = (hash32 (hash32 h (canonByte ic (line.getD i 0))) 32,
               hash32 h (canonByte ic (line.getD i 0)), true) := by
          simp only [hashSC_step]
          rw [if_pos hs1]
          simp
        rw [hstep2]
        rw [show i + 1 + 1 = i + 2 from rfl]
        have hsp := phiSC_spaces ic line (j - (i+2)) (i+2)
          (hash32 (hash32 h (canonByte ic (line.getD i 0))) 32,
           hash32 h (canonByte ic (line.getD i 0)), true) rfl
          (fun p hp hpe => hall p (by omega) (by omega)) (by omega)
        rw [hsp]
        rw [show i + 2 + (j - (i+2)) = j by omega]
        by_cases hjlen : j < line.length
        · simp only [List.foldl_cons]
          rw [if_pos (show (decide (i+1 < j) && decide (j < line.length)) = true by
            simp [hrun, hjlen])]
          exact ih j (hash32 (hash32 h (canonByte ic (line.getD i 0))) 32)
            (hash32 h (canonByte ic (line.getD i 0))) true (by omega) hjle hjns
            (fun hcon _ => absurd hjlen (by omega))
        · simp only [List.foldl_cons]
          rw [if_neg (show ¬((decide (i+1 < j) && decide (j < line.length)) = true) by
            simp [hjlen])]
          rw [canonSC_go_nil ic line j (by omega) n]
          rw [foldl_drop_ge (hashSC_step ic) line j _ (by omega)]
          simp only [List.foldl_nil]
          simp [finishSC]
      · have hjeq : j = i + 1 := by omega
        subst hjeq
        simp only [List.foldl_cons]
        rw [if_neg (show ¬((decide (i+1 < i+1) && decide (i+1 < line.length)) = true) by simp)]
        exact ih (i+1) (hash32 h (canonByte ic (line.getD i 0))) lh false (by omega) (by omega)
          hjns (fun _ hfalse => Bool.noConfusion hfalse)
    · rw [canonSC_go_nil ic line i (by omega) (n+1)]
      rw [foldl_drop_ge (hashSC_step ic) line i _ (by omega)]
      simp only [List.foldl_nil]
      rcases Bool.eq_false_or_eq_true ls with hls | hls
      · rw [hls]
        simp only [finishSC]
        exact hlsh (by omega) hls
      · rw [hls]
        simp [finishSC]

/-- Byte `ignore_space_change` mode: the hash factors through the canonical
form. -/
theorem compute_hash_bytes_SC (f : Flags) (hasx : f.ignore_all_space = false)
    (hsc : f.ignore_space_change = true) (line : Line) :
    compute_hash_bytes f line = renderSC (canonSC f.ignore_case line) := by
  simp only [compute_hash_bytes]
  rw [if_neg (by rw [hasx]; simp), if_pos hsc]
  show finishSC (line.foldl (hashSC_step f.ignore_case) ((0:Nat), (0:Nat), true))
      = renderSC (canonSC f.ignore_case line)
  have h0 : line.foldl (hashSC_step f.ignore_case) ((0:Nat), (0:Nat), true)
      = (line.drop (skip_space_byte line 0)).foldl (hashSC_step f.ignore_case)
          ((0:Nat), (0:Nat), true) := by
    have hsp := phiSC_spaces f.ignore_case line (skip_space_byte line 0) 0
      ((0:Nat), (0:Nat), true) rfl
      (fun p hp hpe => skip_space_byte_go_all line line.length 0 p hp
        (by have h2 : skip_space_byte line 0 = skip_space_byte_go line line.length 0 := rfl
            omega))
      (by have := skip_space_byte_le line 0 (by omega); omega)
    rw [List.drop_zero] at hsp
    rw [hsp, Nat.zero_add]
  rw [h0]
  unfold canonSC renderSC
  exact hashSC_main f.ignore_case line (line.length+1) (skip_space_byte line 0) 0 0 true
    (by have := skip_space_byte_ge line 0; omega)
    (skip_space_byte_le line 0 (by omega))
    (fun hlt => skip_space_byte_nonspace line 0 hlt)
    (fun _ _ => rfl)

/-- The conditional case-folding of the Unicode comparators agrees with
`canonRune`. -/
theorem canonRune_cond (u : UnicodeModel) (ic : Bool) (r1 r2 : Nat) :
    ((if ic ∧ r1 ≠ r2 then u.toLowerRune r1 else r1)
      = (if ic ∧ r1 ≠ r2 then u.toLowerRune r2 else r2))
    ↔ canonRune u ic r1 = canonRune u ic r2 := by
  cases ic with
  | false => simp [canonRune]
  | true =>
    by_cases h : r1 = r2
    · subst h
      simp [canonRune]
    · simp [canonRune, h]

/-- The decoder consumes at least one byte at any in-bounds position. -/
theorem decode_stride (u : UnicodeModel) (hu : u.Progress) (l : Line) (i : Nat)
    (hi : i < l.length) : 1 ≤ (u.decodeRune (l.drop i)).2 :=
  hu (l.drop i) (List.ne_nil_of_length_pos (by rw [List.length_drop]; omega))

theorem skip_space_rune_go_ge (u : UnicodeModel) (line : Line) :
    ∀ fuel i, i ≤ skip_space_rune_go u line fuel i := by
  intro fuel
  induction fuel with
  | zero => intro i; exact le_refl i
  | succ n ih =>
    intro i
    simp only [skip_space_rune_go]
    split
    · split
      · exact le_refl i
      · exact le_trans (Nat.le_add_right i _) (ih _)
    · exact le_refl i

theorem skip_space_rune_ge (u : UnicodeModel) (line : Line) (i : Nat) :
    i ≤ skip_space_rune u line i :=
  skip_space_rune_go_ge u line (line.length+1) i

theorem skip_space_rune_stop (u : UnicodeModel) (line : Line) (i : Nat)
    (h : line.length ≤ i) : skip_space_rune u line i = i := by
  simp only [skip_space_rune, skip_space_rune_go]
  rw [if_neg (by omega)]

theorem skip_space_rune_id (u : UnicodeModel) (line : Line) (i : Nat) (hi : i < line.length)
    (hs : u.isSpaceRune (u.decodeRune (line.drop i)).1 = false) :
    skip_space_rune u line i = i := by
  simp only [skip_space_rune, skip_space_rune_go]
  rw [if_pos hi, if_pos (by rw [hs]; simp)]

/-- The space-rune skip does not depend on the fuel once it exceeds the
remaining line length. -/
theorem skip_space_rune_go_fuel (u : UnicodeModel) (hu : u.Progress) (line : Line) :
    ∀ F F' i, line.length + 1 ≤ i + F → line.length + 1 ≤ i + F' →
      skip_space_rune_go u line F i = skip_space_rune_go u line F' i := by
  intro F
  induction F with
  | zero =>
    intro F' i hf hf'
    cases F' with
    | zero => rfl
    | succ m =>
      simp only [skip_space_rune_go]
      rw [if_neg (by omega)]
  | succ n ih =>
    intro F' i hf hf'
    cases F' with
    | zero =>
      simp only [skip_space_rune_go]
      rw [if_neg (by omega)]
    | succ m =>
      simp only [skip_space_rune_go]
      by_cases hi : i < line.length
      · rw [if_pos hi, if_pos hi]
        by_cases hs : (!u.isSpaceRune (u.decodeRune (line.drop i)).1) = true
        · rw [if_pos hs, if_pos hs]
        · rw [if_neg hs, if_neg hs]
          have hst := decode_stride u hu line i hi
          exact ih m (i + (u.decodeRune (line.drop i)).2) (by omega) (by omega)
      · rw [if_neg hi, if_neg hi]

/-- Skipping from a space rune equals skipping from past that rune. -/
theorem skip_space_rune_step (u : UnicodeModel) (hu : u.Progress) (line : Line) (i : Nat)
    (hi : i < line.length) (hs : u.isSpaceRune (u.decodeRune (line.drop i)).1 = true) :
    skip_space_rune u line i
      = skip_space_rune u line (i + (u.decodeRune (line.drop i)).2) := by
  have hst := decode_stride u hu line i hi
  have h1 : skip_space_rune_go u line (line.length+1) i
      = skip_space_rune_go u line line.length (i + (u.decodeRune (line.drop i)).2) := by
    simp only [skip_space_rune_go]
    rw [if_pos hi, if_neg (by rw [hs]; simp)]
  simp only [skip_space_rune]
  rw [h1]
  exact skip_space_rune_go_fuel u hu line line.length (line.length+1)
    (i + (u.decodeRune (line.drop i)).2) (by omega) (by omega)

theorem skip_space_rune_go_nonspace (u : UnicodeModel) (hu : u.Progress) (line : Line) :
    ∀ fuel i, line.length + 1 ≤ i + fuel →
      skip_space_rune_go u line fuel i < line.length →
      u.isSpaceRune (u.decodeRune (line.drop (skip_space_rune_go u line fuel i))).1
        = false := by
  intro fuel
  induction fuel with
  | zero =>
    intro i hf hlt
    simp only [skip_space_rune_go] at hlt
    omega
  | succ n ih =>
    intro i hf hlt
    simp only [skip_space_rune_go] at hlt ⊢
    by_cases hi : i < line.length
    · rw [if_pos hi] at hlt ⊢
      by_cases hs : (!u.isSpaceRune (u.decodeRune (line.drop i)).1) = true
      · rw [if_pos hs] at hlt ⊢
        rcases Bool.eq_false_or_eq_true (u.isSpaceRune (u.decodeRune (line.drop i)).1)
          with hv | hv
        · exfalso; rw [hv] at hs; simp at hs
        · exact hv
      · rw [if_neg hs] at hlt ⊢
        have hst := decode_stride u hu line i hi
        exact ih (i + (u.decodeRune (line.drop i)).2) (by omega) hlt
    · rw [if_neg hi] at hlt
      omega

theorem skip_space_rune_nonspace (u : UnicodeModel) (hu : u.Progress) (line : Line) (i : Nat)
    (h : skip_space_rune u line i < line.length) :
    u.isSpaceRune (u.decodeRune (line.drop (skip_space_rune u line i))).1 = false :=
  skip_space_rune_go_nonspace u hu line (line.length+1) i (by omega) h

/-- If the skip moved, the start position held an in-bounds space rune. -/
theorem skip_space_rune_moved (u : UnicodeModel) (line : Line) (i : Nat)
    (h : i < skip_space_rune u line i) :
    i < line.length ∧ u.isSpaceRune (u.decodeRune (line.drop i)).1 = true := by
  by_cases hi : i < line.length
  · refine ⟨hi, ?_⟩
    rcases Bool.eq_false_or_eq_true (u.isSpaceRune (u.decodeRune (line.drop i)).1) with hv | hv
    · exact hv
    · exfalso
      rw [skip_space_rune_id u line i hi hv] at h
      omega
  · exfalso
    rw [skip_space_rune_stop u line i (by omega)] at h
    omega

/-- Past the end of the line the Unicode canonical streams are empty. -/
theorem canonUniAS_go_nil (u : UnicodeModel) (ic : Bool) (line : Line) (i : Nat)
    (h : line.length ≤ i) : ∀ fuel, canonUniAS_go u ic line fuel i = [] := by
  intro fuel
  cases fuel with
  | zero => rfl
  | succ n =>
    simp only [canonUniAS_go]
    rw [if_neg (by omega)]

theorem canonUniSC_go_nil (u : UnicodeModel) (ic : Bool) (line : Line) (i : Nat)
    (h : line.length ≤ i) : ∀ fuel, canonUniSC_go u ic line fuel i = [] := by
  intro fuel
  cases fuel with
  | zero => rfl
  | succ n =>
    simp only [canonUniSC_go]
    rw [if_neg (by omega)]

/-- Each Unicode `ignore_all_space` token consumes at least one position. -/
theorem canonUniAS_go_len (u : UnicodeModel) (hu : u.Progress) (ic : Bool) (line : Line) :
    ∀ fuel i, (canonUniAS_go u ic line fuel i).length ≤ line.length - i := by
  intro fuel
  induction fuel with
  | zero => intro i; simp [canonUniAS_go]
  | succ n ih =>
    intro i
    simp only [canonUniAS_go]
    by_cases hi : i < line.length
    · rw [if_pos hi]
      simp only [List.length_cons]
      have hst := decode_stride u hu line i hi
      have hge := skip_space_rune_ge u line (i + (u.decodeRune (line.drop i)).2)
      have h3 := ih (skip_space_rune u line (i + (u.decodeRune (line.drop i)).2))
      omega
    · rw [if_neg hi]; simp

theorem canonUniSC_go_len (u : UnicodeModel) (hu : u.Progress) (ic : Bool) (line : Line) :
    ∀ fuel i, (canonUniSC_go u ic line fuel i).length ≤ line.length - i := by
  intro fuel
  induction fuel with
  | zero => intro i; simp [canonUniSC_go]
  | succ n ih =>
    intro i
    simp only [canonUniSC_go]
    by_cases hi : i < line.length
    · rw [if_pos hi]
      simp only [List.length_cons]
      have hst := decode_stride u hu line i hi
      have hge := skip_space_rune_ge u line (i + (u.decodeRune (line.drop i)).2)
      have h3 := ih (skip_space_rune u line (i + (u.decodeRune (line.drop i)).2))
      omega
    · rw [if_neg hi]; simp

/-- The Unicode `ignore_all_space` stream is fuel-independent once complete. -/
theorem canonUniAS_go_of_complete (u : UnicodeModel) (ic : Bool) (line : Line) :
    ∀ F F' i, (canonUniAS_go u ic line F' i).length < F' →
      (canonUniAS_go u ic line F' i).length < F →
      canonUniAS_go u ic line F i = canonUniAS_go u ic line F' i := by
  intro F
  induction F with
  | zero => intro F' i _ h2; omega
  | succ n ih =>
    intro F' i h1 h2
    cases F' with
    | zero => omega
    | succ m =>
      by_cases hi : i < line.length
      · simp only [canonUniAS_go] at h1 h2 ⊢
        rw [if_pos hi] at h1 h2
        rw [if_pos hi, if_pos hi]
        simp only [List.length_cons] at h1 h2
        rw [ih m (skip_space_rune u line (i + (u.decodeRune (line.drop i)).2))
          (by omega) (by omega)]
      · rw [canonUniAS_go_nil u ic line i (by omega) (n+1),
            canonUniAS_go_nil u ic line i (by omega) (m+1)]

theorem canonUniSC_go_of_complete (u : UnicodeModel) (ic : Bool) (line : Line) :
    ∀ F F' i, (canonUniSC_go u ic line F' i).length < F' →
      (canonUniSC_go u ic line F' i).length < F →
      canonUniSC_go u ic line F i = canonUniSC_go u ic line F' i := by
  intro F
  induction F with
  | zero => intro F' i _ h2; omega
  | succ n ih =>
    intro F' i h1 h2
    cases F' with
    | zero => omega
    | succ m =>
      by_cases hi : i < line.length
      · simp only [canonUniSC_go] at h1 h2 ⊢
        rw [if_pos hi] at h1 h2
        rw [if_pos hi, if_pos hi]
        simp only [List.length_cons] at h1 h2
        rw [ih m (skip_space_rune u line (i + (u.decodeRune (line.drop i)).2))
          (by omega) (by omega)]
      · rw [canonUniSC_go_nil u ic line i (by omega) (n+1),
            canonUniSC_go_nil u ic line i (by omega) (m+1)]

/-- The Unicode `ignore_all_space` loop tests equality of the canonical rune
streams (taken at the loop's fuel). -/
theorem cmpUniAS_go_iff (u : UnicodeModel) (ic : Bool) (line1 line2 : Line) :
    ∀ fuel i j,
      (cmpUniAS_go u ic line1 line2 fuel i j = true ↔
        canonUniAS_go u ic line1 fuel i = canonUniAS_go u ic line2 fuel j) := by
  intro fuel
  induction fuel with
  | zero => intro i j; simp [cmpUniAS_go, canonUniAS_go]
  | succ n ih =>
    intro i j
    simp only [cmpUniAS_go, canonUniAS_go, get_next_rune_nonspace]
    by_cases hc : i < line1.length ∧ j < line2.length
    · rw [if_pos hc, if_pos hc.1, if_pos hc.2]
      by_cases hh : canonRune u ic (u.decodeRune (line1.drop i)).1
          = canonRune u ic (u.decodeRune (line2.drop j)).1
      · rw [if_neg (not_not_intro
          ((canonRune_cond u ic (u.decodeRune (line1.drop i)).1
            (u.decodeRune (line2.drop j)).1).mpr hh))]
        rw [ih (skip_space_rune u line1 (i + (u.decodeRune (line1.drop i)).2))
            (skip_space_rune u line2 (j + (u.decodeRune (line2.drop j)).2))]
        rw [List.cons.injEq]
        exact ⟨fun h => ⟨hh, h⟩, fun h => h.2⟩
      · rw [if_pos (fun he => hh
          ((canonRune_cond u ic (u.decodeRune (line1.drop i)).1
            (u.decodeRune (line2.drop j)).1).mp he))]
        rw [List.cons.injEq]
        exact ⟨fun h => absurd h (by simp), fun h => absurd h.1 hh⟩
    · rw [if_neg hc]
      rcases not_and_or.mp hc with hi | hj
      · rw [if_neg hi]
        by_cases hj2 : j < line2.length
        · rw [if_pos hj2]; simp [hi, hj2]
        · rw [if_neg hj2]; simp [hi, hj2]
      · rw [if_neg hj]
        by_cases hi2 : i < line1.length
        · rw [if_pos hi2]; simp [hj, hi2]
        · rw [if_neg hi2]; simp [hj, hi2]

/-- Unicode `ignore_all_space` mode: the comparator tests canonical equality. -/
theorem compare_line_unicode_AS (u : UnicodeModel) (hu : u.Progress) (f : Flags)
    (has : f.ignore_all_space = true) (line1 line2 : Line) :
    compare_line_unicode u f line1 line2 = true ↔
      canonUniAS u f.ignore_case line1 = canonUniAS u f.ignore_case line2 := by
  simp only [compare_line_unicode]
  rw [if_pos has]
  rw [cmpUniAS_go_iff u f.ignore_case line1 line2 (line1.length+1)
    (skip_space_rune u line1 0) (skip_space_rune u line2 0)]
  unfold canonUniAS
  have hlen1 : (canonUniAS_go u f.ignore_case line1 (line1.length+1)
      (skip_space_rune u line1 0)).length < line1.length + 1 := by
    have h1 := canonUniAS_go_len u hu f.ignore_case line1 (line1.length+1)
      (skip_space_rune u line1 0)
    omega
  have hlen2 : (canonUniAS_go u f.ignore_case line2 (line2.length+1)
      (skip_space_rune u line2 0)).length < line2.length + 1 := by
    have h2 := canonUniAS_go_len u hu f.ignore_case line2 (line2.length+1)
      (skip_space_rune u line2 0)
    omega
  have hlen2' : (canonUniAS_go u f.ignore_case line2 (line1.length+1)
      (skip_space_rune u line2 0)).length < line2.length + 1 := by
    have h2 := canonUniAS_go_len u hu f.ignore_case line2 (line1.length+1)
      (skip_space_rune u line2 0)
    omega
  constructor
  · intro h
    have htr : (canonUniAS_go u f.ignore_case line2 (line1.length+1)
        (skip_space_rune u line2 0)).length < line1.length + 1 := by
      rw [← h]; exact hlen1
    rw [h]
    exact (canonUniAS_go_of_complete u f.ignore_case line2 (line2.length+1) (line1.length+1)
      (skip_space_rune u line2 0) htr hlen2').symm
  · intro h
    have hfull : (canonUniAS_go u f.ignore_case line2 (line2.length+1)
        (skip_space_rune u line2 0)).length < line1.length + 1 := by
      rw [← h]; exact hlen1
    rw [h]
    exact (canonUniAS_go_of_complete u f.ignore_case line2 (line1.length+1) (line2.length+1)
      (skip_space_rune u line2 0) hlen2 hfull).symm

/-- The Unicode `ignore_space_change` loop tests equality of the canonical
token streams (taken at the loop's fuel). -/
theorem cmpUniSC_go_iff (u : UnicodeModel) (ic : Bool) (line1 line2 : Line) :
    ∀ fuel i j,
      (cmpUniSC_go u ic line1 line2 fuel i j = true ↔
        canonUniSC_go u ic line1 fuel i = canonUniSC_go u ic line2 fuel j) := by
  intro fuel
  induction fuel with
  | zero => intro i j; simp [cmpUniSC_go, canonUniSC_go]
  | succ n ih =>
    intro i j
    simp only [cmpUniSC_go, canonUniSC_go, get_next_rune_xspace]
    by_cases hc : i < line1.length ∧ j < line2.length
    · rw [if_pos hc, if_pos hc.1, if_pos hc.2]
      by_cases hh : canonRune u ic (u.decodeRune (line1.drop i)).1
          = canonRune u ic (u.decodeRune (line2.drop j)).1
      · by_cases hflag :
            (decide (i + (u.decodeRune (line1.drop i)).2
                < skip_space_rune u line1 (i + (u.decodeRune (line1.drop i)).2))
              && decide (skip_space_rune u line1 (i + (u.decodeRune (line1.drop i)).2)
                < line1.length))
            = (decide (j + (u.decodeRune (line2.drop j)).2
                < skip_space_rune u line2 (j + (u.decodeRune (line2.drop j)).2))
              && decide (skip_space_rune u line2 (j + (u.decodeRune (line2.drop j)).2)
                < line2.length))
        · rw [if_neg (not_or.mpr
            ⟨not_not_intro ((canonRune_cond u ic (u.decodeRune (line1.drop i)).1
                (u.decodeRune (line2.drop j)).1).mpr hh),
             not_not_intro hflag⟩)]
          rw [ih (skip_space_rune u line1 (i + (u.decodeRune (line1.drop i)).2))
              (skip_space_rune u line2 (j + (u.decodeRune (line2.drop j)).2))]
          rw [List.cons.injEq, Prod.mk.injEq]
          exact ⟨fun h => ⟨⟨hh, hflag⟩, h⟩, fun h => h.2⟩
        · rw [if_pos (Or.inr hflag)]
          rw [List.cons.injEq, Prod.mk.injEq]
          exact ⟨fun h => absurd h (by simp), fun h => absurd h.1.2 hflag⟩
      · rw [if_pos (Or.inl (fun he => hh
          ((canonRune_cond u ic (u.decodeRune (line1.drop i)).1
            (u.decodeRune (line2.drop j)).1).mp he)))]
        rw [List.cons.injEq, Prod.mk.injEq]
        exact ⟨fun h => absurd h (by simp), fun h => absurd h.1.1 hh⟩
    · rw [if_neg hc]
      rcases not_and_or.mp hc with hi | hj
      · rw [if_neg hi]
        by_cases hj2 : j < line2.length
        · rw [if_pos hj2]; simp [hi, hj2]
        · rw [if_neg hj2]; simp [hi, hj2]
      · rw [if_neg hj]
        by_cases hi2 : i < line1.length
        · rw [if_pos hi2]; simp [hj, hi2]
        · rw [if_neg hi2]; simp [hj, hi2]

/-- Unicode `ignore_space_change` mode: the comparator tests canonical
equality. -/
theorem compare_line_unicode_SC (u : UnicodeModel) (hu : u.Progress) (f : Flags)
    (hasx : f.ignore_all_space = false) (hsc : f.ignore_space_change = true)
    (line1 line2 : Line) :
    compare_line_unicode u f line1 line2 = true ↔
      canonUniSC u f.ignore_case line1 = canonUniSC u f.ignore_case line2 := by
  simp only [compare_line_unicode]
  rw [if_neg (by rw [hasx]; simp), if_pos hsc]
  rw [cmpUniSC_go_iff u f.ignore_case line1 line2 (line1.length+1)
    (skip_space_rune u line1 0) (skip_space_rune u line2 0)]
  unfold canonUniSC
  have hlen1 : (canonUniSC_go u f.ignore_case line1 (line1.length+1)
      (skip_space_rune u line1 0)).length < line1.length + 1 := by
    have h1 := canonUniSC_go_len u hu f.ignore_case line1 (line1.length+1)
      (skip_space_rune u line1 0)
    omega
  have hlen2 : (canonUniSC_go u f.ignore_case line2 (line2.length+1)
      (skip_space_rune u line2 0)).length < line2.length + 1 := by
    have h2 := canonUniSC_go_len u hu f.ignore_case line2 (line2.length+1)
      (skip_space_rune u line2 0)
    omega
  have hlen2' : (canonUniSC_go u f.ignore_case line2 (line1.length+1)
      (skip_space_rune u line2 0)).length < line2.length + 1 := by
    have h2 := canonUniSC_go_len u hu f.ignore_case line2 (line1.length+1)
      (skip_space_rune u line2 0)
    omega
  constructor
  · intro h
    have htr : (canonUniSC_go u f.ignore_case line2 (line1.length+1)
        (skip_space_rune u line2 0)).length < line1.length + 1 := by
      rw [← h]; exact hlen1
    rw [h]
    exact (canonUniSC_go_of_complete u f.ignore_case line2 (line2.length+1) (line1.length+1)
      (skip_space_rune u line2 0) htr hlen2').symm
  · intro h
    have hfull : (canonUniSC_go u f.ignore_case line2 (line2.length+1)
        (skip_space_rune u line2 0)).length < line1.length + 1 := by
      rw [← h]; exact hlen1
    rw [h]
    exact (canonUniSC_go_of_complete u f.ignore_case line2 (line1.length+1) (line2.length+1)
      (skip_space_rune u line2 0) hlen2 hfull).symm

/-- The Unicode `ignore_case` loop tests pointwise equality of lower-cased
runes. -/
theorem cmpUniIC_go_iff (u : UnicodeModel) (line1 line2 : Line) :
    ∀ fuel i j,
      (cmpUniIC_go u line1 line2 fuel i j = true ↔
        canonUniIC_go u line1 fuel i = canonUniIC_go u line2 fuel j) := by
  intro fuel
  induction fuel with
  | zero => intro i j; simp [cmpUniIC_go, canonUniIC_go]
  | succ n ih =>
    intro i j
    simp only [cmpUniIC_go, canonUniIC_go]
    by_cases hc : i < line1.length ∧ j < line2.length
    · rw [if_pos hc, if_pos hc.1, if_pos hc.2]
      by_cases hh : u.toLowerRune (u.decodeRune (line1.drop i)).1
          = u.toLowerRune (u.decodeRune (line2.drop j)).1
      · rw [if_neg (fun hcon => hcon.2 hh)]
        rw [ih (i + (u.decodeRune (line1.drop i)).2) (j + (u.decodeRune (line2.drop j)).2)]
        rw [List.cons.injEq]
        exact ⟨fun h => ⟨hh, h⟩, fun h => h.2⟩
      · rw [if_pos ⟨fun he => hh (congrArg u.toLowerRune he), hh⟩]
        rw [List.cons.injEq]
        exact ⟨fun h => absurd h (by simp), fun h => absurd h.1 hh⟩
    · rw [if_neg hc]
      rcases not_and_or.mp hc with hi | hj
      · rw [if_neg hi]
        by_cases hj2 : j < line2.length
        · rw [if_pos hj2]; simp [hi, hj2]
        · rw [if_neg hj2]; simp [hi, hj2]
      · rw [if_neg hj]
        by_cases hi2 : i < line1.length
        · rw [if_pos hi2]; simp [hj, hi2]
        · rw [if_neg hi2]; simp [hj, hi2]

/-- Unicode `ignore_case` mode: the comparator tests canonical equality (the
canonical form carries the byte length, which the comparator pre-checks). -/
theorem compare_line_unicode_IC (u : UnicodeModel) (f : Flags)
    (hasx : f.ignore_all_space = false) (hsc : f.ignore_space_change = false)
    (hic : f.ignore_case = true) (line1 line2 : Line) :
    compare_line_unicode u f line1 line2 = true ↔
      canonUniIC u line1 = canonUniIC u line2 := by
  simp only [compare_line_unicode]
  rw [if_neg (by rw [hasx]; simp), if_neg (by rw [hsc]; simp), if_pos hic]
  unfold canonUniIC
  by_cases hlen : line1.length = line2.length
  · rw [if_neg (not_not_intro hlen)]
    rw [cmpUniIC_go_iff u line1 line2 (line1.length+1) 0 0]
    rw [Prod.mk.injEq, hlen]
    simp
  · rw [if_pos hlen]
    rw [Prod.mk.injEq]
    constructor
    · intro h
      exact absurd h (by simp)
    · intro h
      exact absurd h.1 hlen

/-- The Unicode `ignore_all_space` hash does not depend on the fuel once it
exceeds the remaining line length. -/
theorem hashUniAS_go_fuel (u : UnicodeModel) (hu : u.Progress) (ic : Bool) (line : Line) :
    ∀ F F' i h, line.length + 1 ≤ i + F → line.length + 1 ≤ i + F' →
      hashUniAS_go u ic line F i h = hashUniAS_go u ic line F' i h := by
  intro F
  induction F with
  | zero =>
    intro F' i h hf hf'
    cases F' with
    | zero => rfl
    | succ m =>
      simp only [hashUniAS_go]
      rw [if_neg (by omega)]
  | succ n ih =>
    intro F' i h hf hf'
    cases F' with
    | zero =>
      simp only [hashUniAS_go]
      rw [if_neg (by omega)]
    | succ m =>
      simp only [hashUniAS_go]
      by_cases hi : i < line.length
      · rw [if_pos hi, if_pos hi]
        have hst := decode_stride u hu line i hi
        exact ih m (i + (u.decodeRune (line.drop i)).2) _ (by omega) (by omega)
      · rw [if_neg hi, if_neg hi]

/-- The Unicode `ignore_all_space` hash is unchanged by skipping a space run. -/
theorem hashUniAS_skip (u : UnicodeModel) (hu : u.Progress) (ic : Bool) (line : Line) :
    ∀ F i h, line.length + 1 ≤ i + F →
      hashUniAS_go u ic line F i h
        = hashUniAS_go u ic line F (skip_space_rune u line i) h := by
  intro F
  induction F with
  | zero => intro i h hf; rfl
  | succ n ih =>
    intro i h hf
    by_cases hi : i < line.length
    · by_cases hs : u.isSpaceRune (u.decodeRune (line.drop i)).1 = true
      · have hst := decode_stride u hu line i hi
        have hstep : hashUniAS_go u ic line (n+1) i h
            = hashUniAS_go u ic line n (i + (u.decodeRune (line.drop i)).2) h := by
          simp only [hashUniAS_go]
          rw [if_pos hi, if_neg (by rw [hs]; simp)]
        rw [hstep]
        rw [ih (i + (u.decodeRune (line.drop i)).2) h (by omega)]
        rw [← skip_space_rune_step u hu line i hi hs]
        exact hashUniAS_go_fuel u hu ic line n (n+1) (skip_space_rune u line i) h
          (by have h1 := skip_space_rune_ge u line (i + (u.decodeRune (line.drop i)).2)
              have h2 := skip_space_rune_step u hu line i hi hs
              omega)
          (by have h1 := skip_space_rune_ge u line (i + (u.decodeRune (line.drop i)).2)
              have h2 := skip_space_rune_step u hu line i hi hs
              omega)
      · have hs' : u.isSpaceRune (u.decodeRune (line.drop i)).1 = false := by
          rcases Bool.eq_false_or_eq_true (u.isSpaceRune (u.decodeRune (line.drop i)).1)
            with hv | hv
          · exact absurd hv hs
          · exact hv
        rw [skip_space_rune_id u line i hi hs']
    · rw [skip_space_rune_stop u line i (by omega)]

/-- The Unicode `ignore_all_space` hash, resumed at a token position (or the
end), folds the canonical rune stream. -/
theorem hashUniAS_main (u : UnicodeModel) (hu : u.Progress) (ic : Bool) (line : Line) :
    ∀ F i h, line.length + 1 ≤ i + F →
      (i < line.length → u.isSpaceRune (u.decodeRune (line.drop i)).1 = false) →
      hashUniAS_go u ic line F i h
        = (canonUniAS_go u ic line F i).foldl hash32_unicode h := by
  intro F
  induction F with
  | zero => intro i h hf _; rfl
  | succ n ih =>
    intro i h hf hns
    simp only [hashUniAS_go, canonUniAS_go]
    by_cases hi : i < line.length
    · rw [if_pos hi, if_pos hi, List.foldl_cons]
      have hb := hns hi
      have hst := decode_stride u hu line i hi
      rw [if_pos (by rw [hb]; simp)]
      rw [hashUniAS_skip u hu ic line n (i + (u.decodeRune (line.drop i)).2) _ (by omega)]
      rw [ih (skip_space_rune u line (i + (u.decodeRune (line.drop i)).2)) _
        (by have := skip_space_rune_ge u line (i + (u.decodeRune (line.drop i)).2); omega)
        (fun hlt => skip_space_rune_nonspace u hu line (i + (u.decodeRune (line.drop i)).2) hlt)]
      simp only [canonRune]
    · rw [if_neg hi, if_neg hi]
      rfl

/-- Unicode `ignore_all_space` mode: the hash factors through the canonical
form. -/
theorem compute_hash_unicode_AS (u : UnicodeModel) (hu : u.Progress) (f : Flags)
    (has : f.ignore_all_space = true) (line : Line) :
    compute_hash_unicode u f line
      = (canonUniAS u f.ignore_case line).foldl hash32_unicode 0 := by
  simp only [compute_hash_unicode]
  rw [if_pos has]
  rw [hashUniAS_skip u hu f.ignore_case line (line.length+1) 0 0 (by omega)]
  unfold canonUniAS
  exact hashUniAS_main u hu f.ignore_case line (line.length+1) (skip_space_rune u line 0) 0
    (by have := skip_space_rune_ge u line 0; omega)
    (fun hlt => skip_space_rune_nonspace u hu line 0 hlt)

/-- Past the end of the line the Unicode `ignore_space_change` hash loop is
the identity. -/
theorem hashUniSC_go_stop (u : UnicodeModel) (ic : Bool) (line : Line) (i : Nat)
    (h : line.length ≤ i) :
    ∀ F st, hashUniSC_go u ic line F i st = st := by
  intro F st
  cases F with
  | zero => rfl
  | succ n =>
    simp only [hashUniSC_go]
    rw [if_neg (by omega)]

/-- The Unicode `ignore_space_change` hash does not depend on the fuel once it
exceeds the remaining line length. -/
theorem hashUniSC_go_fuel (u : UnicodeModel) (hu : u.Progress) (ic : Bool) (line : Line) :
    ∀ F F' i st, line.length + 1 ≤ i + F → line.length + 1 ≤ i + F' →
      hashUniSC_go u ic line F i st = hashUniSC_go u ic line F' i st := by
  intro F
  induction F with
  | zero =>
    intro F' i st hf hf'
    rw [hashUniSC_go_stop u ic line i (by omega), hashUniSC_go_stop u ic line i (by omega)]
  | succ n ih =>
    intro F' i st hf hf'
    cases F' with
    | zero =>
      rw [hashUniSC_go_stop u ic line i (by omega), hashUniSC_go_stop u ic line i (by omega)]
    | succ m =>
      simp only [hashUniSC_go]
      by_cases hi : i < line.length
      · rw [if_pos hi, if_pos hi]
        have hst := decode_stride u hu line i hi
        exact ih m (i + (u.decodeRune (line.drop i)).2) _ (by omega) (by omega)
      · rw [if_neg hi, if_neg hi]

/-- One unfolding of the Unicode `ignore_space_change` hash loop at an
in-bounds position. -/
theorem hashUniSC_go_step (u : UnicodeModel) (ic : Bool) (line : Line) (F i : Nat)
    (st : Nat × Nat × Bool) (hi : i < line.length) :
    hashUniSC_go u ic line (F+1) i st
      = hashUniSC_go u ic line F (i + (u.decodeRune (line.drop i)).2)
          (if u.isSpaceRune (u.decodeRune (line.drop i)).1 = true then
            (if (!st.2.2) = true then (hash32 st.1 32, st.1, true)
             else (st.1, st.2.1, true))
          else
            (hash32_unicode st.1
              (if ic = true then u.toLowerRune (u.decodeRune (line.drop i)).1
               else (u.decodeRune (line.drop i)).1), st.2.1, false)) := by
  simp only [hashUniSC_go]
  rw [if_pos hi]

/-- The Unicode `ignore_space_change` hash state with `last_space` set is
unchanged by a run of space runes. -/
theorem hashUniSC_skipTrue (u : UnicodeModel) (hu : u.Progress) (ic : Bool) (line : Line) :
    ∀ F i (a b : Nat), line.length + 1 ≤ i + F →
      hashUniSC_go u ic line F i (a, b, true)
        = hashUniSC_go u ic line F (skip_space_rune u line i) (a, b, true) := by
  intro F
  induction F with
  | zero => intro i a b hf; rfl
  | succ n ih =>
    intro i a b hf
    by_cases hi : i < line.length
    · by_cases hs : u.isSpaceRune (u.decodeRune (line.drop i)).1 = true
      · have hst := decode_stride u hu line i hi
        have hstep : hashUniSC_go u ic line (n+1) i (a, b, true)
            = hashUniSC_go u ic line n (i + (u.decodeRune (line.drop i)).2) (a, b, true) := by
          simp only [hashUniSC_go]
          rw [if_pos hi, if_pos hs, if_neg (by simp)]
        rw [hstep]
        rw [ih (i + (u.decodeRune (line.drop i)).2) a b (by omega)]
        rw [← skip_space_rune_step u hu line i hi hs]
        exact hashUniSC_go_fuel u hu ic line n (n+1) (skip_space_rune u line i) (a, b, true)
          (by have h1 := skip_space_rune_ge u line (i + (u.decodeRune (line.drop i)).2)
              have h2 := skip_space_rune_step u hu line i hi hs
              omega)
          (by have h1 := skip_space_rune_ge u line (i + (u.decodeRune (line.drop i)).2)
              have h2 := skip_space_rune_step u hu line i hi hs
              omega)
      · have hs' : u.isSpaceRune (u.decodeRune (line.drop i)).1 = false := by
          rcases Bool.eq_false_or_eq_true (u.isSpaceRune (u.decodeRune (line.drop i)).1)
            with hv | hv
          · exact absurd hv hs
          · exact hv
        rw [skip_space_rune_id u line i hi hs']
    · rw [skip_space_rune_stop u line i (by omega)]

/-- The Unicode `ignore_space_change` hash, resumed at a token position (or
the end) with a consistent state, renders the canonical token stream. -/
theorem hashUniSC_main (u : UnicodeModel) (hu : u.Progress) (ic : Bool) (line : Line) :
    ∀ F i (h lh : Nat) (ls : Bool), line.length + 1 ≤ i + F →
      (i < line.length → u.isSpaceRune (u.decodeRune (line.drop i)).1 = false) →
      (line.length ≤ i → ls = true → lh = h) →
      finishSC (hashUniSC_go u ic line F i (h, lh, ls))
        = (canonUniSC_go u ic line F i).foldl
            (fun x p => if p.2 then hash32 (hash32_unicode x p.1) 32
              else hash32_unicode x p.1) h := by
  intro F
  induction F with
  | zero =>
    intro i h lh ls hf hns hlsh
    simp only [hashUniSC_go, canonUniSC_go, List.foldl_nil]
    rcases Bool.eq_false_or_eq_true ls with hls | hls
    · rw [hls]
      simp only [finishSC]
      exact hlsh (by omega) hls
    · rw [hls]
      simp [finishSC]
  | succ n ih =>
    intro i h lh ls hf hns hlsh
    by_cases hi : i < line.length
    · simp only [canonUniSC_go]
      rw [if_pos hi]
      cases n with
      | zero => exfalso; omega
      | succ m =>
        have hb := hns hi
        have hst := decode_stride u hu line i hi
        rw [hashUniSC_go_step u ic line (m+1) i (h, lh, ls) hi]
        rw [if_neg (by rw [hb]; simp)]
        obtain ⟨j, hj⟩ :
            ∃ j, skip_space_rune u line (i + (u.decodeRune (line.drop i)).2) = j := ⟨_, rfl⟩
        rw [hj]
        have hjge : i + (u.decodeRune (line.drop i)).2 ≤ j := by
          rw [← hj]; exact skip_space_rune_ge u line _
        have hjns : j < line.length → u.isSpaceRune (u.decodeRune (line.drop j)).1 = false := by
          intro hlt
          rw [← hj] at hlt ⊢
          exact skip_space_rune_nonspace u hu line _ hlt
        by_cases hrun : i + (u.decodeRune (line.drop i)).2 < j
        · have hmv := skip_space_rune_moved u line (i + (u.decodeRune (line.drop i)).2)
            (by rw [hj]; exact hrun)
          have hq := decode_stride u hu line (i + (u.decodeRune (line.drop i)).2) hmv.1
          rw [hashUniSC_go_step u ic line m (i + (u.decodeRune (line.drop i)).2) _ hmv.1]
          rw [if_pos hmv.2, if_pos (by simp)]
          rw [hashUniSC_skipTrue u hu ic line m
            (i + (u.decodeRune (line.drop i)).2
              + (u.decodeRune (line.drop (i + (u.decodeRune (line.drop i)).2))).2)
            _ _ (by omega)]
          rw [← skip_space_rune_step u hu line (i + (u.decodeRune (line.drop i)).2)
            hmv.1 hmv.2, hj]
          rw [hashUniSC_go_fuel u hu ic line m (m+1) j _ (by omega) (by omega)]
          by_cases hjlen : j < line.length
          · simp only [List.foldl_cons]
            rw [if_pos (show (decide (i + (u.decodeRune (line.drop i)).2 < j)
                && decide (j < line.length)) = true by simp [hrun, hjlen])]
            exact ih j _ _ true (by omega) hjns (fun hcon _ => absurd hjlen (by omega))
          · simp only [List.foldl_cons]
            rw [if_neg (show ¬((decide (i + (u.decodeRune (line.drop i)).2 < j)
                && decide (j < line.length)) = true) by simp [hjlen])]
            rw [canonUniSC_go_nil u ic line j (by omega) (m+1)]
            rw [hashUniSC_go_stop u ic line j (by omega) (m+1)]
            simp only [List.foldl_nil]
            simp [finishSC, canonRune]
        · have hjeq : j = i + (u.decodeRune (line.drop i)).2 := by omega
          subst hjeq
          simp only [List.foldl_cons]
          rw [if_neg (show ¬((decide (i + (u.decodeRune (line.drop i)).2
              < i + (u.decodeRune (line.drop i)).2)
              && decide (i + (u.decodeRune (line.drop i)).2 < line.length)) = true) by simp)]
          exact ih (i + (u.decodeRune (line.drop i)).2) _ lh false (by omega) hjns
            (fun _ hfalse => Bool.noConfusion hfalse)
    · rw [canonUniSC_go_nil u ic line i (by omega) (n+1)]
      rw [hashUniSC_go_stop u ic line i (by omega) (n+1)]
      simp only [List.foldl_nil]
      rcases Bool.eq_false_or_eq_true ls with hls | hls
      · rw [hls]
        simp only [finishSC]
        exact hlsh (by omega) hls
      · rw [hls]
        simp [finishSC]

/-- Unicode `ignore_space_change` mode: the hash factors through the canonical
form. -/
theorem compute_hash_unicode_SC (u : UnicodeModel) (hu : u.Progress) (f : Flags)
    (hasx : f.ignore_all_space = false) (hsc : f.ignore_space_change = true) (line : Line) :
    compute_hash_unicode u f line = renderUniSC (canonUniSC u f.ignore_case line) := by
  simp only [compute_hash_unicode]
  rw [if_neg (by rw [hasx]; simp), if_pos hsc]
  show finishSC (hashUniSC_go u f.ignore_case line (line.length+1) 0 ((0:Nat), (0:Nat), true))
      = renderUniSC (canonUniSC u f.ignore_case line)
  rw [hashUniSC_skipTrue u hu f.ignore_case line (line.length+1) 0 0 0 (by omega)]
  unfold canonUniSC renderUniSC
  exact hashUniSC_main u hu f.ignore_case line (line.length+1) (skip_space_rune u line 0)
    0 0 true
    (by have := skip_space_rune_ge u line 0; omega)
    (fun hlt => skip_space_rune_nonspace u hu line 0 hlt)
    (fun _ _ => rfl)

/-- The Unicode `ignore_case` hash folds the lower-cased rune stream. -/
theorem hashUniIC_eq (u : UnicodeModel) (line : Line) :
    ∀ fuel i h, hashUniIC_go u line fuel i h
      = (canonUniIC_go u line fuel i).foldl hash32_unicode h := by
  intro fuel
  induction fuel with
  | zero => intro i h; rfl
  | succ n ih =>
    intro i h
    simp only [hashUniIC_go, canonUniIC_go]
    by_cases hi : i < line.length
    · rw [if_pos hi, if_pos hi, List.foldl_cons]
      exact ih (i + (u.decodeRune (line.drop i)).2)
        (hash32_unicode h (u.toLowerRune (u.decodeRune (line.drop i)).1))
    · rw [if_neg hi, if_neg hi]
      rfl

/-- Unicode `ignore_case` mode: the hash factors through the canonical form. -/
theorem compute_hash_unicode_IC (u : UnicodeModel) (f : Flags)
    (hasx : f.ignore_all_space = false) (hsc : f.ignore_space_change = false)
    (hic : f.ignore_case = true) (line : Line) :
    compute_hash_unicode u f line = (canonUniIC u line).2.foldl hash32_unicode 0 := by
  simp only [compute_hash_unicode]
  rw [if_neg (by rw [hasx]; simp), if_neg (by rw [hsc]; simp), if_pos hic]
  exact hashUniIC_eq u line (line.length+1) 0 0

/-- The doubling loop only grows its accumulator. -/
theorem bucketsForGo_ge : ∀ fuel target b, b ≤ bucketsForGo fuel target b := by
  intro fuel
  induction fuel with
  | zero => intro t b; exact le_refl b
  | succ n ih =>
    intro t b
    simp only [bucketsForGo]
    split
    · have := ih t (2*b)
      omega
    · exact le_refl b

theorem bucketsFor_pos (t : Nat) : 0 < bucketsFor t := by
  have := bucketsForGo_ge t t 512
  simp only [bucketsFor]
  omega

/-- `compress_equiv_ids` never touches the id streams. -/
theorem compress_preserves_ids (l1 l2 : LinesData) (m1 m2 : Int) :
    (compress_equiv_ids l1 l2 m1 m2).1.ids = l1.ids ∧
    (compress_equiv_ids l1 l2 m1 m2).2.ids = l2.ids := by
  simp only [compress_equiv_ids]
  obtain ⟨i1, i2, c1, c2, hpre⟩ : ∃ a b c d,
      compressPrefix l1.ids l2.ids (hasId l1.ids) (hasId l2.ids) m1 m2
        (l1.ids.length + l2.ids.length + 1) (0, 0, l1.change, l2.change)
      = (a, b, c, d) := ⟨_, _, _, _, rfl⟩
  rw [hpre]
  obtain ⟨j1, j2, d1, d2, hsuf⟩ : ∃ a b c d,
      compressSuffix l1.ids l2.ids (hasId l1.ids) (hasId l2.ids) m1 m2 i1 i2
        (l1.ids.length + l2.ids.length + 1) (l1.ids.length, l2.ids.length, c1, c2)
      = (a, b, c, d) := ⟨_, _, _, _, rfl⟩
  rw [hsuf]
  split
  · exact ⟨rfl, rfl⟩
  · split
    · exact ⟨rfl, rfl⟩
    · exact ⟨rfl, rfl⟩

/-- The id streams returned by `find_equiv_lines` are the classifier's two
output streams (first side from the fresh table, second side continuing). -/
theorem find_equiv_ids (cmp : Line → Line → Bool) (hashF : Line → Nat) (f : Flags)
    (lines1 lines2 : List Line) :
    (find_equiv_lines cmp hashF f lines1 lines2).1.ids
      = (classifyLines cmp hashF (bucketsFor ((lines1.length + lines2.length) * 2))
          (initTable hashF f (bucketsFor ((lines1.length + lines2.length) * 2)), 1)
          lines1).2
    ∧ (find_equiv_lines cmp hashF f lines1 lines2).2.ids
      = (classifyLines cmp hashF (bucketsFor ((lines1.length + lines2.length) * 2))
          (classifyLines cmp hashF (bucketsFor ((lines1.length + lines2.length) * 2))
            (initTable hashF f (bucketsFor ((lines1.length + lines2.length) * 2)), 1)
            lines1).1 lines2).2 := by
  simp only [find_equiv_lines]
  constructor
  · rw [(compress_preserves_ids _ _ _ _).1]
  · rw [(compress_preserves_ids _ _ _ _).2]

/-- Classifying a concatenation classifies the parts in sequence over the
shared table. -/
theorem classifyLines_append (cmp : Line → Line → Bool) (hashF : Line → Nat) (buckets : Nat) :
    ∀ (L1 L2 : List Line) (st : EqTable × Int),
      classifyLines cmp hashF buckets st (L1 ++ L2)
        = ((classifyLines cmp hashF buckets
              (classifyLines cmp hashF buckets st L1).1 L2).1,
           (classifyLines cmp hashF buckets st L1).2
             ++ (classifyLines cmp hashF buckets
                  (classifyLines cmp hashF buckets st L1).1 L2).2) := by
  intro L1
  induction L1 with
  | nil =>
    intro L2 st
    rfl
  | cons l ls ih =>
    intro L2 st
    simp only [List.cons_append, classifyLines, List.append_eq]
    rw [ih L2 (classifyLine cmp hashF buckets st l).1]

/-- The installed comparator accepts two lines exactly when their canonical
images agree. -/
theorem installedCompare_iff (u : UnicodeModel) (hu : u.Progress) (f : Flags) :
    ∀ a b : Line, installedCompare u f a b = true ↔
      installedCanon u f a = installedCanon u f b := by
  intro a b
  cases hsel : selectCompare f with
  | exactCompare =>
    simp only [installedCompare, installedCanon, hsel]
    rw [bytesEqual_iff]
    simp
  | bytesCompare =>
    have hflags : (f.ignore_case || f.ignore_space_change || f.ignore_all_space) = true := by
      have hsel' := hsel
      simp only [selectCompare] at hsel'
      by_cases hor : (f.ignore_case || f.ignore_space_change || f.ignore_all_space) = true
      · exact hor
      · rw [if_neg hor] at hsel'
        exact absurd hsel' (by simp)
    simp only [installedCompare, installedCanon, hsel]
    by_cases hAS : f.ignore_all_space = true
    · rw [if_pos hAS, if_pos hAS, compare_line_bytes_AS f hAS a b]
      simp
    · have hAS' : f.ignore_all_space = false := by
        rcases Bool.eq_false_or_eq_true f.ignore_all_space with h | h
        · exact absurd h hAS
        · exact h
      rw [if_neg hAS, if_neg hAS]
      by_cases hSC : f.ignore_space_change = true
      · rw [if_pos hSC, if_pos hSC, compare_line_bytes_SC f hAS' hSC a b]
        simp
      · have hSC' : f.ignore_space_change = false := by
          rcases Bool.eq_false_or_eq_true f.ignore_space_change with h | h
          · exact absurd h hSC
          · exact h
        have hIC : f.ignore_case = true := by
          rw [hAS', hSC'] at hflags
          simpa using hflags
        rw [if_neg hSC, if_neg hSC, compare_line_bytes_IC f hAS' hSC' hIC a b]
        simp
  | unicodeCompare =>
    have hflags : (f.ignore_case || f.ignore_space_change || f.ignore_all_space) = true := by
      have hsel' := hsel
      simp only [selectCompare] at hsel'
      by_cases hor : (f.ignore_case || f.ignore_space_change || f.ignore_all_space) = true
      · exact hor
      · rw [if_neg hor] at hsel'
        exact absurd hsel' (by simp)
    simp only [installedCompare, installedCanon, hsel]
    by_cases hAS : f.ignore_all_space = true
    · rw [if_pos hAS, if_pos hAS, compare_line_unicode_AS u hu f hAS a b]
      simp
    · have hAS' : f.ignore_all_space = false := by
        rcases Bool.eq_false_or_eq_true f.ignore_all_space with h | h
        · exact absurd h hAS
        · exact h
      rw [if_neg hAS, if_neg hAS]
      by_cases hSC : f.ignore_space_change = true
      · rw [if_pos hSC, if_pos hSC, compare_line_unicode_SC u hu f hAS' hSC a b]
        simp
      · have hSC' : f.ignore_space_change = false := by
          rcases Bool.eq_false_or_eq_true f.ignore_space_change with h | h
          · exact absurd h hSC
          · exact h
        have hIC : f.ignore_case = true := by
          rw [hAS', hSC'] at hflags
          simpa using hflags
        rw [if_neg hSC, if_neg hSC, compare_line_unicode_IC u f hAS' hSC' hIC a b]
        simp

/-- The installed hash is constant on canonical classes. -/
theorem installedHash_respects (u : UnicodeModel) (hu : u.Progress) (f : Flags) :
    ∀ a b : Line, installedCanon u f a = installedCanon u f b →
      installedHash u f a = installedHash u f b := by
  intro a b hcan
  cases hsel : selectCompare f with
  | exactCompare =>
    simp only [installedCanon, hsel] at hcan
    simp only [installedHash, hsel]
    simp at hcan
    rw [hcan]
  | bytesCompare =>
    simp only [installedCanon, hsel] at hcan
    simp only [installedHash, hsel]
    by_cases hAS : f.ignore_all_space = true
    · rw [if_pos hAS, if_pos hAS] at hcan
      simp at hcan
      rw [compute_hash_bytes_AS f hAS a, compute_hash_bytes_AS f hAS b, hcan]
    · have hAS' : f.ignore_all_space = false := by
        rcases Bool.eq_false_or_eq_true f.ignore_all_space with h | h
        · exact absurd h hAS
        · exact h
      rw [if_neg hAS, if_neg hAS] at hcan
      by_cases hSC : f.ignore_space_change = true
      · rw [if_pos hSC, if_pos hSC] at hcan
        simp at hcan
        rw [compute_hash_bytes_SC f hAS' hSC a, compute_hash_bytes_SC f hAS' hSC b, hcan]
      · have hSC' : f.ignore_space_change = false := by
          rcases Bool.eq_false_or_eq_true f.ignore_space_change with h | h
          · exact absurd h hSC
          · exact h
        rw [if_neg hSC, if_neg hSC] at hcan
        simp at hcan
        by_cases hIC : f.ignore_case = true
        · rw [compute_hash_bytes_IC f hAS' hSC' hIC a, compute_hash_bytes_IC f hAS' hSC' hIC b,
            hcan]
        · have hIC' : f.ignore_case = false := by
            rcases Bool.eq_false_or_eq_true f.ignore_case with h | h
            · exact absurd h hIC
            · exact h
          simp only [compute_hash_bytes]
          rw [if_neg (by rw [hAS']; simp), if_neg (by rw [hSC']; simp),
            if_neg (by rw [hIC']; simp), if_neg (by rw [hAS']; simp),
            if_neg (by rw [hSC']; simp), if_neg (by rw [hIC']; simp)]
  | unicodeCompare =>
    simp only [installedCanon, hsel] at hcan
    simp only [installedHash, hsel]
    by_cases hAS : f.ignore_all_space = true
    · rw [if_pos hAS, if_pos hAS] at hcan
      simp at hcan
      rw [compute_hash_unicode_AS u hu f hAS a, compute_hash_unicode_AS u hu f hAS b, hcan]
    · have hAS' : f.ignore_all_space = false := by
        rcases Bool.eq_false_or_eq_true f.ignore_all_space with h | h
        · exact absurd h hAS
        · exact h
      rw [if_neg hAS, if_neg hAS] at hcan
      by_cases hSC : f.ignore_space_change = true
      · rw [if_pos hSC, if_pos hSC] at hcan
        simp at hcan
        rw [compute_hash_unicode_SC u hu f hAS' hSC a, compute_hash_unicode_SC u hu f hAS' hSC b,
          hcan]
      · have hSC' : f.ignore_space_change = false := by
          rcases Bool.eq_false_or_eq_true f.ignore_space_change with h | h
          · exact absurd h hSC
          · exact h
        rw [if_neg hSC, if_neg hSC] at hcan
        simp at hcan
        by_cases hIC : f.ignore_case = true
        · rw [compute_hash_unicode_IC u f hAS' hSC' hIC a,
            compute_hash_unicode_IC u f hAS' hSC' hIC b, hcan]
        · have hIC' : f.ignore_case = false := by
            rcases Bool.eq_false_or_eq_true f.ignore_case with h | h
            · exact absurd h hIC
            · exact h
          simp only [compute_hash_unicode]
          rw [if_neg (by rw [hAS']; simp), if_neg (by rw [hSC']; simp),
            if_neg (by rw [hIC']; simp), if_neg (by rw [hAS']; simp),
            if_neg (by rw [hSC']; simp), if_neg (by rw [hIC']; simp)]

/-- C7: for every active comparison configuration (any flag combination, over
any Unicode model whose decoder consumes at least one byte of non-empty
input), the classifier of `find_equiv_lines` run with the installed comparator
and hash assigns two lines the same id exactly when the installed comparator
accepts them; and the installed hash agrees on any two lines the installed
comparator accepts. -/
theorem c7 (u : UnicodeModel) (hu : u.Progress) (f : Flags) (lines1 lines2 : List Line) :
    (∀ a b : Line, installedCompare u f a b = true →
        installedHash u f a = installedHash u f b) ∧
    (∀ i j, i < lines1.length + lines2.length → j < lines1.length + lines2.length →
      ((((find_equiv_lines (installedCompare u f) (installedHash u f) f lines1 lines2).1.ids
          ++ (find_equiv_lines (installedCompare u f) (installedHash u f) f
                lines1 lines2).2.ids).getD i 0
        = ((find_equiv_lines (installedCompare u f) (installedHash u f) f
              lines1 lines2).1.ids
            ++ (find_equiv_lines (installedCompare u f) (installedHash u f) f
                  lines1 lines2).2.ids).getD j 0)
      ↔ installedCompare u f ((lines1 ++ lines2).getD i [])
          ((lines1 ++ lines2).getD j []) = true)) := by
  constructor
  · intro a b hab
    exact installedHash_respects u hu f a b ((installedCompare_iff u hu f a b).mp hab)
  · intro i j hi hj
    have hids := find_equiv_ids (installedCompare u f) (installedHash u f) f lines1 lines2
    rw [hids.1, hids.2]
    have h2 : (classifyLines (installedCompare u f) (installedHash u f)
          (bucketsFor ((lines1.length + lines2.length) * 2))
          (initTable (installedHash u f) f (bucketsFor ((lines1.length + lines2.length) * 2)), 1)
          (lines1 ++ lines2)).2
        = (classifyLines (installedCompare u f) (installedHash u f)
            (bucketsFor ((lines1.length + lines2.length) * 2))
            (initTable (installedHash u f) f
              (bucketsFor ((lines1.length + lines2.length) * 2)), 1) lines1).2
          ++ (classifyLines (installedCompare u f) (installedHash u f)
              (bucketsFor ((lines1.length + lines2.length) * 2))
              (classifyLines (installedCompare u f) (installedHash u f)
                (bucketsFor ((lines1.length + lines2.length) * 2))
                (initTable (installedHash u f) f
                  (bucketsFor ((lines1.length + lines2.length) * 2)), 1) lines1).1
              lines2).2 := by
      rw [classifyLines_append]
    rw [← h2]
    exact classifier_iff (installedCanon u f) (installedCompare u f) (installedHash u f)
      (bucketsFor ((lines1.length + lines2.length) * 2))
      (bucketsFor_pos ((lines1.length + lines2.length) * 2))
      (installedCompare_iff u hu f) (installedHash_respects u hu f) f (lines1 ++ lines2) i j
      (by rw [List.length_append]; omega) (by rw [List.length_append]; omega)

/-- Witness for C7: the one-byte-rune model makes progress, and under the
`ignore_space_change` configuration the lines `"a b"` and `"a  b"` compare
equal, so the theorem yields equality of their installed hashes. -/
theorem c7_witness :
    installedHash c7model c7flags [97, 32, 98] = installedHash c7model c7flags [97, 32, 32, 98] :=
  (c7 c7model (fun l hl => le_refl 1) c7flags [] []).1 [97, 32, 98] [97, 32, 32, 98] (by decide)

/-- The id stream has one entry per input line. -/
theorem classifyLines_length (cmp : Line → Line → Bool) (hashF : Line → Nat) (buckets : Nat) :
    ∀ (L : List Line) (st : EqTable × Int),
      (classifyLines cmp hashF buckets st L).2.length = L.length := by
  intro L
  induction L with
  | nil => intro st; rfl
  | cons l ls ih =>
    intro st
    simp only [classifyLines, List.length_cons]
    rw [ih]

theorem markRangeGo_length : ∀ fuel a (c : List Bool), (markRangeGo fuel a c).length = c.length := by
  intro fuel
  induction fuel with
  | zero => intro a c; rfl
  | succ n ih =>
    intro a c
    simp only [markRangeGo]
    rw [ih, List.length_set]

theorem markRangeGo_getD_true : ∀ fuel a (c : List Bool) p, a ≤ p → p < a + fuel →
    p < c.length → (markRangeGo fuel a c).getD p false = true := by
  intro fuel
  induction fuel with
  | zero => intro a c p h1 h2 _; omega
  | succ n ih =>
    intro a c p h1 h2 hp
    simp only [markRangeGo]
    rcases Nat.eq_or_lt_of_le h1 with rfl | hlt
    · exact markRangeGo_mono n (a+1) _ a (getD_set_eq true hp)
    · exact ih (a+1) (c.set a true) p hlt (by omega) (by rw [List.length_set]; exact hp)

/-- Marking the whole of an all-false bitmap yields the all-true bitmap. -/
theorem markRange_replicate (n : Nat) :
    markRange (List.replicate n false) 0 n = List.replicate n true := by
  have hlen : (markRange (List.replicate n false) 0 n).length = n := by
    simp only [markRange]
    rw [markRangeGo_length]
    simp
  apply List.ext_getElem
  · rw [hlen, List.length_replicate]
  · intro i h1 h2
    have hin : i < n := by rw [hlen] at h1; exact h1
    have hg : (markRange (List.replicate n false) 0 n).getD i false = true := by
      simp only [markRange]
      exact markRangeGo_getD_true (n - 0) 0 (List.replicate n false) i (by omega)
        (by omega) (by rw [List.length_replicate]; exact hin)
    rw [List.getD_eq_getElem _ false h1] at hg
    rw [hg]
    simp

/-- An empty mark range changes nothing. -/
theorem markRange_self (c : List Bool) (a : Nat) : markRange c a a = c := by
  simp only [markRange]
  rw [show a - a = 0 by omega]
  rfl

theorem countTrue_le (c : List Bool) : countTrue c ≤ c.length :=
  List.length_filter_le _ c

theorem countTrue_replicate_true (n : Nat) : countTrue (List.replicate n true) = n := by
  induction n with
  | zero => rfl
  | succ m ih =>
    rw [List.replicate_succ, countTrue_cons_true, ih]

theorem countTrue_replicate_false (n : Nat) : countTrue (List.replicate n false) = 0 := by
  induction n with
  | zero => rfl
  | succ m ih =>
    rw [List.replicate_succ, countTrue_cons_false, ih]

/-- A bitmap whose true-count equals its length is all-true. -/
theorem all_true_of_countTrue : ∀ c : List Bool, countTrue c = c.length →
    c = List.replicate c.length true := by
  intro c
  induction c with
  | nil => intro _; rfl
  | cons b tl ih =>
    intro h
    cases b with
    | false =>
      exfalso
      rw [countTrue_cons_false, List.length_cons] at h
      have := countTrue_le tl
      omega
    | true =>
      rw [countTrue_cons_true, List.length_cons] at h
      have htl : countTrue tl = tl.length := by omega
      rw [List.length_cons, List.replicate_succ, ← ih htl]

/-- A bitmap with no true cells is all-false. -/
theorem all_false_of_countTrue : ∀ c : List Bool, countTrue c = 0 →
    c = List.replicate c.length false := by
  intro c
  induction c with
  | nil => intro _; rfl
  | cons b tl ih =>
    intro h
    cases b with
    | true =>
      exfalso
      rw [countTrue_cons_true] at h
      omega
    | false =>
      rw [countTrue_cons_false] at h
      rw [List.length_cons, List.replicate_succ, ← ih h]

theorem shift_boundaries_length (data : List Int) (change : List Bool)
    (score : Option (Int → Int → Int)) (hlen : change.length = data.length) :
    (shift_boundaries data change score).length = change.length :=
  (shift_go_count data score ((2*change.length+3) * (change.length+2)) 0 change hlen).2

/-- The shifter fixes an all-true bitmap. -/
theorem shift_all_true (data : List Int) (n : Nat) (score : Option (Int → Int → Int))
    (hlen : n = data.length) :
    shift_boundaries data (List.replicate n true) score = List.replicate n true := by
  have h1 := shift_boundaries_count data (List.replicate n true) score (by simp [hlen])
  have h2 := shift_boundaries_length data (List.replicate n true) score (by simp [hlen])
  rw [countTrue_replicate_true] at h1
  rw [List.length_replicate] at h2
  have h3 := all_true_of_countTrue _ (by rw [h1, h2])
  rw [h3, h2]

/-- The shifter fixes an all-false bitmap. -/
theorem shift_all_false (data : List Int) (n : Nat) (score : Option (Int → Int → Int))
    (hlen : n = data.length) :
    shift_boundaries data (List.replicate n false) score = List.replicate n false := by
  have h1 := shift_boundaries_count data (List.replicate n false) score (by simp [hlen])
  have h2 := shift_boundaries_length data (List.replicate n false) score (by simp [hlen])
  rw [countTrue_replicate_false] at h1
  rw [List.length_replicate] at h2
  have h3 := all_false_of_countTrue _ h1
  rw [h3, h2]

/-- The run scan crosses an all-true bitmap completely. -/
theorem findRunEnd_all (change : List Bool)
    (hall : ∀ p, p < change.length → change.getD p false = true) :
    ∀ fuel e, change.length ≤ e + fuel → e ≤ change.length →
      findRunEnd change fuel e = change.length := by
  intro fuel
  induction fuel with
  | zero =>
    intro e h1 h2
    simp only [findRunEnd]
    omega
  | succ n ih =>
    intro e h1 h2
    simp only [findRunEnd]
    by_cases he : e < change.length
    · rw [if_pos ⟨he, hall e he⟩]
      exact ih (e+1) (by omega) (by omega)
    · rw [if_neg (fun hc => he hc.1)]
      omega

/-- The head-trim loop stops immediately when its window is empty or closed. -/
theorem compressPrefix_exit (ids1 ids2 : List Int) (has1 has2 : Int → Bool) (m1 m2 : Int)
    (i1 i2 : Nat) (c1 c2 : List Bool) (h : ¬(i1 < ids1.length ∧ i2 < ids2.length)) :
    ∀ fuel, compressPrefix ids1 ids2 has1 has2 m1 m2 fuel (i1, i2, c1, c2)
      = (i1, i2, c1, c2) := by
  intro fuel
  cases fuel with
  | zero => rfl
  | succ n =>
    simp only [compressPrefix]
    rw [if_neg h]

/-- The tail-trim loop stops immediately when its window is empty or closed. -/
theorem compressSuffix_exit (ids1 ids2 : List Int) (has1 has2 : Int → Bool) (m1 m2 : Int)
    (i1 i2 j1 j2 : Nat) (c1 c2 : List Bool) (h : ¬(i1 < j1 ∧ i2 < j2)) :
    ∀ fuel, compressSuffix ids1 ids2 has1 has2 m1 m2 i1 i2 fuel (j1, j2, c1, c2)
      = (j1, j2, c1, c2) := by
  intro fuel
  cases fuel with
  | zero => rfl
  | succ n =>
    simp only [compressSuffix]
    rw [if_neg h]

theorem hasId_of_mem {ids : List Int} {v : Int} (h : v ∈ ids) : hasId ids v = true := by
  simp only [hasId, List.contains_eq_any_beq, List.any_eq_true]
  exact ⟨v, h, by simp⟩

theorem getD_mem_of_lt {l : List Int} {k : Nat} (h : k < l.length) : l.getD k 0 ∈ l := by
  rw [List.getD_eq_getElem _ _ h]
  exact List.getElem_mem h

/-- With an empty first side the compressor short-circuits, marking the whole
second side changed. -/
theorem compress_empty1 (l1 l2 : LinesData) (m1 m2 : Int) (h1 : l1.ids = []) :
    compress_equiv_ids l1 l2 m1 m2
      = (l1, { l2 with change := markRange l2.change 0 l2.ids.length }) := by
  simp only [compress_equiv_ids]
  rw [h1]
  rw [compressPrefix_exit [] l2.ids (hasId []) (hasId l2.ids) m1 m2 0 0 l1.change l2.change
    (by simp)]
  rw [compressSuffix_exit [] l2.ids (hasId []) (hasId l2.ids) m1 m2 0 0
    ([] : List Int).length l2.ids.length l1.change l2.change (by simp)]
  rw [if_pos (show (0 == ([] : List Int).length) = true from rfl)]
  rw [← h1]

/-- With an empty second side the compressor short-circuits, marking the whole
first side changed. -/
theorem compress_empty2 (l1 l2 : LinesData) (m1 m2 : Int) (h2 : l2.ids = [])
    (h1 : l1.ids ≠ []) :
    compress_equiv_ids l1 l2 m1 m2
      = ({ l1 with change := markRange l1.change 0 l1.ids.length }, l2) := by
  have hpos : 0 < l1.ids.length := List.length_pos.mpr h1
  simp only [compress_equiv_ids]
  rw [h2]
  rw [compressPrefix_exit l1.ids [] (hasId l1.ids) (hasId []) m1 m2 0 0 l1.change l2.change
    (by simp)]
  rw [compressSuffix_exit l1.ids [] (hasId l1.ids) (hasId []) m1 m2 0 0
    l1.ids.length ([] : List Int).length l1.change l2.change (by simp)]
  rw [if_neg (show ¬((0 == l1.ids.length) = true) by simp; omega)]
  rw [if_pos (show (0 == ([] : List Int).length) = true from rfl)]
  rw [← h2]

/-- On pointwise-equal, mutually-covered id streams the head-trim loop crosses
both sides completely without marking anything. -/
theorem compressPrefix_equal (ids1 ids2 : List Int) (m1 m2 : Int) (n : Nat)
    (h1 : ids1.length = n) (h2 : ids2.length = n)
    (heq : ∀ k, k < n → ids1.getD k 0 = ids2.getD k 0)
    (hb1 : ∀ k, k < n → ids1.getD k 0 ≤ m2)
    (hb2 : ∀ k, k < n → ids2.getD k 0 ≤ m1) :
    ∀ fuel k (c1 c2 : List Bool), n ≤ k + fuel → k ≤ n →
      compressPrefix ids1 ids2 (hasId ids1) (hasId ids2) m1 m2 fuel (k, k, c1, c2)
        = (n, n, c1, c2) := by
  intro fuel
  induction fuel with
  | zero =>
    intro k c1 c2 hf hk
    have hke : k = n := by omega
    subst hke
    rfl
  | succ m ih =>
    intro k c1 c2 hf hk
    by_cases hkn : k < n
    · simp only [compressPrefix]
      rw [if_pos ⟨by omega, by omega⟩]
      have hv := heq k hkn
      have hmem2 : hasId ids2 (ids1.getD k 0) = true := by
        rw [hv]
        exact hasId_of_mem (getD_mem_of_lt (by omega))
      have hmem1 : hasId ids1 (ids2.getD k 0) = true := by
        rw [← hv]
        exact hasId_of_mem (getD_mem_of_lt (by omega))
      rw [if_neg (show ¬((decide (ids1.getD k 0 > m2) || !hasId ids2 (ids1.getD k 0)) = true) by
        rw [hmem2]
        simp only [Bool.not_true, Bool.or_false, decide_eq_true_eq]
        have := hb1 k hkn
        omega)]
      rw [if_neg (show ¬((decide (ids2.getD k 0 > m1) || !hasId ids1 (ids2.getD k 0)) = true) by
        rw [hmem1]
        simp only [Bool.not_true, Bool.or_false, decide_eq_true_eq]
        have := hb2 k hkn
        omega)]
      rw [if_pos (show (ids1.getD k 0 == ids2.getD k 0) = true by rw [hv]; simp)]
      exact ih (k+1) c1 c2 (by omega) (by omega)
    · have hke : k = n := by omega
      subst hke
      simp only [compressPrefix]
      rw [if_neg (by omega)]

/-- On pointwise-equal, mutually-covered id streams the compressor changes
nothing at all. -/
theorem compress_equal (l1 l2 : LinesData) (m1 m2 : Int) (n : Nat)
    (h1 : l1.ids.length = n) (h2 : l2.ids.length = n)
    (heq : ∀ k, k < n → l1.ids.getD k 0 = l2.ids.getD k 0)
    (hb1 : ∀ k, k < n → l1.ids.getD k 0 ≤ m2)
    (hb2 : ∀ k, k < n → l2.ids.getD k 0 ≤ m1) :
    compress_equiv_ids l1 l2 m1 m2 = (l1, l2) := by
  simp only [compress_equiv_ids]
  rw [compressPrefix_equal l1.ids l2.ids m1 m2 n h1 h2 heq hb1 hb2
    (l1.ids.length + l2.ids.length + 1) 0 l1.change l2.change (by omega) (by omega)]
  rw [compressSuffix_exit l1.ids l2.ids (hasId l1.ids) (hasId l2.ids) m1 m2 n n
    l1.ids.length l2.ids.length l1.change l2.change (by omega)]
  rw [if_pos (show (n == l1.ids.length) = true by rw [h1]; simp)]
  rw [h2, markRange_self]

/-- One skip step of the report scan over a doubly-unchanged position. -/
theorem report_go_skip (data1 data2 : List Int) (c1 c2 : List Bool) (ctx F i1 i2 : Nat)
    (hunks : List (List DiffOp)) (ops : List DiffOp) (changed : Bool)
    (hi1 : i1 < c1.length) (hi2 : i2 < c2.length)
    (h1 : c1.getD i1 false = false) (h2 : c2.getD i2 false = false) :
    report_diff_go data1 data2 c1 c2 ctx (F+1) i1 i2 (hunks, ops, changed)
      = report_diff_go data1 data2 c1 c2 ctx F (i1+1) (i2+1) (hunks, ops, changed) := by
  simp only [report_diff_go]
  rw [if_pos (Or.inl hi1)]
  rw [if_pos ⟨hi1, hi2, by rw [h1]; rfl, by rw [h2]; rfl⟩]

/-- The report scan exits with no pending ops. -/
theorem report_go_exit_nil (data1 data2 : List Int) (c1 c2 : List Bool) (ctx F i1 i2 : Nat)
    (hunks : List (List DiffOp)) (changed : Bool)
    (hout : ¬(i1 < c1.length ∨ i2 < c2.length)) :
    report_diff_go data1 data2 c1 c2 ctx (F+1) i1 i2 (hunks, [], changed)
      = (hunks, changed) := by
  simp only [report_diff_go]
  rw [if_neg hout]
  rw [if_neg (by simp)]

/-- The report scan exits by flushing the pending ops with the final sentinel. -/
theorem report_go_exit_flush (data1 data2 : List Int) (c1 c2 : List Bool) (ctx F i1 i2 : Nat)
    (hunks : List (List DiffOp)) (ops : List DiffOp) (changed : Bool)
    (hout : ¬(i1 < c1.length ∨ i2 < c2.length)) (hops : 0 < ops.length) :
    report_diff_go data1 data2 c1 c2 ctx (F+1) i1 i2 (hunks, ops, changed)
      = ((add_change_segment ctx (hunks, ops)
          ⟨0, c1.length, c1.length, c2.length, c2.length⟩).1, changed) := by
  simp only [report_diff_go]
  rw [if_neg hout]
  rw [if_pos hops]

/-- The one-sided INSERT step of the report scan. -/
theorem report_go_step_ins (data1 data2 : List Int) (c1 c2 : List Bool) (ctx F i1 i2 : Nat)
    (hunks : List (List DiffOp)) (ops : List DiffOp) (changed : Bool)
    (hni1 : ¬ i1 < c1.length) (hi2 : i2 < c2.length)
    (hc2 : c2.getD i2 false = true)
    (hseg : (next_change_segment i2 c2 data2).2.1 < (next_change_segment i2 c2 data2).2.2) :
    report_diff_go data1 data2 c1 c2 ctx (F+1) i1 i2 (hunks, ops, changed)
      = report_diff_go data1 data2 c1 c2 ctx F i1 (next_change_segment i2 c2 data2).1
          ((add_change_segment ctx (hunks, ops)
            ⟨DIFF_OP_INSERT, i1, i1, (next_change_segment i2 c2 data2).2.1,
             (next_change_segment i2 c2 data2).2.2⟩).1,
           (add_change_segment ctx (hunks, ops)
            ⟨DIFF_OP_INSERT, i1, i1, (next_change_segment i2 c2 data2).2.1,
             (next_change_segment i2 c2 data2).2.2⟩).2, true) := by
  simp only [report_diff_go]
  rw [if_pos (Or.inr hi2)]
  rw [if_neg (fun hc => hni1 hc.1)]
  rw [if_neg (fun hc => hni1 hc.1)]
  rw [if_neg (fun hc => hni1 hc.1)]
  rw [if_pos ⟨hi2, hc2⟩]
  rw [if_pos hseg]

/-- The one-sided REMOVE step of the report scan. -/
theorem report_go_step_rem (data1 data2 : List Int) (c1 c2 : List Bool) (ctx F i1 i2 : Nat)
    (hunks : List (List DiffOp)) (ops : List DiffOp) (changed : Bool)
    (hni2 : ¬ i2 < c2.length) (hi1 : i1 < c1.length)
    (hc1 : c1.getD i1 false = true)
    (hseg : (next_change_segment i1 c1 data1).2.1 < (next_change_segment i1 c1 data1).2.2) :
    report_diff_go data1 data2 c1 c2 ctx (F+1) i1 i2 (hunks, ops, changed)
      = report_diff_go data1 data2 c1 c2 ctx F (next_change_segment i1 c1 data1).1 i2
          ((add_change_segment ctx (hunks, ops)
            ⟨DIFF_OP_REMOVE, (next_change_segment i1 c1 data1).2.1,
             (next_change_segment i1 c1 data1).2.2, i2, i2⟩).1,
           (add_change_segment ctx (hunks, ops)
            ⟨DIFF_OP_REMOVE, (next_change_segment i1 c1 data1).2.1,
             (next_change_segment i1 c1 data1).2.2, i2, i2⟩).2, true) := by
  simp only [report_diff_go]
  rw [if_pos (Or.inl hi1)]
  rw [if_neg (fun hc => hni2 hc.2.1)]
  rw [if_neg (fun hc => hni2 hc.2.1)]
  rw [if_pos ⟨hi1, hc1⟩]
  rw [if_pos hseg]

/-- The report scan over two all-false bitmaps of equal length reports
nothing. -/
theorem report_go_all_false (data1 data2 : List Int) (ctx n : Nat) :
    ∀ fuel k, n ≤ k + fuel →
      report_diff_go data1 data2 (List.replicate n false) (List.replicate n false) ctx
        fuel k k ([], [], false) = ([], false) := by
  intro fuel
  induction fuel with
  | zero => intro k h; rfl
  | succ m ih =>
    intro k h
    by_cases hk : k < n
    · rw [report_go_skip data1 data2 (List.replicate n false) (List.replicate n false) ctx m k k
        [] [] false (by simp [hk]) (by simp [hk])
        (by rw [getD_replicate']; simp) (by rw [getD_replicate']; simp)]
      exact ih (k+1) (by omega)
    · rw [report_go_exit_nil data1 data2 (List.replicate n false) (List.replicate n false) ctx m
        k k [] false (by simp; omega)]

theorem report_both_false (data1 data2 : List Int) (ctx n : Nat) :
    report_diff data1 data2 (List.replicate n false) (List.replicate n false) ctx
      = ([], false) := by
  simp only [report_diff]
  exact report_go_all_false data1 data2 ctx n
    ((List.replicate n false).length + (List.replicate n false).length + 1) 0
    (by simp only [List.length_replicate]; omega)

/-- The whole-side change run of an all-true bitmap, over blank-free ids, is
the untrimmed full range. -/
theorem next_change_segment_all_true (data : List Int) (n : Nat) (hn : 0 < n)
    (hlen : data.length = n) (hnz : ∀ p, p < data.length → ¬ data.getD p 0 = 0) :
    next_change_segment 0 (List.replicate n true) data = (n, 0, n) := by
  rw [next_change_segment_nonzero 0 (List.replicate n true) data
    (by simp; omega) (by simp [hlen]) hnz]
  rw [findRunEnd_all (List.replicate n true)
    (fun p hp => by rw [getD_replicate']; simp at hp; simp [hp]) (List.replicate n true).length
    (0+1) (by simp) (by simp; omega)]
  simp

/-- Appending a first op to an empty pending stream keeps it alone (no context
precedes position 0). -/
theorem add_change_first (ctx : Nat) (op : DiffOp) (hop : op.op ≠ 0)
    (h1 : op.start1 = 0) (h2 : op.start2 = 0) :
    add_change_segment ctx ([], ([] : List DiffOp)) op = ([], [op]) := by
  simp only [add_change_segment, List.getLast?_nil, List.length_nil]
  rw [if_pos hop]
  rw [if_neg (fun hc => absurd hc.1 (by omega))]
  rw [h1, h2]
  rw [if_neg (fun hc => by rcases hc with h | h <;> exact absurd h (Nat.not_lt_zero _))]
  simp

/-- Flushing a single op whose ends touch both list ends emits no trailing
context. -/
theorem add_change_final (ctx n1 n2 : Nat) (op : DiffOp)
    (he1 : op.end1 = n1) (he2 : op.end2 = n2) :
    add_change_segment ctx ([], [op]) ⟨0, n1, n1, n2, n2⟩ = ([[op]], []) := by
  simp only [add_change_segment, List.getLast?_singleton, List.length_singleton]
  rw [he1, he2]
  rw [if_pos ⟨by omega, Or.inl (by simp)⟩]
  rw [if_neg (show ¬(min n1 (n1 + ctx) > n1 ∨ min n2 (n2 + ctx) > n2) by
    rw [not_or]
    constructor
    · simp only [gt_iff_lt, not_lt]
      exact min_le_left _ _
    · simp only [gt_iff_lt, not_lt]
      exact min_le_left _ _)]
  rw [if_neg (show ¬(max n1 (n1 - ctx) < n1 ∨ max n2 (n2 - ctx) < n2) by
    rw [not_or]
    constructor
    · simp only [not_lt]
      exact le_max_left _ _
    · simp only [not_lt]
      exact le_max_left _ _)]
  rw [if_neg (by simp)]
  simp

/-- Report of an empty first side against a fully-marked second side: one hunk
holding a single INSERT op covering the whole second side. -/
theorem report_insert (data2 : List Int) (ctx n : Nat) (hn : 0 < n)
    (hlen : data2.length = n) (hnz : ∀ p, p < data2.length → ¬ data2.getD p 0 = 0) :
    report_diff [] data2 [] (List.replicate n true) ctx
      = ([[⟨DIFF_OP_INSERT, 0, 0, 0, n⟩]], true) := by
  have hseg := next_change_segment_all_true data2 n hn hlen hnz
  obtain ⟨m, rfl⟩ : ∃ m, n = m + 1 := ⟨n - 1, by omega⟩
  simp only [report_diff]
  rw [show ([] : List Bool).length + (List.replicate (m+1) true).length + 1 = (m+1) + 1 by simp]
  rw [report_go_step_ins [] data2 [] (List.replicate (m+1) true) ctx (m+1) 0 0 [] [] false
    (by simp) (by simp) (by rw [getD_replicate']; simp) (by rw [hseg]; simp)]
  simp only [hseg]
  rw [add_change_first ctx ⟨DIFF_OP_INSERT, 0, 0, 0, m+1⟩ (by simp [DIFF_OP_INSERT]) rfl rfl]
  rw [report_go_exit_flush [] data2 [] (List.replicate (m+1) true) ctx m 0 (m+1)
    [] [⟨DIFF_OP_INSERT, 0, 0, 0, m+1⟩] true (by simp) (by simp)]
  rw [show (([] : List Bool)).length = 0 from rfl, List.length_replicate]
  rw [add_change_final ctx 0 (m+1) ⟨DIFF_OP_INSERT, 0, 0, 0, m+1⟩ rfl rfl]

/-- Report of a fully-marked first side against an empty second side: one hunk
holding a single REMOVE op covering the whole first side. -/
theorem report_remove (data1 : List Int) (ctx n : Nat) (hn : 0 < n)
    (hlen : data1.length = n) (hnz : ∀ p, p < data1.length → ¬ data1.getD p 0 = 0) :
    report_diff data1 [] (List.replicate n true) [] ctx
      = ([[⟨DIFF_OP_REMOVE, 0, n, 0, 0⟩]], true) := by
  have hseg := next_change_segment_all_true data1 n hn hlen hnz
  obtain ⟨m, rfl⟩ : ∃ m, n = m + 1 := ⟨n - 1, by omega⟩
  simp only [report_diff]
  rw [show (List.replicate (m+1) true).length + ([] : List Bool).length + 1 = (m+1) + 1 by simp]
  rw [report_go_step_rem data1 [] (List.replicate (m+1) true) [] ctx (m+1) 0 0 [] [] false
    (by simp) (by simp) (by rw [getD_replicate']; simp) (by rw [hseg]; simp)]
  simp only [hseg]
  rw [add_change_first ctx ⟨DIFF_OP_REMOVE, 0, m+1, 0, 0⟩ (by simp [DIFF_OP_REMOVE]) rfl rfl]
  rw [report_go_exit_flush data1 [] (List.replicate (m+1) true) [] ctx m (m+1) 0
    [] [⟨DIFF_OP_REMOVE, 0, m+1, 0, 0⟩] true (by simp) (by simp)]
  rw [show (([] : List Bool)).length = 0 from rfl, List.length_replicate]
  rw [add_change_final ctx (m+1) 0 ⟨DIFF_OP_REMOVE, 0, m+1, 0, 0⟩ rfl rfl]

/-- C3 amended: under any configuration with blank-line suppression off, the
core returns an empty op stream with `changed = false` on inputs that compare
equal pointwise (both-empty included), and on one-sided-empty inputs it
returns a single hunk holding one INSERT (resp. REMOVE) op covering the whole
non-empty side, with `changed = true`. -/
theorem c3_amended (u : UnicodeModel) (hu : u.Progress) (f : Flags)
    (hbl : f.ignore_blank_lines = false) :
    (∀ lines1 lines2 : List Line, lines1.length = lines2.length →
      (∀ k, k < lines1.length →
        installedCompare u f (lines1.getD k []) (lines2.getD k []) = true) →
      diff_core (installedCompare u f) (installedHash u f) f lines1 lines2 = ([], false)) ∧
    diff_core (installedCompare u f) (installedHash u f) f [] [] = ([], false) ∧
    (∀ lines2 : List Line, lines2 ≠ [] →
      diff_core (installedCompare u f) (installedHash u f) f [] lines2
        = ([[⟨DIFF_OP_INSERT, 0, 0, 0, lines2.length⟩]], true)) ∧
    (∀ lines1 : List Line, lines1 ≠ [] →
      diff_core (installedCompare u f) (installedHash u f) f lines1 []
        = ([[⟨DIFF_OP_REMOVE, 0, lines1.length, 0, 0⟩]], true)) := by
  have hc := installedCompare_iff u hu f
  have hh := installedHash_respects u hu f
  have hpart1 : ∀ lines1 lines2 : List Line, lines1.length = lines2.length →
      (∀ k, k < lines1.length →
        installedCompare u f (lines1.getD k []) (lines2.getD k []) = true) →
      diff_core (installedCompare u f) (installedHash u f) f lines1 lines2 = ([], false) := by
    intro lines1 lines2 hlen hcmp
    have hbpos : 0 < (bucketsFor ((lines1.length + lines2.length) * 2)) := bucketsFor_pos _
    have hinit1 : TableInv (installedCanon u f) (installedHash u f) (bucketsFor ((lines1.length + lines2.length) * 2)) 1 (initTable (installedHash u f) f (bucketsFor ((lines1.length + lines2.length) * 2))) 1 := by
      have h := initTable_inv (installedCanon u f) (installedHash u f) (bucketsFor ((lines1.length + lines2.length) * 2)) hbpos f
      rw [hbl] at h
      simpa using h
    have hspec1 := classifyLines_spec (installedCanon u f) (installedCompare u f) (installedHash u f) (bucketsFor ((lines1.length + lines2.length) * 2)) 1 hbpos hc hh
      lines1 (initTable (installedHash u f) f (bucketsFor ((lines1.length + lines2.length) * 2))) 1 hinit1
    have hspec2 := classifyLines_spec (installedCanon u f) (installedCompare u f) (installedHash u f) (bucketsFor ((lines1.length + lines2.length) * 2)) 1 hbpos hc hh
      lines2 (classifyLines (installedCompare u f) (installedHash u f) (bucketsFor ((lines1.length + lines2.length) * 2)) ((initTable (installedHash u f) f (bucketsFor ((lines1.length + lines2.length) * 2))), 1) lines1).1.1 (classifyLines (installedCompare u f) (installedHash u f) (bucketsFor ((lines1.length + lines2.length) * 2)) ((initTable (installedHash u f) f (bucketsFor ((lines1.length + lines2.length) * 2))), 1) lines1).1.2 hspec1.1
    have hlen1 : (classifyLines (installedCompare u f) (installedHash u f) (bucketsFor ((lines1.length + lines2.length) * 2)) ((initTable (installedHash u f) f (bucketsFor ((lines1.length + lines2.length) * 2))), 1) lines1).2.length = lines1.length := classifyLines_length _ _ _ _ _
    have hlen2 : (classifyLines (installedCompare u f) (installedHash u f) (bucketsFor ((lines1.length + lines2.length) * 2)) (classifyLines (installedCompare u f) (installedHash u f) (bucketsFor ((lines1.length + lines2.length) * 2)) ((initTable (installedHash u f) f (bucketsFor ((lines1.length + lines2.length) * 2))), 1) lines1).1 lines2).2.length = lines2.length := classifyLines_length _ _ _ _ _
    have hmono : (classifyLines (installedCompare u f) (installedHash u f) (bucketsFor ((lines1.length + lines2.length) * 2)) ((initTable (installedHash u f) f (bucketsFor ((lines1.length + lines2.length) * 2))), 1) lines1).1.2 ≤ (classifyLines (installedCompare u f) (installedHash u f) (bucketsFor ((lines1.length + lines2.length) * 2)) (classifyLines (installedCompare u f) (installedHash u f) (bucketsFor ((lines1.length + lines2.length) * 2)) ((initTable (installedHash u f) f (bucketsFor ((lines1.length + lines2.length) * 2))), 1) lines1).1 lines2).1.2 := hspec2.2.1
    have happ := classifyLines_append (installedCompare u f) (installedHash u f) (bucketsFor ((lines1.length + lines2.length) * 2)) lines1 lines2 ((initTable (installedHash u f) f (bucketsFor ((lines1.length + lines2.length) * 2))), 1)
    have h2eq : (classifyLines (installedCompare u f) (installedHash u f) (bucketsFor ((lines1.length + lines2.length) * 2)) ((initTable (installedHash u f) f (bucketsFor ((lines1.length + lines2.length) * 2))), 1) (lines1 ++ lines2)).2
        = (classifyLines (installedCompare u f) (installedHash u f) (bucketsFor ((lines1.length + lines2.length) * 2)) ((initTable (installedHash u f) f (bucketsFor ((lines1.length + lines2.length) * 2))), 1) lines1).2 ++ (classifyLines (installedCompare u f) (installedHash u f) (bucketsFor ((lines1.length + lines2.length) * 2)) (classifyLines (installedCompare u f) (installedHash u f) (bucketsFor ((lines1.length + lines2.length) * 2)) ((initTable (installedHash u f) f (bucketsFor ((lines1.length + lines2.length) * 2))), 1) lines1).1 lines2).2 := by
      rw [happ]
    have hpoint : ∀ k, k < lines1.length → (classifyLines (installedCompare u f) (installedHash u f) (bucketsFor ((lines1.length + lines2.length) * 2)) ((initTable (installedHash u f) f (bucketsFor ((lines1.length + lines2.length) * 2))), 1) lines1).2.getD k 0 = (classifyLines (installedCompare u f) (installedHash u f) (bucketsFor ((lines1.length + lines2.length) * 2)) (classifyLines (installedCompare u f) (installedHash u f) (bucketsFor ((lines1.length + lines2.length) * 2)) ((initTable (installedHash u f) f (bucketsFor ((lines1.length + lines2.length) * 2))), 1) lines1).1 lines2).2.getD k 0 := by
      intro k hk
      have hiff := classifier_iff (installedCanon u f) (installedCompare u f) (installedHash u f) (bucketsFor ((lines1.length + lines2.length) * 2)) hbpos hc hh f
        (lines1 ++ lines2) k (lines1.length + k)
        (by rw [List.length_append]; omega) (by rw [List.length_append]; omega)
      rw [h2eq] at hiff
      rw [List.getD_append (classifyLines (installedCompare u f) (installedHash u f) (bucketsFor ((lines1.length + lines2.length) * 2)) ((initTable (installedHash u f) f (bucketsFor ((lines1.length + lines2.length) * 2))), 1) lines1).2 (classifyLines (installedCompare u f) (installedHash u f) (bucketsFor ((lines1.length + lines2.length) * 2)) (classifyLines (installedCompare u f) (installedHash u f) (bucketsFor ((lines1.length + lines2.length) * 2)) ((initTable (installedHash u f) f (bucketsFor ((lines1.length + lines2.length) * 2))), 1) lines1).1 lines2).2 0 k (by omega)] at hiff
      rw [List.getD_append_right (classifyLines (installedCompare u f) (installedHash u f) (bucketsFor ((lines1.length + lines2.length) * 2)) ((initTable (installedHash u f) f (bucketsFor ((lines1.length + lines2.length) * 2))), 1) lines1).2 (classifyLines (installedCompare u f) (installedHash u f) (bucketsFor ((lines1.length + lines2.length) * 2)) (classifyLines (installedCompare u f) (installedHash u f) (bucketsFor ((lines1.length + lines2.length) * 2)) ((initTable (installedHash u f) f (bucketsFor ((lines1.length + lines2.length) * 2))), 1) lines1).1 lines2).2 0 (lines1.length + k) (by omega)] at hiff
      rw [List.getD_append lines1 lines2 [] k hk] at hiff
      rw [List.getD_append_right lines1 lines2 [] (lines1.length + k) (by omega)] at hiff
      rw [show lines1.length + k - (classifyLines (installedCompare u f) (installedHash u f) (bucketsFor ((lines1.length + lines2.length) * 2)) ((initTable (installedHash u f) f (bucketsFor ((lines1.length + lines2.length) * 2))), 1) lines1).2.length = k by omega] at hiff
      rw [show lines1.length + k - lines1.length = k by omega] at hiff
      exact hiff.mpr (hcmp k hk)
    have hbound1 : ∀ k, k < lines1.length → (classifyLines (installedCompare u f) (installedHash u f) (bucketsFor ((lines1.length + lines2.length) * 2)) ((initTable (installedHash u f) f (bucketsFor ((lines1.length + lines2.length) * 2))), 1) lines1).2.getD k 0 ≤ (classifyLines (installedCompare u f) (installedHash u f) (bucketsFor ((lines1.length + lines2.length) * 2)) (classifyLines (installedCompare u f) (installedHash u f) (bucketsFor ((lines1.length + lines2.length) * 2)) ((initTable (installedHash u f) f (bucketsFor ((lines1.length + lines2.length) * 2))), 1) lines1).1 lines2).1.2 - 1 := by
      intro k hk
      obtain ⟨e, hIn, hid, _⟩ := hspec1.2.2.2.2 k hk
      have hb := hspec1.1.2.2.2.1 e hIn
      rw [hid] at hb
      omega
    have hbound2 : ∀ k, k < lines1.length → (classifyLines (installedCompare u f) (installedHash u f) (bucketsFor ((lines1.length + lines2.length) * 2)) (classifyLines (installedCompare u f) (installedHash u f) (bucketsFor ((lines1.length + lines2.length) * 2)) ((initTable (installedHash u f) f (bucketsFor ((lines1.length + lines2.length) * 2))), 1) lines1).1 lines2).2.getD k 0 ≤ (classifyLines (installedCompare u f) (installedHash u f) (bucketsFor ((lines1.length + lines2.length) * 2)) ((initTable (installedHash u f) f (bucketsFor ((lines1.length + lines2.length) * 2))), 1) lines1).1.2 - 1 := by
      intro k hk
      rw [← hpoint k hk]
      obtain ⟨e, hIn, hid, _⟩ := hspec1.2.2.2.2 k hk
      have hb := hspec1.1.2.2.2.1 e hIn
      rw [hid] at hb
      omega
    have hmain : diff_core (installedCompare u f) (installedHash u f) f lines1 lines2
        = report_diff (classifyLines (installedCompare u f) (installedHash u f) (bucketsFor ((lines1.length + lines2.length) * 2)) ((initTable (installedHash u f) f (bucketsFor ((lines1.length + lines2.length) * 2))), 1) lines1).2 (classifyLines (installedCompare u f) (installedHash u f) (bucketsFor ((lines1.length + lines2.length) * 2)) (classifyLines (installedCompare u f) (installedHash u f) (bucketsFor ((lines1.length + lines2.length) * 2)) ((initTable (installedHash u f) f (bucketsFor ((lines1.length + lines2.length) * 2))), 1) lines1).1 lines2).2
            (shift_boundaries (classifyLines (installedCompare u f) (installedHash u f) (bucketsFor ((lines1.length + lines2.length) * 2)) ((initTable (installedHash u f) f (bucketsFor ((lines1.length + lines2.length) * 2))), 1) lines1).2 (List.replicate lines1.length false) none)
            (shift_boundaries (classifyLines (installedCompare u f) (installedHash u f) (bucketsFor ((lines1.length + lines2.length) * 2)) (classifyLines (installedCompare u f) (installedHash u f) (bucketsFor ((lines1.length + lines2.length) * 2)) ((initTable (installedHash u f) f (bucketsFor ((lines1.length + lines2.length) * 2))), 1) lines1).1 lines2).2 (List.replicate lines2.length false) none)
            f.context_lines := by
      simp only [diff_core, pipeline_shifted, pipeline_expanded, find_equiv_lines]
      rw [compress_equal
        { ids := (classifyLines (installedCompare u f) (installedHash u f) (bucketsFor ((lines1.length + lines2.length) * 2)) ((initTable (installedHash u f) f (bucketsFor ((lines1.length + lines2.length) * 2))), 1) lines1).2, zids := none, zcount := none,
          change := List.replicate lines1.length false, zids_start := 0, zids_end := 0 }
        { ids := (classifyLines (installedCompare u f) (installedHash u f) (bucketsFor ((lines1.length + lines2.length) * 2)) (classifyLines (installedCompare u f) (installedHash u f) (bucketsFor ((lines1.length + lines2.length) * 2)) ((initTable (installedHash u f) f (bucketsFor ((lines1.length + lines2.length) * 2))), 1) lines1).1 lines2).2, zids := none, zcount := none,
          change := List.replicate lines2.length false, zids_start := 0, zids_end := 0 }
        _ _ lines1.length hlen1 (hlen2.trans hlen.symm) hpoint hbound1 hbound2]
    rw [hmain]
    rw [shift_all_false (classifyLines (installedCompare u f) (installedHash u f) (bucketsFor ((lines1.length + lines2.length) * 2)) ((initTable (installedHash u f) f (bucketsFor ((lines1.length + lines2.length) * 2))), 1) lines1).2 lines1.length none hlen1.symm]
    rw [shift_all_false (classifyLines (installedCompare u f) (installedHash u f) (bucketsFor ((lines1.length + lines2.length) * 2)) (classifyLines (installedCompare u f) (installedHash u f) (bucketsFor ((lines1.length + lines2.length) * 2)) ((initTable (installedHash u f) f (bucketsFor ((lines1.length + lines2.length) * 2))), 1) lines1).1 lines2).2 lines2.length none hlen2.symm]
    rw [show lines2.length = lines1.length from hlen.symm]
    exact report_both_false _ _ f.context_lines lines1.length
  have hpart3 : ∀ lines2 : List Line, lines2 ≠ [] →
      diff_core (installedCompare u f) (installedHash u f) f [] lines2
        = ([[⟨DIFF_OP_INSERT, 0, 0, 0, lines2.length⟩]], true) := by
    intro lines2 hne
    have hn : 0 < lines2.length := List.length_pos.mpr hne
    have hbpos : 0 < (bucketsFor ((([] : List Line).length + lines2.length) * 2)) := bucketsFor_pos _
    have hinit1 : TableInv (installedCanon u f) (installedHash u f) (bucketsFor ((([] : List Line).length + lines2.length) * 2)) 1 (initTable (installedHash u f) f (bucketsFor ((([] : List Line).length + lines2.length) * 2))) 1 := by
      have h := initTable_inv (installedCanon u f) (installedHash u f) (bucketsFor ((([] : List Line).length + lines2.length) * 2)) hbpos f
      rw [hbl] at h
      simpa using h
    have hspec2 := classifyLines_spec (installedCanon u f) (installedCompare u f) (installedHash u f) (bucketsFor ((([] : List Line).length + lines2.length) * 2)) 1 hbpos hc hh
      lines2 (initTable (installedHash u f) f (bucketsFor ((([] : List Line).length + lines2.length) * 2))) 1 hinit1
    have hlen2 : (classifyLines (installedCompare u f) (installedHash u f) (bucketsFor ((([] : List Line).length + lines2.length) * 2)) ((initTable (installedHash u f) f (bucketsFor ((([] : List Line).length + lines2.length) * 2))), 1) lines2).2.length = lines2.length := classifyLines_length _ _ _ _ _
    have hnz : ∀ p, p < (classifyLines (installedCompare u f) (installedHash u f) (bucketsFor ((([] : List Line).length + lines2.length) * 2)) ((initTable (installedHash u f) f (bucketsFor ((([] : List Line).length + lines2.length) * 2))), 1) lines2).2.length → ¬ (classifyLines (installedCompare u f) (installedHash u f) (bucketsFor ((([] : List Line).length + lines2.length) * 2)) ((initTable (installedHash u f) f (bucketsFor ((([] : List Line).length + lines2.length) * 2))), 1) lines2).2.getD p 0 = 0 := by
      intro p hp hzero
      rw [hlen2] at hp
      obtain ⟨e, hIn, hid, _⟩ := hspec2.2.2.2.2 p hp
      have hb := hspec2.1.2.2.2.1 e hIn
      rw [hid, hzero] at hb
      omega
    have hmain : diff_core (installedCompare u f) (installedHash u f) f [] lines2
        = report_diff [] (classifyLines (installedCompare u f) (installedHash u f) (bucketsFor ((([] : List Line).length + lines2.length) * 2)) ((initTable (installedHash u f) f (bucketsFor ((([] : List Line).length + lines2.length) * 2))), 1) lines2).2
            (shift_boundaries [] [] none)
            (shift_boundaries (classifyLines (installedCompare u f) (installedHash u f) (bucketsFor ((([] : List Line).length + lines2.length) * 2)) ((initTable (installedHash u f) f (bucketsFor ((([] : List Line).length + lines2.length) * 2))), 1) lines2).2
              (markRange (List.replicate lines2.length false) 0 (classifyLines (installedCompare u f) (installedHash u f) (bucketsFor ((([] : List Line).length + lines2.length) * 2)) ((initTable (installedHash u f) f (bucketsFor ((([] : List Line).length + lines2.length) * 2))), 1) lines2).2.length) none)
            f.context_lines := by
      simp only [diff_core, pipeline_shifted, pipeline_expanded, find_equiv_lines]
      rw [compress_empty1
        { ids := (classifyLines (installedCompare u f) (installedHash u f) (bucketsFor ((([] : List Line).length + lines2.length) * 2)) ((initTable (installedHash u f) f (bucketsFor ((([] : List Line).length + lines2.length) * 2))), 1) ([] : List Line)).2, zids := none, zcount := none,
          change := List.replicate ([] : List Line).length false, zids_start := 0, zids_end := 0 }
        _ _ _ rfl]
      rfl
    rw [hmain]
    rw [show shift_boundaries ([] : List Int) ([] : List Bool) none = ([] : List Bool) from rfl]
    rw [hlen2]
    rw [markRange_replicate lines2.length]
    rw [shift_all_true (classifyLines (installedCompare u f) (installedHash u f) (bucketsFor ((([] : List Line).length + lines2.length) * 2)) ((initTable (installedHash u f) f (bucketsFor ((([] : List Line).length + lines2.length) * 2))), 1) lines2).2 lines2.length none hlen2.symm]
    exact report_insert (classifyLines (installedCompare u f) (installedHash u f) (bucketsFor ((([] : List Line).length + lines2.length) * 2)) ((initTable (installedHash u f) f (bucketsFor ((([] : List Line).length + lines2.length) * 2))), 1) lines2).2 f.context_lines lines2.length hn hlen2 hnz
  have hpart4 : ∀ lines1 : List Line, lines1 ≠ [] →
      diff_core (installedCompare u f) (installedHash u f) f lines1 []
        = ([[⟨DIFF_OP_REMOVE, 0, lines1.length, 0, 0⟩]], true) := by
    intro lines1 hne
    have hn : 0 < lines1.length := List.length_pos.mpr hne
    have hbpos : 0 < (bucketsFor ((lines1.length + ([] : List Line).length) * 2)) := bucketsFor_pos _
    have hinit1 : TableInv (installedCanon u f) (installedHash u f) (bucketsFor ((lines1.length + ([] : List Line).length) * 2)) 1 (initTable (installedHash u f) f (bucketsFor ((lines1.length + ([] : List Line).length) * 2))) 1 := by
      have h := initTable_inv (installedCanon u f) (installedHash u f) (bucketsFor ((lines1.length + ([] : List Line).length) * 2)) hbpos f
      rw [hbl] at h
      simpa using h
    have hspec1 := classifyLines_spec (installedCanon u f) (installedCompare u f) (installedHash u f) (bucketsFor ((lines1.length + ([] : List Line).length) * 2)) 1 hbpos hc hh
      lines1 (initTable (installedHash u f) f (bucketsFor ((lines1.length + ([] : List Line).length) * 2))) 1 hinit1
    have hlen1 : (classifyLines (installedCompare u f) (installedHash u f) (bucketsFor ((lines1.length + ([] : List Line).length) * 2)) ((initTable (installedHash u f) f (bucketsFor ((lines1.length + ([] : List Line).length) * 2))), 1) lines1).2.length = lines1.length := classifyLines_length _ _ _ _ _
    have hnz : ∀ p, p < (classifyLines (installedCompare u f) (installedHash u f) (bucketsFor ((lines1.length + ([] : List Line).length) * 2)) ((initTable (installedHash u f) f (bucketsFor ((lines1.length + ([] : List Line).length) * 2))), 1) lines1).2.length → ¬ (classifyLines (installedCompare u f) (installedHash u f) (bucketsFor ((lines1.length + ([] : List Line).length) * 2)) ((initTable (installedHash u f) f (bucketsFor ((lines1.length + ([] : List Line).length) * 2))), 1) lines1).2.getD p 0 = 0 := by
      intro p hp hzero
      rw [hlen1] at hp
      obtain ⟨e, hIn, hid, _⟩ := hspec1.2.2.2.2 p hp
      have hb := hspec1.1.2.2.2.1 e hIn
      rw [hid, hzero] at hb
      omega
    have hmain : diff_core (installedCompare u f) (installedHash u f) f lines1 []
        = report_diff (classifyLines (installedCompare u f) (installedHash u f) (bucketsFor ((lines1.length + ([] : List Line).length) * 2)) ((initTable (installedHash u f) f (bucketsFor ((lines1.length + ([] : List Line).length) * 2))), 1) lines1).2 []
            (shift_boundaries (classifyLines (installedCompare u f) (installedHash u f) (bucketsFor ((lines1.length + ([] : List Line).length) * 2)) ((initTable (installedHash u f) f (bucketsFor ((lines1.length + ([] : List Line).length) * 2))), 1) lines1).2
              (markRange (List.replicate lines1.length false) 0 (classifyLines (installedCompare u f) (installedHash u f) (bucketsFor ((lines1.length + ([] : List Line).length) * 2)) ((initTable (installedHash u f) f (bucketsFor ((lines1.length + ([] : List Line).length) * 2))), 1) lines1).2.length) none)
            (shift_boundaries [] [] none)
            f.context_lines := by
      simp only [diff_core, pipeline_shifted, pipeline_expanded, find_equiv_lines]
      rw [compress_empty2
        { ids := (classifyLines (installedCompare u f) (installedHash u f) (bucketsFor ((lines1.length + ([] : List Line).length) * 2)) ((initTable (installedHash u f) f (bucketsFor ((lines1.length + ([] : List Line).length) * 2))), 1) lines1).2, zids := none, zcount := none,
          change := List.replicate lines1.length false, zids_start := 0, zids_end := 0 }
        { ids := (classifyLines (installedCompare u f) (installedHash u f) (bucketsFor ((lines1.length + ([] : List Line).length) * 2)) (classifyLines (installedCompare u f) (installedHash u f) (bucketsFor ((lines1.length + ([] : List Line).length) * 2)) ((initTable (installedHash u f) f (bucketsFor ((lines1.length + ([] : List Line).length) * 2))), 1) lines1).1 ([] : List Line)).2, zids := none, zcount := none,
          change := List.replicate ([] : List Line).length false, zids_start := 0, zids_end := 0 }
        _ _ rfl (List.ne_nil_of_length_pos (by rw [hlen1]; exact hn))]
      rfl
    rw [hmain]
    rw [show shift_boundaries ([] : List Int) ([] : List Bool) none = ([] : List Bool) from rfl]
    rw [hlen1]
    rw [markRange_replicate lines1.length]
    rw [shift_all_true (classifyLines (installedCompare u f) (installedHash u f) (bucketsFor ((lines1.length + ([] : List Line).length) * 2)) ((initTable (installedHash u f) f (bucketsFor ((lines1.length + ([] : List Line).length) * 2))), 1) lines1).2 lines1.length none hlen1.symm]
    exact report_remove (classifyLines (installedCompare u f) (installedHash u f) (bucketsFor ((lines1.length + ([] : List Line).length) * 2)) ((initTable (installedHash u f) f (bucketsFor ((lines1.length + ([] : List Line).length) * 2))), 1) lines1).2 f.context_lines lines1.length hn hlen1 hnz
  exact ⟨hpart1, hpart1 [] [] rfl (fun k hk => absurd hk (by simp)), hpart3, hpart4⟩

/-- Witness for C3's amended theorem: under the `ignore_space_change`
configuration, the empty file against the one-line file `"a"` yields exactly
one INSERT op covering that line, with `changed = true`. -/
theorem c3_amended_witness :
    diff_core (installedCompare c7model c7flags) (installedHash c7model c7flags) c7flags
        [] [[97]]
      = ([[⟨DIFF_OP_INSERT, 0, 0, 0, 1⟩]], true) :=
  (c3_amended c7model (fun l hl => le_refl 1) c7flags rfl).2.2.1 [[97]] (by simp)

/-- Witness for C9's amended theorem at the counterexample's own scenario. -/
theorem c9_amended_witness :
    countTrue (shift_boundaries c9data (shift_boundaries c9data c9change (some c9score))
        (some c9score))
      = countTrue (shift_boundaries c9data c9change (some c9score)) ∧
    countTrue (shift_boundaries c9data c9change (some c9score)) = countTrue c9change :=
  c9_amended c9data c9change (some c9score) rfl

end Godiff
